import Mathlib

/-!
Verification of the storage and execution core of the rustydb engine
(NU-CS339-Lab3).  Rust sources are shallowly embedded: machine integers
become Nat/Int with explicit bounds, Vec<u8> becomes List Nat, Rust Result
becomes the Result monad below, and panics/aborts become Option.  IEEE-754
f32 values are represented by their 32-bit patterns; float arithmetic is
abstracted behind FOps (every theorem holds for an arbitrary choice of
those operations, hence for the real ones), while float comparison and the
NaN/zero tests, which the sources implement via explicit bit-level cases,
are modelled exactly.
-/

set_option maxHeartbeats 1000000
set_option maxRecDepth 2000

namespace RustyDb

/-! Byte-level helpers: little-endian encodings used by the serializers. -/

/-- Little-endian two-byte encoding of a u16 value (to_le_bytes). -/
def toLE2 (n : Nat) : List Nat := [n % 256, n / 256 % 256]

/-- Little-endian four-byte encoding of a u32 value (to_le_bytes; also the
bincode fixed-width encoding of a u32). -/
def toLE4 (n : Nat) : List Nat :=
  [n % 256, n / 256 % 256, n / 2 ^ 16 % 256, n / 2 ^ 24 % 256]

/-- Decode two little-endian bytes (from_le_bytes). -/
def readLE2 (a b : Nat) : Nat := a + 256 * b

/-- Decode four little-endian bytes (from_le_bytes). -/
def readLE4 (a b c d : Nat) : Nat := a + 256 * b + 2 ^ 16 * c + 2 ^ 24 * d

/-- Decode the u16 at byte position pos of a buffer. -/
def readLE2At (buf : List Nat) (pos : Nat) : Nat :=
  readLE2 (buf.getD pos 0) (buf.getD (pos + 1) 0)

/-- Decode the u32 at byte position pos of a buffer. -/
def readLE4At (buf : List Nat) (pos : Nat) : Nat :=
  readLE4 (buf.getD pos 0) (buf.getD (pos + 1) 0) (buf.getD (pos + 2) 0)
    (buf.getD (pos + 3) 0)

theorem readLE2At_toLE2 (n : Nat) : readLE2At (toLE2 n) 0 = n % 2 ^ 16 := by
  simp only [toLE2, readLE2At, readLE2, List.getD]
  simp
  omega

theorem readLE4At_toLE4 (n : Nat) : readLE4At (toLE4 n) 0 = n % 2 ^ 32 := by
  simp only [toLE4, readLE4At, readLE4, List.getD]
  simp
  omega

/-- Overwrite the bytes of buf starting at pos with xs
(copy_from_slice into a slice of a Vec). -/
def writeAt (buf : List Nat) (pos : Nat) (xs : List Nat) : List Nat :=
  buf.take pos ++ xs ++ buf.drop (pos + xs.length)

/-- The slice buf[s..e] of a byte vector. -/
def sliceBytes (buf : List Nat) (s e : Nat) : List Nat :=
  (buf.take e).drop s

theorem length_writeAt (buf xs : List Nat) (pos : Nat)
    (h : pos + xs.length ≤ buf.length) :
    (writeAt buf pos xs).length = buf.length := by
  simp [writeAt]
  omega

/-! The f32 bit-pattern model. -/

/-- An IEEE-754 single-precision value, represented by its 32-bit pattern. -/
structure F32 where
  bits : Nat
deriving DecidableEq, Repr

/-- True when the pattern denotes a NaN: exponent all ones, mantissa nonzero. -/
def F32.is_nan (f : F32) : Bool :=
  f.bits / 2 ^ 23 % 256 == 255 && f.bits % 2 ^ 23 != 0

/-- True when the value compares equal to 0.0 (the patterns of +0.0 and -0.0). -/
def F32.is_zero (f : F32) : Bool :=
  f.bits == 0 || f.bits == 2 ^ 31

/-- Sign bit of the pattern. -/
def F32.sign (f : F32) : Bool := f.bits / 2 ^ 31 % 2 == 1

/-- Magnitude bits (everything below the sign bit). -/
def F32.mag (f : F32) : Nat := f.bits % 2 ^ 31

/-- IEEE-754 comparison of two non-NaN f32 values, computed from the bit
patterns (f.partial_cmp(f2) in the sources; callers exclude NaN first). -/
def F32.cmp (a b : F32) : Ordering :=
  match a.sign, b.sign with
  | false, false => compare a.mag b.mag
  | true, true => compare b.mag a.mag
  | true, false => if a.mag == 0 && b.mag == 0 then .eq else .lt
  | false, true => if a.mag == 0 && b.mag == 0 then .eq else .gt

/-! The Field data model (src/types/field.rs) and errors (common::Error). -/

/-- Error kinds of common::Error that the embedded operations produce. -/
inductive Error where
  | invalidInput (msg : String)
  | outOfBounds
  | overflowError
  | invalidData (msg : String)
  | creationError
deriving DecidableEq, Repr

/-- Rust Result<T, Error>, as used throughout the sources. -/
inductive Result (α : Type) where
  | ok (val : α)
  | error (err : Error)
deriving DecidableEq, Repr

instance : Monad Result where
  pure := Result.ok
  bind m f := match m with
    | .ok v => f v
    | .error e => .error e

/-- Unwrap with a default, used when building concrete states. -/
def Result.getD {α : Type} (r : Result α) (d : α) : α :=
  match r with
  | .ok v => v
  | .error _ => d

theorem Result.bind_ok {α β : Type} (v : α) (f : α → Result β) :
    (Result.ok v >>= f) = f v := rfl

theorem Result.bind_error {α β : Type} (e : Error) (f : α → Result β) :
    (Result.error e >>= f) = Result.error e := rfl

/-- A SQL value (enum Field in field.rs).  Rust String values are modelled by
their UTF-8 byte sequences, so serialization is the identity on them and
comparison is byte-lexicographic, exactly as in the sources. -/
inductive Field where
  | null
  | boolean (b : Bool)
  | integer (i : Int)
  | float (f : F32)
  | string (s : List Nat)
deriving DecidableEq, Repr

/-- The DataType enum of schema.rs. -/
inductive DataType where
  | bool
  | int
  | float
  | text
  | invalid
deriving DecidableEq, Repr

/-- DataType::length_bytes (not for use with strings). -/
def DataType.length_bytes : DataType → Nat
  | .bool => 1
  | .int => 4
  | .float => 4
  | .text => 0
  | .invalid => 0

/-- Field::get_type. -/
def Field.get_type : Field → DataType
  | .null => .invalid
  | .boolean _ => .bool
  | .integer _ => .int
  | .float _ => .float
  | .string _ => .text

/-- Field::get_size: size in bytes (note Null reports 0 although its
serialization is one byte). -/
def Field.get_size : Field → Nat
  | .null => 0
  | .boolean _ => 1
  | .integer _ => 4
  | .float _ => 4
  | .string s => s.length

/-- Field::is_null. -/
def Field.is_null : Field → Bool
  | .null => true
  | _ => false

/-- The PartialEq impl for Field in field.rs: same-variant comparison, with
floats compared by IEEE equality except that two NaNs compare equal. -/
def Field.rust_eq : Field → Field → Bool
  | .null, .null => true
  | .boolean a, .boolean b => a == b
  | .integer a, .integer b => a == b
  | .float a, .float b =>
      (!a.is_nan && !b.is_nan && (a == b || (a.is_zero && b.is_zero))) ||
        (a.is_nan && b.is_nan)
  | .string a, .string b => a == b
  | _, _ => false

/-- Field::is_undefined: NULL or NaN. -/
def Field.is_undefined (f : Field) : Bool :=
  match f with
  | .null => true
  | .float x => x.is_nan
  | _ => false

/-- The Ord impl for Field in field.rs: Null < Bool < Int < Float < String,
NaN sorting as the greatest Float. -/
def Field.cmp : Field → Field → Ordering
  | .null, .null => .eq
  | .null, _ => .lt
  | _, .null => .gt
  | .boolean a, .boolean b => compare a b
  | .integer a, .integer b => compare a b
  | .float a, .float b =>
      match a.is_nan, b.is_nan with
      | true, true => .eq
      | true, false => .gt
      | false, true => .lt
      | false, false => F32.cmp a b
  | .string a, .string b => compare a b
  | .boolean _, _ => .lt
  | .integer _, .boolean _ => .gt
  | .integer _, _ => .lt
  | .float _, .boolean _ => .gt
  | .float _, .integer _ => .gt
  | .float _, _ => .lt
  | .string _, _ => .gt

/-- Abstract f32 arithmetic: addition, division, and the i32-to-f32 cast.
No claim depends on the numeric results of float arithmetic, so every
theorem is stated for an arbitrary choice of these operations. -/
structure FOps where
  add : F32 → F32 → F32
  div : F32 → F32 → F32
  ofInt : Int → F32

/-- A trivial instantiation of FOps, used to build concrete witnesses. -/
def ops0 : FOps where
  add := fun a _ => a
  div := fun a _ => a
  ofInt := fun _ => F32.mk 0

def i32Min : Int := -(2 ^ 31)

def i32Max : Int := 2 ^ 31 - 1

/-- Field::checked_add (field.rs).  The source formats the operands into the
InvalidData message; the operand text is elided here. -/
def Field.checked_add (ops : FOps) : Field → Field → Result Field
  | .integer lhs, .integer rhs =>
      if i32Min ≤ lhs + rhs ∧ lhs + rhs ≤ i32Max then .ok (.integer (lhs + rhs))
      else .error .overflowError
  | .integer lhs, .float rhs => .ok (.float (ops.add (ops.ofInt lhs) rhs))
  | .float lhs, .integer rhs => .ok (.float (ops.add lhs (ops.ofInt rhs)))
  | .float lhs, .float rhs => .ok (.float (ops.add lhs rhs))
  | .null, .integer _ => .ok .null
  | .null, .float _ => .ok .null
  | .integer _, .null => .ok .null
  | .float _, .null => .ok .null
  | .null, .null => .ok .null
  | _, _ => .error (.invalidData "Cannot add")

/-- The matches!(other, Integer(0) | Float(0.0)) guard of checked_div;
Rust's float pattern 0.0 matches both +0.0 and -0.0. -/
def Field.zero_divisor : Field → Bool
  | .integer i => i == 0
  | .float f => f.is_zero
  | _ => false

/-- Field::checked_div (field.rs): the zero-divisor test on the raw divisor
comes first, before any Null propagation.  Integer division is Rust's
truncated division. -/
def Field.checked_div (ops : FOps) (a b : Field) : Result Field :=
  if b.zero_divisor then
    .error (.invalidData "Division by zero")
  else
    match a, b with
    | .integer lhs, .integer rhs =>
        if Int.tmod lhs rhs == 0 then .ok (.integer (Int.tdiv lhs rhs))
        else .ok (.float (ops.div (ops.ofInt lhs) (ops.ofInt rhs)))
    | .integer lhs, .float rhs => .ok (.float (ops.div (ops.ofInt lhs) rhs))
    | .float lhs, .integer rhs => .ok (.float (ops.div lhs (ops.ofInt rhs)))
    | .float lhs, .float rhs => .ok (.float (ops.div lhs rhs))
    | .null, .integer _ => .ok .null
    | .null, .float _ => .ok .null
    | .integer _, .null => .ok .null
    | .float _, .null => .ok .null
    | .null, .null => .ok .null
    | _, _ => .error (.invalidData "Cannot divide")

/-- C10: for every Field x, checked_div(x, Integer(0)) and
checked_div(x, Float(0.0)) return the InvalidData "Division by zero" error;
the zero-divisor check precedes Null propagation, so checked_div(Null,
Integer(0)) is also this error rather than Null. -/
theorem checked_div_zero_divisor_errors (ops : FOps) (x : Field) :
    Field.checked_div ops x (.integer 0) =
      .error (.invalidData "Division by zero") ∧
    Field.checked_div ops x (.float (F32.mk 0)) =
      .error (.invalidData "Division by zero") := by
  constructor <;> simp [Field.checked_div, Field.zero_divisor, F32.is_zero]

/-! Record ids (storage/page/record_id.rs) and rows (storage/tuple/row.rs). -/

def INVALID_PID : Nat := 2 ^ 32 - 1

/-- RecordId: a (page_id, slot_id) pair; page_id is a u32, slot_id a u16. -/
structure RecordId where
  page_id : Nat
  slot_id : Nat
deriving DecidableEq, Repr

/-- The INVALID_RID sentinel used by operators for derived rows. -/
def INVALID_RID : RecordId := RecordId.mk INVALID_PID 0

/-- A Row is its ordered list of Field values. -/
abbrev Row := List Field

/-- Row::get_field: clone of the value at index, or OutOfBounds. -/
def Row.get_field (r : Row) (index : Nat) : Result Field :=
  match r[index]? with
  | some f => .ok f
  | none => .error .outOfBounds

/-- Row::update_field: replaces the value at index when the new value has the
same DataType, errors with InvalidInput otherwise (OutOfBounds past the end).
The source formats the new value into the InvalidInput message; the text is
elided here. -/
def Row.update_field (r : Row) (index : Nat) (new : Field) : Result Row :=
  match r[index]? with
  | none => .error .outOfBounds
  | some field =>
      if field.get_type == new.get_type then .ok (r.set index new)
      else .error (.invalidInput "type mismatch")

/-! The expression language of the planner. -/

/-- Modelled from the spec: the expression type lives in
src/sql/planner/expression.rs, which is absent from the provided sources
(only the mod declaration and its callers are present).  Spec section 4.H
says "Expressions evaluate against an optional current row and return a
Field"; the constructors modelled here are the ones the claims exercise:
constants, column references, SQL equality and addition. -/
inductive Expression where
  | const (f : Field)
  | column (i : Nat)
  | equal (l r : Expression)
  | add (l r : Expression)
deriving DecidableEq, Repr

/-- Modelled from the spec: expression evaluation against an optional row
(spec section 4.H).  Column references index the row; equality follows SQL
three-valued logic over the Field PartialEq of field.rs (spec section 3:
"Null propagates"); addition is Field's checked addition. -/
def Expression.evaluate (ops : FOps) : Expression → Option Row → Result Field
  | .const f, _ => .ok f
  | .column i, some row => row.get_field i
  | .column _, none => .error (.invalidInput "column reference without a row")
  | .equal l r, row => do
      let a ← l.evaluate ops row
      let b ← r.evaluate ops row
      if a = .null ∨ b = .null then pure .null
      else pure (.boolean (a.rust_eq b))
  | .add l r, row => do
      let a ← l.evaluate ops row
      let b ← r.evaluate ops row
      a.checked_add ops b

/-! The UPDATE write operator (handin/write.rs, fn update). -/

/-- The inner per-row loop of update in write.rs: for each
(column index, expression) pair, in order, evaluate the expression against
the CURRENT contents of the mutable row variable and store the result back
into it with update_field.  The row seen by a later expression therefore
already contains the effects of earlier updates. -/
def applyUpdates (ops : FOps) : List (Nat × Expression) → Row → Result Row
  | [], row => .ok row
  | (index, expr) :: rest, row => do
      let value ← expr.evaluate ops (some row)
      let row2 ← row.update_field index value
      applyUpdates ops rest row2

/-- update in write.rs: for each source row apply the update list, call
txn.update with the resulting row, and count the rows.  The sequence of
txn.update calls is returned together with the final count. -/
def update (ops : FOps) (expressions : List (Nat × Expression)) :
    List (RecordId × Row) → Result (List (RecordId × Row) × Nat)
  | [] => .ok ([], 0)
  | (record_id, row) :: rest => do
      let row2 ← applyUpdates ops expressions row
      let (writes, count) ← update ops expressions rest
      .ok ((record_id, row2) :: writes, count + 1)

/-- The behaviour C6 (and spec section 4.I) ascribes to update: every
expression is evaluated against the unmodified pre-update row, and only
then are all updates applied to a working copy. -/
def applyUpdatesPre (ops : FOps) (expressions : List (Nat × Expression))
    (row : Row) : Result Row := do
  let values ← expressions.mapM
    (fun p => do
      let v ← p.2.evaluate ops (some row)
      pure (p.1, v))
  values.foldlM (fun r p => r.update_field p.1 p.2) row

/-! The nested-loop join (handin/join.rs). -/

/-- The inner while loop of NestedLoopIterator::try_next for one left row:
walk the right source, concatenate each pair, and keep the pairs the
predicate evaluates to Boolean(true) (every pair when there is no
predicate).  Joined rows carry INVALID_RID. -/
def joinRight (ops : FOps) (predicate : Option Expression) (leftRow : Row) :
    List (RecordId × Row) → Result (List (RecordId × Row))
  | [] => .ok []
  | (_, rightRow) :: rest => do
      let joined : Row := leftRow ++ rightRow
      match predicate with
      | some p => do
          let v ← p.evaluate ops (some joined)
          let tail ← joinRight ops predicate leftRow rest
          match v with
          | .boolean true => pure ((INVALID_RID, joined) :: tail)
          | _ => pure tail
      | none => do
          let tail ← joinRight ops predicate leftRow rest
          pure ((INVALID_RID, joined) :: tail)

/-- nested_loop / NestedLoopIterator::try_next of handin/join.rs: for each
left row, scan a fresh copy of the right source and emit the matches.  The
block that would emit a Null-padded left row for an outer join with no
match is commented out in the source, so right_size and outer are received
but never used: unmatched left rows are silently dropped even when
outer=true. -/
def nested_loop (ops : FOps) (left right : List (RecordId × Row))
    (right_size : Nat) (predicate : Option Expression) (outer : Bool) :
    Result (List (RecordId × Row)) :=
  match left with
  | [] => .ok []
  | (_, leftRow) :: rest => do
      let matched ← joinRight ops predicate leftRow right
      let tail ← nested_loop ops rest right right_size predicate outer
      pure (matched ++ tail)

instance : LawfulMonad Result := LawfulMonad.mk' Result
  (fun x => by cases x <;> rfl)
  (fun _ _ => rfl)
  (fun x _ _ => by cases x <;> rfl)

/-- The left source of the C1 scenario: {(1,'a'), (2,'b')}. -/
def leftC1 : List (RecordId × Row) :=
  [(RecordId.mk 1 0, [Field.integer 1, Field.string [97]]),
   (RecordId.mk 1 1, [Field.integer 2, Field.string [98]])]

/-- The right source of the C1 scenario: {(2,'x')}. -/
def rightC1 : List (RecordId × Row) :=
  [(RecordId.mk 2 0, [Field.integer 2, Field.string [120]])]

/-- The predicate left.0 = right.0, expressed against the concatenated row. -/
def predC1 : Expression := Expression.equal (.column 0) (.column 2)

/-- C1: with Left = {(1,'a'),(2,'b')}, Right = {(2,'x')}, the predicate
left.0 = right.0 and outer=true, the nested-loop join emits only the
matching row (2,'b',2,'x'); the left row (1,'a') is never emitted padded
with Nulls, because the outer-join emission block of
NestedLoopIterator::try_next is commented out in the source, contradicting
the operator's own documentation. -/
theorem nested_loop_outer_drops_unmatched_left_row :
    nested_loop ops0 leftC1 rightC1 2 (some predC1) true =
      .ok [(INVALID_RID,
        [Field.integer 2, Field.string [98], Field.integer 2,
         Field.string [120]])] ∧
    (INVALID_RID, [Field.integer 1, Field.string [97], Field.null, Field.null])
      ∉ [(INVALID_RID,
        [Field.integer 2, Field.string [98], Field.integer 2,
         Field.string [120]])] := by
  constructor
  · rfl
  · decide

/-- The update list of the C6 counterexample:
SET col0 = col0 + 1, col1 = col0. -/
def exprsC6 : List (Nat × Expression) :=
  [(0, Expression.add (.column 0) (.const (.integer 1))), (1, Expression.column 0)]

/-- The source row of the C6 counterexample: (1, 10). -/
def rowC6 : Row := [Field.integer 1, Field.integer 10]

/-- C6 counterexample: on the row (1, 10) with updates
[col0 ← col0 + 1, col1 ← col0], the update loop of write.rs produces
(2, 2) — the second expression observes the effect of the first update —
while evaluating every expression against the pre-update row, as the claim
states, would produce (2, 1). -/
theorem update_observes_earlier_updates :
    applyUpdates ops0 exprsC6 rowC6 = .ok [Field.integer 2, Field.integer 2] ∧
    applyUpdatesPre ops0 exprsC6 rowC6 =
      .ok [Field.integer 2, Field.integer 1] ∧
    applyUpdates ops0 exprsC6 rowC6 ≠ applyUpdatesPre ops0 exprsC6 rowC6 ∧
    update ops0 exprsC6 [(RecordId.mk 1 0, rowC6)] =
      .ok ([(RecordId.mk 1 0, [Field.integer 2, Field.integer 2])], 1) := by
  refine ⟨by decide, by decide, by decide, by decide⟩

/-- The amended behaviour of update (C6): for each source row the updates are
applied left to right, each expression evaluated against the working row
that already contains the effects of the earlier updates in the list, and
txn.update is called exactly once per source row with the final working
row (the count being the number of rows processed). -/
def updateSeqSpec (ops : FOps) (expressions : List (Nat × Expression))
    (source : List (RecordId × Row)) :
    Result (List (RecordId × Row) × Nat) := do
  let writes ← source.mapM
    (fun p => do
      let row ← expressions.foldlM
        (fun row pe => do
          let v ← pe.2.evaluate ops (some row)
          row.update_field pe.1 v) p.2
      pure (p.1, row))
  pure (writes, writes.length)

theorem applyUpdates_eq_foldlM (ops : FOps)
    (exprs : List (Nat × Expression)) (row : Row) :
    applyUpdates ops exprs row =
      exprs.foldlM
        (fun r pe => do
          let v ← pe.2.evaluate ops (some r)
          r.update_field pe.1 v) row := by
  induction exprs generalizing row with
  | nil => rfl
  | cons e rest ih =>
      obtain ⟨index, expr⟩ := e
      simp only [applyUpdates, List.foldlM]
      cases expr.evaluate ops (some row) with
      | error er => rfl
      | ok v =>
          simp only [Result.bind_ok]
          cases Row.update_field row index v with
          | error er => rfl
          | ok row2 =>
              simp only [Result.bind_ok]
              exact ih row2

/-- C6 (amended): the update write operator is the sequential-update
semantics of updateSeqSpec — each expression sees the working row with all
earlier updates of the list applied, txn.update is called once per source
row with the resulting row, and the returned count is the number of rows
updated. -/
theorem update_eq_updateSeqSpec (ops : FOps)
    (exprs : List (Nat × Expression)) (source : List (RecordId × Row)) :
    update ops exprs source = updateSeqSpec ops exprs source := by
  induction source with
  | nil => rfl
  | cons p rest ih =>
      obtain ⟨record_id, row⟩ := p
      simp only [update, updateSeqSpec, List.mapM_cons,
        ← applyUpdates_eq_foldlM, bind_assoc]
      cases applyUpdates ops exprs row with
      | error er => rfl
      | ok row2 =>
          simp only [Result.bind_ok, pure_bind]
          have ih2 := ih
          simp only [updateSeqSpec] at ih2
          cases hm : rest.mapM
            (fun p =>
              applyUpdates ops exprs p.2 >>= fun row => pure (p.1, row)) with
          | error er =>
              rw [show update ops exprs rest = Result.error er by
                rw [ih2]
                simp only [← applyUpdates_eq_foldlM]
                rw [hm]
                rfl]
              rfl
          | ok writes =>
              rw [show update ops exprs rest =
                  Result.ok (writes, writes.length) by
                rw [ih2]
                simp only [← applyUpdates_eq_foldlM]
                rw [hm]
                rfl]
              rfl

/-! The aggregation operator (handin/aggregate.rs). -/

/-- The Aggregate plan variants (planner::Aggregate), each carrying the
aggregated expression. -/
inductive Aggregate where
  | average (e : Expression)
  | count (e : Expression)
  | max (e : Expression)
  | min (e : Expression)
  | sum (e : Expression)
deriving DecidableEq, Repr

/-- The enum Accumulator of aggregate.rs. -/
inductive Accumulator where
  | average (count : Int) (sum : Field)
  | count (c : Int)
  | max (m : Option Field)
  | min (m : Option Field)
  | sum (s : Option Field)
deriving DecidableEq, Repr

/-- Accumulator::new: the empty accumulator of an aggregate kind; Average
starts with sum Integer(0) regardless of the value type. -/
def Accumulator.new : Aggregate → Accumulator
  | .average _ => .average 0 (.integer 0)
  | .count _ => .count 0
  | .max _ => .max none
  | .min _ => .min none
  | .sum _ => .sum none

/-- The expression inside an Aggregate (the into-iter map of Aggregator::new). -/
def Aggregate.expr : Aggregate → Expression
  | .average e => e
  | .count e => e
  | .max e => e
  | .min e => e
  | .sum e => e

/-- Accumulator::add (aggregate.rs). -/
def Accumulator.add (ops : FOps) : Accumulator → Field → Result Accumulator
  | .sum s, value =>
      match s with
      | some current => do
          let c2 ← current.checked_add ops value
          pure (.sum (some c2))
      | none => do
          let v ← Field.checked_add ops (.integer 0) value
          pure (.sum (some v))
  | .average cnt total, value => do
      let s2 ← total.checked_add ops value
      pure (.average (cnt + 1) s2)
  | .count c, value =>
      pure (.count (if value.is_null then c else c + 1))
  | .max m, value =>
      pure (.max (match m with
        | some current => if value.cmp current = .gt then some value else some current
        | none => some value))
  | .min m, value =>
      pure (.min (match m with
        | some current => if value.cmp current = .lt then some value else some current
        | none => some value))

/-- Accumulator::value (aggregate.rs): finalize an accumulator. -/
def Accumulator.value (ops : FOps) : Accumulator → Result Field
  | .average cnt total =>
      if cnt = 0 then .ok .null
      else total.checked_div ops (.integer cnt)
  | .count c => .ok (.integer c)
  | .max v => .ok (v.getD .null)
  | .min v => .ok (v.getD .null)
  | .sum v => .ok (v.getD .null)

/-- The Ord impl on Vec<Field> used as the BTreeMap key: lexicographic over
Field::cmp. -/
def compareFieldList : List Field → List Field → Ordering
  | [], [] => .eq
  | [], _ :: _ => .lt
  | _ :: _, [] => .gt
  | a :: as, b :: bs =>
      match Field.cmp a b with
      | .eq => compareFieldList as bs
      | o => o

/-- BTreeMap lookup in the sorted bucket list. -/
def bucketsFind (buckets : List (List Field × List Accumulator))
    (key : List Field) : Option (List Accumulator) :=
  match buckets with
  | [] => none
  | (k, v) :: rest =>
      if compareFieldList key k = .eq then some v else bucketsFind rest key

/-- BTreeMap insert-or-replace, keeping the list sorted by the key order
(so that iteration is in ascending key order, as for the source's map). -/
def bucketsInsert (buckets : List (List Field × List Accumulator))
    (key : List Field) (accs : List Accumulator) :
    List (List Field × List Accumulator) :=
  match buckets with
  | [] => [(key, accs)]
  | (k, v) :: rest =>
      match compareFieldList key k with
      | .lt => (key, accs) :: (k, v) :: rest
      | .eq => (key, accs) :: rest
      | .gt => (k, v) :: bucketsInsert rest key accs

/-- The struct Aggregator of aggregate.rs: an ordered bucket map, the empty
accumulator template, the group_by expressions and the aggregated
expressions. -/
structure Aggregator where
  buckets : List (List Field × List Accumulator)
  empty : List Accumulator
  group_by : List Expression
  expressions : List Expression
deriving Repr

/-- Aggregator::new. -/
def Aggregator.new (group_by : List Expression)
    (aggregates : List Aggregate) : Aggregator where
  buckets := []
  empty := aggregates.map Accumulator.new
  group_by := group_by
  expressions := aggregates.map Aggregate.expr

/-- The zip of accumulators and expressions in Aggregator::add: pairs up to
the shorter list; leftover accumulators stay untouched. -/
def accumulateAll (ops : FOps) (row : Row) :
    List Accumulator → List Expression → Result (List Accumulator)
  | accs, [] => .ok accs
  | [], _ => .ok []
  | acc :: accs, e :: exprs => do
      let value ← e.evaluate ops (some row)
      let acc2 ← acc.add ops value
      let rest ← accumulateAll ops row accs exprs
      pure (acc2 :: rest)

/-- Aggregator::add: evaluate the bucket key, fetch or create the bucket's
accumulators, update each from its expression. -/
def Aggregator.add (ops : FOps) (agg : Aggregator) (row : Row) :
    Result Aggregator := do
  let bucket ← agg.group_by.mapM (fun e => e.evaluate ops (some row))
  let accumulators := (bucketsFind agg.buckets bucket).getD agg.empty
  let accumulators2 ← accumulateAll ops row accumulators agg.expressions
  pure { agg with buckets := bucketsInsert agg.buckets bucket accumulators2 }

/-- Aggregator::into_rows: with no buckets and no group_by expressions, a
single row of finalized empty accumulators; otherwise one row per bucket,
group_by values followed by finalized accumulator values. -/
def Aggregator.into_rows (ops : FOps) (agg : Aggregator) :
    Result (List (RecordId × Row)) :=
  match agg.buckets, agg.group_by with
  | [], [] => do
      let result ← agg.empty.mapM (Accumulator.value ops)
      pure [(INVALID_RID, result)]
  | _, _ =>
      agg.buckets.mapM
        (fun p => do
          let vals ← p.2.mapM (Accumulator.value ops)
          pure (INVALID_RID, p.1 ++ vals))

/-- aggregate (handin/aggregate.rs): drain the source into an Aggregator,
then emit its rows. -/
def aggregate (ops : FOps) (source : List (RecordId × Row))
    (group_by : List Expression) (aggregates : List Aggregate) :
    Result (List (RecordId × Row)) := do
  let agg ← source.foldlM (fun a p => a.add ops p.2)
    (Aggregator.new group_by aggregates)
  agg.into_rows ops

/-- The finalized value of an empty accumulator: Integer(0) for Count, Null
for Sum, Min, Max and Average. -/
def Aggregate.emptyValue : Aggregate → Field
  | .count _ => .integer 0
  | _ => .null

theorem accumulator_value_new (ops : FOps) (a : Aggregate) :
    (Accumulator.new a).value ops = .ok a.emptyValue := by
  cases a <;> rfl

/-- C8: with an empty source and no group_by expressions, the aggregate
operator emits exactly one row, the finalized empty accumulators: every
Count aggregate is Integer(0) and every Sum, Min, Max and Average
aggregate is Null. -/
theorem aggregate_empty_source_no_group_by (ops : FOps)
    (aggregates : List Aggregate) :
    aggregate ops [] [] aggregates =
      .ok [(INVALID_RID, aggregates.map Aggregate.emptyValue)] := by
  have key : ∀ l : List Aggregate,
      (l.map Accumulator.new).mapM (Accumulator.value ops) =
        .ok (l.map Aggregate.emptyValue) := by
    intro l
    induction l with
    | nil => rfl
    | cons a rest ih =>
        simp only [List.map_cons, List.mapM_cons, accumulator_value_new, ih]
        rfl
  show Aggregator.into_rows ops (Aggregator.new [] aggregates) = _
  simp only [Aggregator.into_rows, Aggregator.new]
  rw [key aggregates]
  rfl

/-! The LRU-K replacer (handin/lru_k_replacer.rs).  The frame-to-node
HashMap is modelled as an association list in insertion order (the map's
iteration order is unspecified in Rust; the theorems below hold for the
modelled order and their maximality statements are order-independent).
Panics (invalid frame ids, decrementing a zero size, removing a
non-evictable frame) are modelled as Option.none. -/

/-- usize::MAX, the INF constant of common::constants. -/
def INF : Nat := 2 ^ 64 - 1

/-- The per-frame LRUKNode: at most k timestamps, least recent in front. -/
structure LRUKNode where
  history : List Nat
  k : Nat
  is_evictable : Bool
deriving DecidableEq, Repr

/-- LRUKNode::new. -/
def LRUKNode.new (k : Nat) : LRUKNode where
  history := []
  k := k
  is_evictable := false

/-- LRUKNode::has_infinite_backwards_k_distance. -/
def LRUKNode.has_infinite_backwards_k_distance (n : LRUKNode) : Bool :=
  n.history.length < n.k

/-- LRUKNode::get_kth_most_recent_timestamp: the front of the history
(the source panics when fewer than k accesses are recorded; callers only
evaluate this on nodes with a full history, where the front is defined). -/
def LRUKNode.get_kth_most_recent_timestamp (n : LRUKNode) : Nat :=
  n.history.headD 0

/-- LRUKNode::get_most_recent_timestamp: the back of the history (the
source panics on an empty history; every tracked node has at least one
timestamp, see the C9 invariant). -/
def LRUKNode.get_most_recent_timestamp (n : LRUKNode) : Nat :=
  n.history.getLastD 0

/-- LRUKNode::get_backwards_k_distance. -/
def LRUKNode.get_backwards_k_distance (n : LRUKNode)
    (current_timestamp : Nat) : Nat :=
  if n.has_infinite_backwards_k_distance then INF
  else current_timestamp - n.get_kth_most_recent_timestamp

/-- The LRUKReplacer state. -/
structure LRUKReplacer where
  node_store : List (Nat × LRUKNode)
  current_timestamp : Nat
  curr_size : Nat
  max_size : Nat
  k : Nat
deriving DecidableEq, Repr

/-- LRUKReplacer::new. -/
def LRUKReplacer.new (num_frames k : Nat) : LRUKReplacer where
  node_store := []
  current_timestamp := 0
  curr_size := 0
  max_size := num_frames
  k := k

/-- The body of modify_node_history on one node: drop the front when the
history already holds k entries, then push the current timestamp. -/
def modHist (n : LRUKNode) (ts : Nat) : LRUKNode :=
  let h := if n.history.length = n.k then n.history.tail else n.history
  { n with history := h ++ [ts] }

/-- The entry-wise update the replacer performs on its node map: the entry
with the given frame id is transformed by g, all others are unchanged. -/
def updNode (f : Nat) (g : LRUKNode → LRUKNode) (p : Nat × LRUKNode) :
    Nat × LRUKNode :=
  if p.1 = f then (p.1, g p.2) else p

/-- LRUKReplacer::record_access: invalid frame ids (≥ max_size) panic; a
frame not yet tracked is created only while curr_size < max_size; the
node's history is then updated and the timestamp advanced (the timestamp
advances even when no node exists, as in modify_node_history). -/
def LRUKReplacer.record_access (r : LRUKReplacer) (frame_id : Nat) :
    Option LRUKReplacer :=
  if r.max_size ≤ frame_id then none
  else
    some { r with
      node_store :=
        (if (List.lookup frame_id r.node_store).isNone ∧
            r.curr_size < r.max_size
         then r.node_store ++ [(frame_id, LRUKNode.new r.k)]
         else r.node_store).map
          (updNode frame_id (fun n => modHist n r.current_timestamp)),
      current_timestamp := r.current_timestamp + 1 }

/-- LRUKReplacer::set_evictable: unknown frames panic; a flag transition
adjusts curr_size (whose decrement from 0 panics). -/
def LRUKReplacer.set_evictable (r : LRUKReplacer) (frame_id : Nat)
    (flag : Bool) : Option LRUKReplacer :=
  match List.lookup frame_id r.node_store with
  | none => none
  | some node =>
      if node.is_evictable = flag then some r
      else if flag then
        some { r with
          node_store := r.node_store.map
            (updNode frame_id (fun n => { n with is_evictable := flag })),
          curr_size := r.curr_size + 1 }
      else if r.curr_size = 0 then none
      else
        some { r with
          node_store := r.node_store.map
            (updNode frame_id (fun n => { n with is_evictable := flag })),
          curr_size := r.curr_size - 1 }

/-- LRUKReplacer::remove: an untracked frame returns unchanged; removing a
non-evictable frame panics; otherwise the frame is dropped and curr_size
decremented. -/
def LRUKReplacer.remove (r : LRUKReplacer) (frame_id : Nat) :
    Option LRUKReplacer :=
  match List.lookup frame_id r.node_store with
  | none => some r
  | some node =>
      if !node.is_evictable then none
      else if r.curr_size = 0 then none
      else some { r with
        node_store := r.node_store.filter (fun p => p.1 != frame_id),
        curr_size := r.curr_size - 1 }

/-- The three mutable selection variables of get_frame_to_evict. -/
structure EvictAcc where
  evicted_frame_id : Option Nat
  largest_k_distance : Nat
  earliest_recent_timestamp : Nat
deriving DecidableEq, Repr

/-- The body of the for_each in get_frame_to_evict, for one (frame, node)
entry: non-evictable frames are skipped; once an infinite-distance frame
has been seen (largest = INF) selection is LRU on the most recent
timestamp among infinite-distance frames; before that it is largest
finite k-distance, switching to LRU mode at the first infinite-distance
frame. -/
def evictStep (current_timestamp : Nat) (acc : EvictAcc)
    (p : Nat × LRUKNode) : EvictAcc :=
  if !p.2.is_evictable then acc
  else if acc.largest_k_distance = INF then
    if !p.2.has_infinite_backwards_k_distance then acc
    else
      let timestamp := p.2.get_most_recent_timestamp
      if acc.earliest_recent_timestamp < timestamp then acc
      else { acc with earliest_recent_timestamp := timestamp,
                      evicted_frame_id := some p.1 }
  else
    if p.2.has_infinite_backwards_k_distance then
      { evicted_frame_id := some p.1,
        largest_k_distance := INF,
        earliest_recent_timestamp := p.2.get_most_recent_timestamp }
    else
      let k_distance := p.2.get_backwards_k_distance current_timestamp
      if k_distance < acc.largest_k_distance then acc
      else { acc with largest_k_distance := k_distance,
                      evicted_frame_id := some p.1 }

/-- LRUKReplacer::get_frame_to_evict. -/
def LRUKReplacer.get_frame_to_evict (r : LRUKReplacer) : Option Nat :=
  (r.node_store.foldl (evictStep r.current_timestamp)
    (EvictAcc.mk none 0 INF)).evicted_frame_id

/-- LRUKReplacer::evict: remove the chosen frame and decrement curr_size
(whose decrement from 0 panics). -/
def LRUKReplacer.evict (r : LRUKReplacer) :
    Option (Option Nat × LRUKReplacer) :=
  match r.get_frame_to_evict with
  | none => some (none, r)
  | some frame_id =>
      if r.curr_size = 0 then none
      else some (some frame_id,
        { r with
          node_store := r.node_store.filter (fun p => p.1 != frame_id),
          curr_size := r.curr_size - 1 })

/-- The loop invariant of get_frame_to_evict after the entries of L have
been folded: either nothing was selected and L holds no evictable frame,
or the selected frame is an evictable entry of L that dominates every
evictable entry of L — by largest finite k-distance while no
infinite-distance frame has been seen, by least most-recent timestamp
among infinite-distance frames afterwards. -/
def evictInv (current : Nat) (L : List (Nat × LRUKNode)) (acc : EvictAcc) :
    Prop :=
  (acc = EvictAcc.mk none 0 INF ∧ ∀ p ∈ L, p.2.is_evictable = false) ∨
  (∃ f n, acc.evicted_frame_id = some f ∧ (f, n) ∈ L ∧
    n.is_evictable = true ∧
    ((acc.largest_k_distance ≠ INF ∧
      acc.largest_k_distance = n.get_backwards_k_distance current ∧
      n.has_infinite_backwards_k_distance = false ∧
      ∀ p ∈ L, p.2.is_evictable = true →
        p.2.has_infinite_backwards_k_distance = false ∧
        p.2.get_backwards_k_distance current ≤ acc.largest_k_distance) ∨
     (acc.largest_k_distance = INF ∧
      n.has_infinite_backwards_k_distance = true ∧
      acc.earliest_recent_timestamp = n.get_most_recent_timestamp ∧
      ∀ p ∈ L, p.2.is_evictable = true →
        p.2.has_infinite_backwards_k_distance = true →
        acc.earliest_recent_timestamp ≤ p.2.get_most_recent_timestamp)))

theorem dist_lt_INF {n : LRUKNode} {current : Nat}
    (hfin : n.has_infinite_backwards_k_distance = false)
    (hcur : current < INF) :
    n.get_backwards_k_distance current < INF := by
  simp only [LRUKNode.get_backwards_k_distance, hfin, Bool.false_eq_true,
    if_false]
  omega

theorem evictInv_step {current : Nat} {L : List (Nat × LRUKNode)}
    {acc : EvictAcc} (p : Nat × LRUKNode)
    (hcur : current < INF) (hinv : evictInv current L acc) :
    evictInv current (L ++ [p]) (evictStep current acc p) := by
  have memL : ∀ q : Nat × LRUKNode, q ∈ L → q ∈ L ++ [p] := by
    intro q hq; exact List.mem_append_left _ hq
  have memP : p ∈ L ++ [p] := List.mem_append_right _ (List.mem_singleton.mpr rfl)
  by_cases hev : p.2.is_evictable = true
  · -- p is evictable
    by_cases hmode : acc.largest_k_distance = INF
    · -- LRU mode: only infinite-distance frames are considered
      rcases hinv with ⟨hacc, _⟩ | ⟨f, n, hf, hmem, hnev, hcase⟩
      · exfalso
        rw [hacc] at hmode
        simp only [INF] at hmode
        omega
      rcases hcase with ⟨hne, _⟩ | ⟨_, hninf, hearl, hall⟩
      · exact absurd hmode hne
      by_cases hpinf : p.2.has_infinite_backwards_k_distance = true
      · by_cases hlt :
          acc.earliest_recent_timestamp < p.2.get_most_recent_timestamp
        · -- skip p: it is more recent than the current selection
          have hstep : evictStep current acc p = acc := by
            simp [evictStep, hev, hmode, hpinf, hlt]
          rw [hstep]
          refine Or.inr ⟨f, n, hf, memL _ hmem, hnev, Or.inr
            ⟨hmode, hninf, hearl, ?_⟩⟩
          intro q hq hqe hqinf
          rcases List.mem_append.mp hq with hq | hq
          · exact hall q hq hqe hqinf
          · rw [List.mem_singleton.mp hq]
            omega
        · -- select p
          have hstep : evictStep current acc p =
              { acc with
                earliest_recent_timestamp := p.2.get_most_recent_timestamp,
                evicted_frame_id := some p.1 } := by
            simp [evictStep, hev, hmode, hpinf, hlt]
          rw [hstep]
          refine Or.inr ⟨p.1, p.2, rfl, memP, hev, Or.inr
            ⟨hmode, hpinf, rfl, ?_⟩⟩
          intro q hq hqe hqinf
          rcases List.mem_append.mp hq with hq | hq
          · have h1 := hall q hq hqe hqinf
            show p.2.get_most_recent_timestamp ≤ q.2.get_most_recent_timestamp
            omega
          · rw [List.mem_singleton.mp hq]
      · -- p has finite distance: skipped in LRU mode
        have hstep : evictStep current acc p = acc := by
          simp [evictStep, hev, hmode, hpinf]
        rw [hstep]
        refine Or.inr ⟨f, n, hf, memL _ hmem, hnev, Or.inr
          ⟨hmode, hninf, hearl, ?_⟩⟩
        intro q hq hqe hqinf
        rcases List.mem_append.mp hq with hq | hq
        · exact hall q hq hqe hqinf
        · rw [List.mem_singleton.mp hq] at hqinf ⊢
          exact absurd hqinf (by simp [hpinf])
    · -- finite mode so far
      by_cases hpinf : p.2.has_infinite_backwards_k_distance = true
      · -- switch to LRU mode, selecting p
        have hstep : evictStep current acc p =
            EvictAcc.mk (some p.1) INF p.2.get_most_recent_timestamp := by
          simp [evictStep, hev, hmode, hpinf]
        rw [hstep]
        refine Or.inr ⟨p.1, p.2, rfl, memP, hev, Or.inr ⟨rfl, hpinf, rfl, ?_⟩⟩
        intro q hq hqe hqinf
        rcases List.mem_append.mp hq with hq | hq
        · rcases hinv with ⟨_, hnone⟩ | ⟨f, n, hf, hmem, hnev, hcase⟩
          · exact absurd (hnone q hq) (by simp [hqe])
          rcases hcase with ⟨_, _, _, hall⟩ | ⟨hisinf, _⟩
          · exact absurd hqinf (by simp [(hall q hq hqe).1])
          · exact absurd hisinf hmode
        · rw [List.mem_singleton.mp hq]
      · -- p has finite distance
        by_cases hlt : p.2.get_backwards_k_distance current <
            acc.largest_k_distance
        · -- skip p: its distance is below the current maximum
          have hstep : evictStep current acc p = acc := by
            simp [evictStep, hev, hmode, hpinf, hlt]
          rw [hstep]
          rcases hinv with ⟨hacc, _⟩ | ⟨f, n, hf, hmem, hnev, hcase⟩
          · exfalso
            rw [hacc] at hlt
            simp at hlt
          rcases hcase with ⟨hne, hld, hninf, hall⟩ | ⟨hisinf, _⟩
          · refine Or.inr ⟨f, n, hf, memL _ hmem, hnev, Or.inl
              ⟨hne, hld, hninf, ?_⟩⟩
            intro q hq hqe
            rcases List.mem_append.mp hq with hq | hq
            · exact hall q hq hqe
            · rw [List.mem_singleton.mp hq]
              constructor
              · simpa using hpinf
              · omega
          · exact absurd hisinf hmode
        · -- select p: its distance is the new maximum
          have hstep : evictStep current acc p =
              { acc with
                largest_k_distance := p.2.get_backwards_k_distance current,
                evicted_frame_id := some p.1 } := by
            simp [evictStep, hev, hmode, hpinf, hlt]
          rw [hstep]
          have hpfin : p.2.has_infinite_backwards_k_distance = false := by
            simpa using hpinf
          refine Or.inr ⟨p.1, p.2, rfl, memP, hev, Or.inl
            ⟨Nat.ne_of_lt (dist_lt_INF hpfin hcur), rfl, hpfin, ?_⟩⟩
          intro q hq hqe
          rcases List.mem_append.mp hq with hq | hq
          · rcases hinv with ⟨_, hnone⟩ | ⟨f, n, hf, hmem, hnev, hcase⟩
            · exact absurd (hnone q hq) (by simp [hqe])
            rcases hcase with ⟨_, _, _, hall⟩ | ⟨hisinf, _⟩
            · have h1 := hall q hq hqe
              refine ⟨h1.1, ?_⟩
              show q.2.get_backwards_k_distance current ≤
                p.2.get_backwards_k_distance current
              omega
            · exact absurd hisinf hmode
          · rw [List.mem_singleton.mp hq]
            exact ⟨hpfin, le_refl _⟩
  · -- p is not evictable: skipped, and it cannot witness evictability
    have hstep : evictStep current acc p = acc := by
      simp [evictStep, hev]
    rw [hstep]
    rcases hinv with ⟨hacc, hnone⟩ | ⟨f, n, hf, hmem, hnev, hcase⟩
    · refine Or.inl ⟨hacc, ?_⟩
      intro q hq
      rcases List.mem_append.mp hq with hq | hq
      · exact hnone q hq
      · rw [List.mem_singleton.mp hq]
        simpa using hev
    · refine Or.inr ⟨f, n, hf, memL _ hmem, hnev, ?_⟩
      rcases hcase with ⟨hne, hld, hninf, hall⟩ | ⟨hisinf, hninf, hearl, hall⟩
      · refine Or.inl ⟨hne, hld, hninf, ?_⟩
        intro q hq hqe
        rcases List.mem_append.mp hq with hq | hq
        · exact hall q hq hqe
        · rw [List.mem_singleton.mp hq] at hqe
          exact absurd hqe hev
      · refine Or.inr ⟨hisinf, hninf, hearl, ?_⟩
        intro q hq hqe hqinf
        rcases List.mem_append.mp hq with hq | hq
        · exact hall q hq hqe hqinf
        · rw [List.mem_singleton.mp hq] at hqe
          exact absurd hqe hev

theorem evictInv_foldl (current : Nat) (hcur : current < INF) :
    ∀ (L P : List (Nat × LRUKNode)) (acc : EvictAcc),
      evictInv current P acc →
      evictInv current (P ++ L) (L.foldl (evictStep current) acc) := by
  intro L
  induction L with
  | nil =>
      intro P acc h
      simpa using h
  | cons p rest ih =>
      intro P acc h
      have step : evictInv current (P ++ [p]) (evictStep current acc p) :=
        evictInv_step p hcur h
      have := ih (P ++ [p]) (evictStep current acc p) step
      simpa [List.append_assoc] using this

theorem dist_le_INF (n : LRUKNode) (current : Nat) (hcur : current < INF) :
    n.get_backwards_k_distance current ≤ INF := by
  unfold LRUKNode.get_backwards_k_distance
  split
  · exact Nat.le_refl _
  · omega

theorem lookup_filter_ne (f : Nat) (l : List (Nat × LRUKNode)) :
    List.lookup f (l.filter (fun p => p.1 != f)) = none := by
  induction l with
  | nil => rfl
  | cons p rest ih =>
      obtain ⟨a, b⟩ := p
      rw [List.filter_cons]
      by_cases h : a = f
      · simp only [show (((a, b).1 != f) = false) by simp [h]]
        simpa using ih
      · simp only [show (((a, b).1 != f) = true) by simp [h], if_true]
        have hne : ¬ f = a := by
          intro hh
          exact h hh.symm
        have hba : (f == a) = false := by
          simpa using hne
        simp only [List.lookup, hba]
        exact ih

/-- C5: under the replacer's documented state invariant (curr_size equals
the number of evictable frames; the timestamp is below usize::MAX), evict
returns no victim exactly when no tracked frame is evictable; otherwise
the returned frame is an evictable tracked frame whose backward
K-distance (INF when fewer than K accesses are recorded) is maximal among
evictable frames, with ties among infinite-distance frames broken by the
least single most-recent access timestamp; afterwards the frame is no
longer tracked and curr_size has decreased by exactly one. -/
theorem lru_k_evict_spec (r : LRUKReplacer)
    (hcur : r.current_timestamp < INF)
    (hsize : r.curr_size =
      (r.node_store.filter (fun p => p.2.is_evictable)).length) :
    (r.evict = some (none, r) ↔
      ∀ p ∈ r.node_store, p.2.is_evictable = false) ∧
    r.evict ≠ none ∧
    (∀ f s, r.evict = some (some f, s) →
      ∃ n, (f, n) ∈ r.node_store ∧ n.is_evictable = true ∧
        (∀ p ∈ r.node_store, p.2.is_evictable = true →
          p.2.get_backwards_k_distance r.current_timestamp ≤
            n.get_backwards_k_distance r.current_timestamp) ∧
        (n.has_infinite_backwards_k_distance = true →
          ∀ p ∈ r.node_store, p.2.is_evictable = true →
            p.2.has_infinite_backwards_k_distance = true →
            n.get_most_recent_timestamp ≤ p.2.get_most_recent_timestamp) ∧
        List.lookup f s.node_store = none ∧
        s.curr_size + 1 = r.curr_size) := by
  have hinv0 : evictInv r.current_timestamp [] (EvictAcc.mk none 0 INF) :=
    Or.inl ⟨rfl, by intro p hp; cases hp⟩
  have hinv := evictInv_foldl r.current_timestamp hcur r.node_store []
    (EvictAcc.mk none 0 INF) hinv0
  simp only [List.nil_append] at hinv
  cases hg : r.get_frame_to_evict with
  | none =>
      have hall : ∀ p ∈ r.node_store, p.2.is_evictable = false := by
        rcases hinv with ⟨_, hno⟩ | ⟨f, n, hf, _, _, _⟩
        · exact hno
        · rw [LRUKReplacer.get_frame_to_evict] at hg
          rw [hg] at hf
          cases hf
      refine ⟨?_, ?_, ?_⟩
      · constructor
        · intro _
          exact hall
        · intro _
          simp [LRUKReplacer.evict, hg]
      · simp [LRUKReplacer.evict, hg]
      · intro f s heq
        simp only [LRUKReplacer.evict, hg] at heq
        cases heq
  | some f =>
      rcases hinv with ⟨hacc, _⟩ | ⟨f0, n, hf, hmem, hnev, hcase⟩
      · rw [LRUKReplacer.get_frame_to_evict, hacc] at hg
        cases hg
      rw [LRUKReplacer.get_frame_to_evict] at hg
      rw [hg] at hf
      have hff : f0 = f := by
        injection hf with h
        exact h.symm
      subst hff
      have hpos : 0 < r.curr_size := by
        rw [hsize]
        have : (f0, n) ∈ r.node_store.filter (fun p => p.2.is_evictable) :=
          List.mem_filter.mpr ⟨hmem, by simpa using hnev⟩
        exact List.length_pos.mpr (List.ne_nil_of_mem this)
      have hsz0 : ¬ r.curr_size = 0 := by omega
      have hev : r.evict = some (some f0,
          { r with
            node_store := r.node_store.filter (fun p => p.1 != f0),
            curr_size := r.curr_size - 1 }) := by
        simp only [LRUKReplacer.evict, LRUKReplacer.get_frame_to_evict, hg,
          hsz0, if_false]
      refine ⟨?_, ?_, ?_⟩
      · rw [hev]
        constructor
        · intro h
          injection h with h1
          injection h1 with h2 _
          cases h2
        · intro h
          exact absurd (h (f0, n) hmem) (by simp [hnev])
      · rw [hev]
        intro h
        cases h
      · intro f1 s heq
        rw [hev] at heq
        injection heq with h1
        injection h1 with h2 h3
        have hf1 : f1 = f0 := by injection h2 with h; exact h.symm
        subst hf1
        subst h3
        refine ⟨n, hmem, hnev, ?_, ?_, lookup_filter_ne f1 r.node_store, ?_⟩
        · intro p hp hpe
          rcases hcase with ⟨_, hld, _, hall⟩ | ⟨_, hninf, _, _⟩
          · exact le_of_le_of_eq (hall p hp hpe).2 hld
          · rw [show n.get_backwards_k_distance r.current_timestamp = INF by
              simp [LRUKNode.get_backwards_k_distance, hninf]]
            exact dist_le_INF p.2 r.current_timestamp hcur
        · intro hninf p hp hpe hpinf
          rcases hcase with ⟨_, _, hfin, _⟩ | ⟨_, _, hearl, hall⟩
          · rw [hninf] at hfin
            cases hfin
          · exact le_of_eq_of_le hearl.symm (hall p hp hpe hpinf)
        · show r.curr_size - 1 + 1 = r.curr_size
          omega

/-- A concrete well-formed replacer used to witness the C5 theorem: k = 2,
frame 0 accessed once (infinite distance), frame 1 accessed twice, both
evictable. -/
def replacerW : LRUKReplacer where
  node_store :=
    [(0, LRUKNode.mk [0] 2 true), (1, LRUKNode.mk [1, 2] 2 true)]
  current_timestamp := 3
  curr_size := 2
  max_size := 3
  k := 2

/-- Witness for C5 at the concrete replacer replacerW. -/
theorem lru_k_evict_spec_witness :
    (replacerW.evict = some (none, replacerW) ↔
      ∀ p ∈ replacerW.node_store, p.2.is_evictable = false) ∧
    replacerW.evict ≠ none ∧
    (∀ f s, replacerW.evict = some (some f, s) →
      ∃ n, (f, n) ∈ replacerW.node_store ∧ n.is_evictable = true ∧
        (∀ p ∈ replacerW.node_store, p.2.is_evictable = true →
          p.2.get_backwards_k_distance replacerW.current_timestamp ≤
            n.get_backwards_k_distance replacerW.current_timestamp) ∧
        (n.has_infinite_backwards_k_distance = true →
          ∀ p ∈ replacerW.node_store, p.2.is_evictable = true →
            p.2.has_infinite_backwards_k_distance = true →
            n.get_most_recent_timestamp ≤ p.2.get_most_recent_timestamp) ∧
        List.lookup f s.node_store = none ∧
        s.curr_size + 1 = replacerW.curr_size) :=
  lru_k_evict_spec replacerW (by decide) (by decide)

/-! Association-list counting lemmas for the C9 reachability invariant. -/

theorem keys_map_updNode (f : Nat) (g : LRUKNode → LRUKNode)
    (l : List (Nat × LRUKNode)) :
    (l.map (updNode f g)).map Prod.fst = l.map Prod.fst := by
  induction l with
  | nil => rfl
  | cons p rest ih =>
      simp only [List.map_cons, ih, List.cons.injEq, and_true]
      unfold updNode
      split <;> rfl

theorem map_updNode_of_not_mem (f : Nat) (g : LRUKNode → LRUKNode)
    (l : List (Nat × LRUKNode)) (h : f ∉ l.map Prod.fst) :
    l.map (updNode f g) = l := by
  induction l with
  | nil => rfl
  | cons p rest ih =>
      simp only [List.map_cons, List.mem_cons, not_or] at h
      simp only [List.map_cons, ih h.2, List.cons.injEq, and_true]
      unfold updNode
      rw [if_neg (by intro hh; exact h.1 hh.symm)]

theorem lookup_of_mem_nodup {f : Nat} {n : LRUKNode}
    {l : List (Nat × LRUKNode)} (hnd : (l.map Prod.fst).Nodup)
    (hm : (f, n) ∈ l) : List.lookup f l = some n := by
  induction l with
  | nil => cases hm
  | cons p rest ih =>
      simp only [List.map_cons, List.nodup_cons] at hnd
      rcases List.mem_cons.mp hm with heq | hmem
      · rw [← heq]
        simp [List.lookup]
      · have hne : f ≠ p.1 := by
          intro hh
          exact hnd.1 (hh ▸ (List.mem_map.mpr ⟨(f, n), hmem, rfl⟩))
        obtain ⟨a, b⟩ := p
        simp only [List.lookup, show (f == a) = false by simpa using hne]
        exact ih hnd.2 hmem

theorem countP_map_updNode (q : Nat × LRUKNode → Bool) (f : Nat)
    (g : LRUKNode → LRUKNode) (l : List (Nat × LRUKNode)) (node : LRUKNode)
    (hnd : (l.map Prod.fst).Nodup) (hlk : List.lookup f l = some node) :
    (l.map (updNode f g)).countP q + (if q (f, node) then 1 else 0) =
      l.countP q + (if q (f, g node) then 1 else 0) := by
  induction l with
  | nil => cases hlk
  | cons p rest ih =>
      obtain ⟨a, b⟩ := p
      simp only [List.map_cons, List.nodup_cons] at hnd
      by_cases hh : a = f
      · subst hh
        have hb : node = b := by
          simp [List.lookup] at hlk
          exact hlk.symm
        subst hb
        have hrest : rest.map (updNode a g) = rest :=
          map_updNode_of_not_mem a g rest hnd.1
        simp only [List.map_cons, hrest]
        rw [show updNode a g (a, node) = (a, g node) by simp [updNode]]
        rw [List.countP_cons, List.countP_cons]
        omega
      · have hlk2 : List.lookup f rest = some node := by
          simpa [List.lookup, show (f == a) = false by
            simpa using fun x => hh x.symm] using hlk
        have ihr := ih hnd.2 hlk2
        simp only [List.map_cons]
        rw [show updNode f g (a, b) = (a, b) by simp [updNode, hh]]
        rw [List.countP_cons, List.countP_cons]
        omega

theorem countP_map_updNode_vals (q : Nat × LRUKNode → Bool) (f : Nat)
    (g : LRUKNode → LRUKNode) (l : List (Nat × LRUKNode)) (node : LRUKNode)
    (hnd : (l.map Prod.fst).Nodup) (hlk : List.lookup f l = some node)
    (x y : Nat) (hx : (if q (f, node) then 1 else 0) = x)
    (hy : (if q (f, g node) then 1 else 0) = y) :
    (l.map (updNode f g)).countP q + x = l.countP q + y := by
  have h := countP_map_updNode q f g l node hnd hlk
  rw [hx, hy] at h
  exact h

theorem countP_filter_out (q : Nat × LRUKNode → Bool) (f : Nat)
    (l : List (Nat × LRUKNode)) (node : LRUKNode)
    (hnd : (l.map Prod.fst).Nodup) (hlk : List.lookup f l = some node)
    (hq : q (f, node) = true) :
    (l.filter (fun p => p.1 != f)).countP q + 1 = l.countP q := by
  induction l with
  | nil => cases hlk
  | cons p rest ih =>
      obtain ⟨a, b⟩ := p
      simp only [List.map_cons, List.nodup_cons] at hnd
      by_cases hh : a = f
      · subst hh
        have hb : node = b := by
          simp [List.lookup] at hlk
          exact hlk.symm
        subst hb
        have hrest : rest.filter (fun p => p.1 != a) = rest := by
          apply List.filter_eq_self.mpr
          intro p hp
          simp only [bne_iff_ne, ne_eq, decide_eq_true_eq]
          intro hpa
          exact hnd.1 (hpa ▸ (List.mem_map.mpr ⟨p, hp, rfl⟩))
        rw [List.filter_cons, if_neg (by simp), hrest, List.countP_cons, hq]
        simp
      · have hlk2 : List.lookup f rest = some node := by
          simpa [List.lookup, show (f == a) = false by
            simpa using fun x => hh x.symm] using hlk
        have ihr := ih hnd.2 hlk2
        rw [List.filter_cons, if_pos (by simpa using hh),
          List.countP_cons, List.countP_cons]
        omega

theorem length_le_of_nodup_lt (l : List Nat) (m : Nat) (hnd : l.Nodup)
    (hlt : ∀ x ∈ l, x < m) : l.length ≤ m := by
  have h1 : l.toFinset.card = l.length := List.toFinset_card_of_nodup hnd
  have h2 : l.toFinset ⊆ Finset.range m := by
    intro x hx
    exact Finset.mem_range.mpr (hlt x (List.mem_toFinset.mp hx))
  calc l.length = l.toFinset.card := h1.symm
    _ ≤ (Finset.range m).card := Finset.card_le_card h2
    _ = m := Finset.card_range m

theorem lookup_none_not_mem {f : Nat} {l : List (Nat × LRUKNode)}
    (h : List.lookup f l = none) : f ∉ l.map Prod.fst := by
  induction l with
  | nil => simp
  | cons p rest ih =>
      obtain ⟨a, b⟩ := p
      by_cases hfa : f = a
      · subst hfa
        simp [List.lookup] at h
      · simp only [List.lookup, show (f == a) = false by simpa using hfa] at h
        simp only [List.map_cons, List.mem_cons, not_or]
        exact ⟨hfa, ih h⟩

theorem countP_evictable_map_updNode (f : Nat) (g : LRUKNode → LRUKNode)
    (l : List (Nat × LRUKNode))
    (hg : ∀ n, (g n).is_evictable = n.is_evictable) :
    (l.map (updNode f g)).countP (fun p => p.2.is_evictable) =
      l.countP (fun p => p.2.is_evictable) := by
  induction l with
  | nil => rfl
  | cons p rest ih =>
      simp only [List.map_cons, List.countP_cons, ih]
      have : (updNode f g p).2.is_evictable = p.2.is_evictable := by
        unfold updNode
        split
        · exact hg p.2
        · rfl
      rw [this]

theorem modHist_is_evictable (n : LRUKNode) (ts : Nat) :
    (modHist n ts).is_evictable = n.is_evictable := rfl

theorem modHist_k (n : LRUKNode) (ts : Nat) : (modHist n ts).k = n.k := rfl

theorem modHist_len (n : LRUKNode) (ts : Nat) (hk : 1 ≤ n.k)
    (hlen : n.history.length ≤ n.k) :
    1 ≤ (modHist n ts).history.length ∧
      (modHist n ts).history.length ≤ n.k := by
  unfold modHist
  by_cases h : n.history.length = n.k
  · rw [if_pos h]
    simp only [List.length_append, List.length_tail, List.length_cons,
      List.length_nil]
    omega
  · rw [if_neg h]
    simp only [List.length_append, List.length_cons, List.length_nil]
    omega

/-- A weak selection invariant for get_frame_to_evict, used by the C9
induction: whenever a frame is selected it is an evictable entry. -/
def selInv (L : List (Nat × LRUKNode)) (acc : EvictAcc) : Prop :=
  acc.evicted_frame_id = none ∨
  ∃ f n, acc.evicted_frame_id = some f ∧ (f, n) ∈ L ∧ n.is_evictable = true

theorem selInv_step (current : Nat) {L : List (Nat × LRUKNode)}
    {acc : EvictAcc} (p : Nat × LRUKNode) (h : selInv L acc) :
    selInv (L ++ [p]) (evictStep current acc p) := by
  have hmono : selInv L acc → selInv (L ++ [p]) acc := by
    rintro (h1 | ⟨f, n, hf, hm, he⟩)
    · exact Or.inl h1
    · exact Or.inr ⟨f, n, hf, List.mem_append_left _ hm, he⟩
  have hp : p ∈ L ++ [p] :=
    List.mem_append_right _ (List.mem_singleton.mpr rfl)
  unfold evictStep
  by_cases hev : p.2.is_evictable = true
  · simp only [hev]
    by_cases hmode : acc.largest_k_distance = INF
    · simp only [hmode, if_pos rfl]
      by_cases hpinf : p.2.has_infinite_backwards_k_distance = true
      · simp only [hpinf]
        by_cases hlt : acc.earliest_recent_timestamp <
            p.2.get_most_recent_timestamp
        · simpa [hlt] using hmono h
        · simp only [if_neg hlt]
          exact Or.inr ⟨p.1, p.2, rfl, hp, hev⟩
      · simpa [hpinf] using hmono h
    · simp only [if_neg hmode]
      by_cases hpinf : p.2.has_infinite_backwards_k_distance = true
      · simp only [hpinf, if_pos rfl]
        exact Or.inr ⟨p.1, p.2, rfl, hp, hev⟩
      · simp only [hpinf]
        by_cases hlt : p.2.get_backwards_k_distance current <
            acc.largest_k_distance
        · simpa [hlt] using hmono h
        · simp only [if_neg hlt]
          exact Or.inr ⟨p.1, p.2, rfl, hp, hev⟩
  · simpa [hev] using hmono h

theorem selInv_get_frame (r : LRUKReplacer) {f : Nat}
    (hg : r.get_frame_to_evict = some f) :
    ∃ n, (f, n) ∈ r.node_store ∧ n.is_evictable = true := by
  have hfold : ∀ (L P : List (Nat × LRUKNode)) (acc : EvictAcc),
      selInv P acc →
      selInv (P ++ L) (L.foldl (evictStep r.current_timestamp) acc) := by
    intro L
    induction L with
    | nil =>
        intro P acc h
        simpa using h
    | cons p rest ih =>
        intro P acc h
        have step : selInv (P ++ [p])
            (evictStep r.current_timestamp acc p) :=
          selInv_step r.current_timestamp p h
        have := ih (P ++ [p]) _ step
        simpa [List.append_assoc] using this
  have := hfold r.node_store [] (EvictAcc.mk none 0 INF) (Or.inl rfl)
  simp only [List.nil_append] at this
  rw [LRUKReplacer.get_frame_to_evict] at hg
  rcases this with h1 | ⟨f1, n, hf1, hm, he⟩
  · rw [hg] at h1
    cases h1
  · rw [hg] at hf1
    injection hf1 with hf1
    exact ⟨n, hf1 ▸ hm, he⟩

/-- The C9 state invariant of the replacer. -/
def ReplacerInv (r : LRUKReplacer) : Prop :=
  1 ≤ r.k ∧
  (r.node_store.map Prod.fst).Nodup ∧
  (∀ p ∈ r.node_store, p.1 < r.max_size) ∧
  (∀ p ∈ r.node_store, p.2.k = r.k ∧ 1 ≤ p.2.history.length ∧
    p.2.history.length ≤ r.k) ∧
  r.curr_size = r.node_store.countP (fun p => p.2.is_evictable)

theorem inv_record_access {r r' : LRUKReplacer} (fid : Nat)
    (hinv : ReplacerInv r) (hstep : r.record_access fid = some r') :
    ReplacerInv r' := by
  obtain ⟨hk, hnd, hlt, hnode, hsize⟩ := hinv
  unfold LRUKReplacer.record_access at hstep
  by_cases hmax : r.max_size ≤ fid
  · rw [if_pos hmax] at hstep
    cases hstep
  rw [if_neg hmax] at hstep
  injection hstep with hr'
  subst hr'
  by_cases hc : (List.lookup fid r.node_store).isNone = true ∧
      r.curr_size < r.max_size
  · -- a fresh node is appended, then its history is initialized
    rw [if_pos hc]
    have hnotmem : fid ∉ r.node_store.map Prod.fst := by
      apply lookup_none_not_mem
      cases hlk : List.lookup fid r.node_store with
      | none => rfl
      | some v => rw [hlk] at hc; simp at hc
    refine ⟨hk, ?_, ?_, ?_, ?_⟩
    · rw [keys_map_updNode]
      simp only [List.map_append, List.map_cons, List.map_nil]
      exact List.nodup_append.mpr ⟨hnd, List.nodup_singleton _,
        by simpa [List.disjoint_singleton] using hnotmem⟩
    · intro p hp
      rcases List.mem_map.mp hp with ⟨q, hq, hqe⟩
      rcases List.mem_append.mp hq with hq | hq
      · have : p.1 = q.1 := by
          rw [← hqe]
          unfold updNode
          split <;> rfl
        rw [this]
        exact hlt q hq
      · have hq1 : q = (fid, LRUKNode.new r.k) := List.mem_singleton.mp hq
        have : p.1 = q.1 := by
          rw [← hqe]
          unfold updNode
          split <;> rfl
        rw [this, hq1]
        show fid < r.max_size
        omega
    · intro p hp
      rcases List.mem_map.mp hp with ⟨q, hq, hqe⟩
      rcases List.mem_append.mp hq with hq | hq
      · subst hqe
        unfold updNode
        split
        · rename_i hq1
          have := hnode q hq
          refine ⟨modHist_k q.2 r.current_timestamp ▸ this.1, ?_⟩
          have hml := modHist_len q.2 r.current_timestamp
            (this.1.symm ▸ hk) (this.1.symm ▸ this.2.2)
          exact ⟨hml.1, this.1 ▸ hml.2⟩
        · exact hnode q hq
      · have hq1 : q = (fid, LRUKNode.new r.k) := List.mem_singleton.mp hq
        subst hqe hq1
        unfold updNode
        simp only [if_pos rfl]
        refine ⟨rfl, ?_⟩
        have : (LRUKNode.new r.k).history.length = 0 := rfl
        have hne : ¬ (LRUKNode.new r.k).history.length = (LRUKNode.new r.k).k := by
          simp [LRUKNode.new]
          omega
        unfold modHist
        rw [if_neg hne]
        simp [LRUKNode.new]
        omega
    · rw [countP_evictable_map_updNode _ _ _
        (fun n => modHist_is_evictable n r.current_timestamp)]
      rw [List.countP_append]
      have : List.countP (fun p => p.2.is_evictable)
          [(fid, LRUKNode.new r.k)] = 0 := rfl
      rw [this]
      simpa using hsize
  · -- no insertion: only an existing node's history changes
    rw [if_neg hc]
    refine ⟨hk, ?_, ?_, ?_, ?_⟩
    · rw [keys_map_updNode]
      exact hnd
    · intro p hp
      rcases List.mem_map.mp hp with ⟨q, hq, hqe⟩
      have : p.1 = q.1 := by
        rw [← hqe]
        unfold updNode
        split <;> rfl
      rw [this]
      exact hlt q hq
    · intro p hp
      rcases List.mem_map.mp hp with ⟨q, hq, hqe⟩
      subst hqe
      unfold updNode
      split
      · have := hnode q hq
        refine ⟨modHist_k q.2 r.current_timestamp ▸ this.1, ?_⟩
        have hml := modHist_len q.2 r.current_timestamp
          (this.1.symm ▸ hk) (this.1.symm ▸ this.2.2)
        exact ⟨hml.1, this.1 ▸ hml.2⟩
      · exact hnode q hq
    · rw [countP_evictable_map_updNode _ _ _
        (fun n => modHist_is_evictable n r.current_timestamp)]
      exact hsize

theorem mem_of_lookup {f : Nat} {n : LRUKNode} {l : List (Nat × LRUKNode)}
    (h : List.lookup f l = some n) : (f, n) ∈ l := by
  induction l with
  | nil => cases h
  | cons p rest ih =>
      obtain ⟨a, b⟩ := p
      by_cases hfa : f = a
      · subst hfa
        simp only [List.lookup, beq_self_eq_true] at h
        injection h with h
        subst h
        exact List.mem_cons_self _ _
      · simp only [List.lookup,
          show (f == a) = false by simpa using hfa] at h
        exact List.mem_cons_of_mem _ (ih h)

theorem inv_store_shrink {r : LRUKReplacer} (fid : Nat) (node : LRUKNode)
    (hinv : ReplacerInv r) (hm : (fid, node) ∈ r.node_store)
    (hev : node.is_evictable = true) (hsz : ¬ r.curr_size = 0) :
    ReplacerInv { r with
      node_store := r.node_store.filter (fun p => p.1 != fid),
      curr_size := r.curr_size - 1 } := by
  obtain ⟨hk, hnd, hlt, hnode, hsize⟩ := hinv
  have hsub : (r.node_store.filter (fun p => p.1 != fid)).Sublist
      r.node_store := List.filter_sublist _
  refine ⟨hk, ?_, ?_, ?_, ?_⟩
  · exact List.Nodup.sublist (List.Sublist.map Prod.fst hsub) hnd
  · intro p hp
    exact hlt p (hsub.mem hp)
  · intro p hp
    exact hnode p (hsub.mem hp)
  · have hlk := lookup_of_mem_nodup hnd hm
    have := countP_filter_out (fun p => p.2.is_evictable) fid
      r.node_store node hnd hlk (by simpa using hev)
    show r.curr_size - 1 = (r.node_store.filter
      (fun p => p.1 != fid)).countP (fun p => p.2.is_evictable)
    omega

theorem inv_set_evictable {r r' : LRUKReplacer} (fid : Nat) (flag : Bool)
    (hinv : ReplacerInv r) (hstep : r.set_evictable fid flag = some r') :
    ReplacerInv r' := by
  obtain ⟨hk, hnd, hlt, hnode, hsize⟩ := hinv
  unfold LRUKReplacer.set_evictable at hstep
  cases hlk : List.lookup fid r.node_store with
  | none =>
      simp only [hlk] at hstep
      exact Option.noConfusion hstep
  | some node =>
      simp only [hlk] at hstep
      by_cases heq : node.is_evictable = flag
      · rw [if_pos heq] at hstep
        injection hstep with hr'
        subst hr'
        exact ⟨hk, hnd, hlt, hnode, hsize⟩
      rw [if_neg heq] at hstep
      have hkeep : ∀ p, p ∈ r.node_store.map
          (updNode fid (fun n => { n with is_evictable := flag })) →
          p.1 < r.max_size ∧ p.2.k = r.k ∧ 1 ≤ p.2.history.length ∧
            p.2.history.length ≤ r.k := by
        intro p hp
        rcases List.mem_map.mp hp with ⟨q, hq, hqe⟩
        subst hqe
        have h1 := hlt q hq
        have h2 := hnode q hq
        unfold updNode
        split <;> exact ⟨h1, h2⟩
      cases flag with
      | true =>
          rw [if_pos rfl] at hstep
          injection hstep with hr'
          subst hr'
          refine ⟨hk, ?_, fun p hp => (hkeep p hp).1,
            fun p hp => (hkeep p hp).2, ?_⟩
          · rw [keys_map_updNode]
            exact hnd
          · have hno : node.is_evictable = false := by
              cases hb : node.is_evictable
              · rfl
              · exact absurd hb heq
            have hcount := countP_map_updNode_vals
              (fun p => p.2.is_evictable) fid
              (fun n => { n with is_evictable := true }) r.node_store node
              hnd hlk 0 1 (by simp [hno]) (by simp)
            show r.curr_size + 1 = List.countP (fun p => p.2.is_evictable)
              (r.node_store.map
                (updNode fid (fun n => { n with is_evictable := true })))
            omega
      | false =>
          rw [if_neg (by simp)] at hstep
          by_cases hsz : r.curr_size = 0
          · rw [if_pos hsz] at hstep
            cases hstep
          rw [if_neg hsz] at hstep
          injection hstep with hr'
          subst hr'
          refine ⟨hk, ?_, fun p hp => (hkeep p hp).1,
            fun p hp => (hkeep p hp).2, ?_⟩
          · rw [keys_map_updNode]
            exact hnd
          · have hyes : node.is_evictable = true := by
              cases hb : node.is_evictable
              · exact absurd hb heq
              · rfl
            have hcount := countP_map_updNode_vals
              (fun p => p.2.is_evictable) fid
              (fun n => { n with is_evictable := false }) r.node_store node
              hnd hlk 1 0 (by simp [hyes]) (by simp)
            show r.curr_size - 1 = List.countP (fun p => p.2.is_evictable)
              (r.node_store.map
                (updNode fid (fun n => { n with is_evictable := false })))
            omega

theorem inv_remove {r r' : LRUKReplacer} (fid : Nat)
    (hinv : ReplacerInv r) (hstep : r.remove fid = some r') :
    ReplacerInv r' := by
  unfold LRUKReplacer.remove at hstep
  cases hlk : List.lookup fid r.node_store with
  | none =>
      simp only [hlk] at hstep
      injection hstep with hr'
      subst hr'
      exact hinv
  | some node =>
      simp only [hlk] at hstep
      by_cases hev : node.is_evictable = true
      · rw [show (!node.is_evictable) = false by simp [hev], if_neg
          (by simp)] at hstep
        by_cases hsz : r.curr_size = 0
        · rw [if_pos hsz] at hstep
          cases hstep
        rw [if_neg hsz] at hstep
        injection hstep with hr'
        subst hr'
        exact inv_store_shrink fid node hinv (mem_of_lookup hlk) hev hsz
      · rw [show (!node.is_evictable) = true by
          cases hb : node.is_evictable
          · rfl
          · exact absurd hb hev, if_pos rfl] at hstep
        cases hstep

theorem inv_evict {r r' : LRUKReplacer} (res : Option Nat)
    (hinv : ReplacerInv r) (hstep : r.evict = some (res, r')) :
    ReplacerInv r' := by
  unfold LRUKReplacer.evict at hstep
  cases hg : r.get_frame_to_evict with
  | none =>
      simp only [hg] at hstep
      injection hstep with hr'
      injection hr' with _ hr'
      subst hr'
      exact hinv
  | some f =>
      simp only [hg] at hstep
      by_cases hsz : r.curr_size = 0
      · rw [if_pos hsz] at hstep
        cases hstep
      rw [if_neg hsz] at hstep
      injection hstep with hr'
      injection hr' with _ hr'
      subst hr'
      obtain ⟨n, hm, hev⟩ := selInv_get_frame r hg
      exact inv_store_shrink f n hinv hm hev hsz

/-- Replacer states reachable from a fresh replacer by non-panicking
record_access, set_evictable, remove and evict calls.  The builder of
lru_k_replacer.rs asserts k > 0, so fresh replacers have K at least 1. -/
inductive Reachable : LRUKReplacer → Prop where
  | fresh (num_frames k : Nat) (hk : 1 ≤ k) :
      Reachable (LRUKReplacer.new num_frames k)
  | record_access {r r' : LRUKReplacer} (fid : Nat) :
      Reachable r → r.record_access fid = some r' → Reachable r'
  | set_evictable {r r' : LRUKReplacer} (fid : Nat) (flag : Bool) :
      Reachable r → r.set_evictable fid flag = some r' → Reachable r'
  | remove {r r' : LRUKReplacer} (fid : Nat) :
      Reachable r → r.remove fid = some r' → Reachable r'
  | evict {r r' : LRUKReplacer} (res : Option Nat) :
      Reachable r → r.evict = some (res, r') → Reachable r'

theorem reachable_inv {r : LRUKReplacer} (h : Reachable r) :
    ReplacerInv r := by
  induction h with
  | fresh num_frames k hk =>
      refine ⟨hk, by simp [LRUKReplacer.new], ?_, ?_, rfl⟩
      · intro p hp
        cases hp
      · intro p hp
        cases hp
  | record_access fid _ hstep ih => exact inv_record_access fid ih hstep
  | set_evictable fid flag _ hstep ih => exact inv_set_evictable fid flag ih hstep
  | remove fid _ hstep ih => exact inv_remove fid ih hstep
  | evict res _ hstep ih => exact inv_evict res ih hstep

/-- C9: in every replacer state reachable from a fresh replacer by any
sequence of record_access, set_evictable, remove and evict calls,
curr_size (the number of evictable frames) is at most the number of
tracked frames, the number of tracked frames is at most max_size, and
every tracked frame's access history holds between 1 and K timestamps. -/
theorem lru_k_replacer_invariants (r : LRUKReplacer) (h : Reachable r) :
    r.curr_size ≤ r.node_store.length ∧
    r.node_store.length ≤ r.max_size ∧
    ∀ p ∈ r.node_store, 1 ≤ p.2.history.length ∧
      p.2.history.length ≤ r.k := by
  obtain ⟨hk, hnd, hlt, hnode, hsize⟩ := reachable_inv h
  refine ⟨?_, ?_, fun p hp => (hnode p hp).2⟩
  · rw [hsize]
    exact List.countP_le_length _
  · have := length_le_of_nodup_lt (r.node_store.map Prod.fst) r.max_size hnd
      (by
        intro x hx
        rcases List.mem_map.mp hx with ⟨p, hp, hpe⟩
        exact hpe ▸ hlt p hp)
    simpa using this

/-- The state reached from a fresh replacer (3 frames, K = 2) by a single
record_access(0): used to witness the C9 theorem. -/
def replacerR1 : LRUKReplacer where
  node_store := [(0, LRUKNode.mk [0] 2 false)]
  current_timestamp := 1
  curr_size := 0
  max_size := 3
  k := 2

/-- Witness for C9 at the concrete reachable state replacerR1. -/
theorem lru_k_replacer_invariants_witness :
    replacerR1.curr_size ≤ replacerR1.node_store.length ∧
    replacerR1.node_store.length ≤ replacerR1.max_size ∧
    ∀ p ∈ replacerR1.node_store, 1 ≤ p.2.history.length ∧
      p.2.history.length ≤ replacerR1.k :=
  lru_k_replacer_invariants replacerR1
    (Reachable.record_access 0 (Reachable.fresh 3 2 (by decide)) (by decide))

/-! The slotted table page (handin/table_page.rs). -/

/-- Modelled from the spec: the config module
(src/config, RUSTY_DB_PAGE_SIZE_BYTES) is absent from the sources.  The
spec fixes the page size only as a compile-time constant (section 6;
section 3: "Page (fixed size, typically 4 KiB)").  No claim depends on
the numeric value, and the theorems below reason about the constant
symbolically; the model instantiates it at 64 bytes so that concrete
pages remain computable. -/
def RUSTY_DB_PAGE_SIZE_BYTES : Nat := 64

/-- TupleMetadata (storage/tuple/metadata.rs). -/
structure TupleMetadata where
  is_deleted : Bool
deriving DecidableEq, Repr

/-- TupleMetadata::deleted_payload_metadata. -/
def TupleMetadata.deleted_payload_metadata : TupleMetadata :=
  TupleMetadata.mk true

/-- The per-slot TupleInfo of table_page.rs. -/
structure TupleInfo where
  offset : Nat
  size_bytes : Nat
  metadata : TupleMetadata
deriving DecidableEq, Repr

/-- A default TupleInfo standing for the value of a panicking
out-of-bounds index; bounds are always checked first. -/
def defaultTI : TupleInfo := TupleInfo.mk 0 0 (TupleMetadata.mk false)

/-- The TablePage struct of table_page.rs; data is the full page buffer. -/
structure TablePage where
  page_id : Nat
  next_page_id : Nat
  data : List Nat
  tuple_cnt : Nat
  deleted_tuple_cnt : Nat
  tuple_info : List TupleInfo
  is_dirty : Bool
deriving DecidableEq, Repr

/-- TablePage::new (also what the builder produces). -/
def TablePage.new (page_id next_page_id : Nat) : TablePage where
  page_id := page_id
  next_page_id := next_page_id
  data := List.replicate RUSTY_DB_PAGE_SIZE_BYTES 0
  tuple_cnt := 0
  deleted_tuple_cnt := 0
  tuple_info := []
  is_dirty := false

/-- TablePage::total_tuple_count. -/
def TablePage.total_tuple_count (p : TablePage) : Nat :=
  p.tuple_cnt + p.deleted_tuple_cnt

/-- TablePage::get_next_tuple_offset: tuples grow from the page end toward
the header; the fit check requires the header (including the new slot) to
end strictly below the new tuple's start. -/
def TablePage.get_next_tuple_offset (p : TablePage) (payload : List Nat) :
    Option Nat :=
  let tuple_size_bytes := payload.length
  let tuples_end :=
    match p.total_tuple_count with
    | 0 => RUSTY_DB_PAGE_SIZE_BYTES
    | _ => (p.tuple_info.getD (p.total_tuple_count - 1) defaultTI).offset
  if tuples_end < tuple_size_bytes then none
  else
    let tuples_start := tuples_end - tuple_size_bytes
    let header_size := 8 + (p.total_tuple_count + 1) * 4
    if header_size < tuples_start then some tuples_start else none

/-- TablePage::insert_tuple: copy the payload at the computed offset,
append a slot, bump the matching counter; None when the tuple does not
fit. -/
def TablePage.insert_tuple (p : TablePage) (meta : TupleMetadata)
    (tuple : List Nat) : Option (Nat × TablePage) :=
  match p.get_next_tuple_offset tuple with
  | none => none
  | some offset =>
      let slot := p.total_tuple_count
      some (slot,
        { p with
          data := writeAt p.data offset tuple,
          tuple_info := p.tuple_info ++
            [TupleInfo.mk offset tuple.length meta],
          tuple_cnt := if meta.is_deleted then p.tuple_cnt
                       else p.tuple_cnt + 1,
          deleted_tuple_cnt := if meta.is_deleted then
                                 p.deleted_tuple_cnt + 1
                               else p.deleted_tuple_cnt })

/-- TablePage::update_tuple_cnt: counter transfer on deletion-flag
transitions (the u16 decrements cannot underflow on pages whose counters
match their slots). -/
def TablePage.update_tuple_cnt (p : TablePage) (old_del new_del : Bool) :
    TablePage :=
  match old_del, new_del with
  | true, false => { p with tuple_cnt := p.tuple_cnt + 1,
                            deleted_tuple_cnt := p.deleted_tuple_cnt - 1 }
  | false, true => { p with tuple_cnt := p.tuple_cnt - 1,
                            deleted_tuple_cnt := p.deleted_tuple_cnt + 1 }
  | _, _ => p

/-- TablePage::get_tuple: bounds- and tombstone-checked read of a slot's
bytes.  The source formats the record id into the InvalidInput message;
the text is elided here. -/
def TablePage.get_tuple (p : TablePage) (rid : RecordId) :
    Result (List Nat) :=
  if rid.page_id ≠ p.page_id ∨ p.total_tuple_count ≤ rid.slot_id then
    .error (.invalidInput "invalid record id")
  else
    let info := p.tuple_info.getD rid.slot_id defaultTI
    if info.metadata.is_deleted then
      .error (.invalidInput "invalid record id")
    else .ok (sliceBytes p.data info.offset (info.offset + info.size_bytes))

/-- TablePage::get_tuple_metadata. -/
def TablePage.get_tuple_metadata (p : TablePage) (rid : RecordId) :
    Result TupleMetadata :=
  if rid.page_id ≠ p.page_id ∨ p.total_tuple_count ≤ rid.slot_id then
    .error (.invalidInput "invalid record id")
  else .ok (p.tuple_info.getD rid.slot_id defaultTI).metadata

/-- TablePage::update_tuple_metadata: bounds-checked; adjusts the
live/deleted counters on a transition and stores the new metadata (the
slot's offset and size are left as they were: the zeroing lines are
commented out in the source). -/
def TablePage.update_tuple_metadata (p : TablePage)
    (metadata : TupleMetadata) (rid : RecordId) : Result TablePage :=
  if rid.page_id ≠ p.page_id ∨ p.total_tuple_count ≤ rid.slot_id then
    .error (.invalidInput "invalid record id")
  else
    let slot := rid.slot_id
    let old_meta := (p.tuple_info.getD slot defaultTI).metadata
    let p2 := p.update_tuple_cnt old_meta.is_deleted metadata.is_deleted
    .ok { p2 with
      tuple_info := p2.tuple_info.set slot
        { p2.tuple_info.getD slot defaultTI with metadata := metadata } }

/-- TablePage::update_tuple_in_place_unchecked: panics (None) on an
out-of-range slot or a size mismatch; otherwise adjusts counters, stores
the metadata and overwrites the payload bytes in place. -/
def TablePage.update_tuple_in_place_unchecked (p : TablePage)
    (meta : TupleMetadata) (tuple : List Nat) (rid : RecordId) :
    Option TablePage :=
  let slot := rid.slot_id
  if p.total_tuple_count ≤ slot then none
  else
    let info := p.tuple_info.getD slot defaultTI
    if info.size_bytes ≠ tuple.length then none
    else
      let p2 := p.update_tuple_cnt info.metadata.is_deleted meta.is_deleted
      some { p2 with
        tuple_info := p2.tuple_info.set slot { info with metadata := meta },
        data := writeAt p2.data info.offset tuple }

/-- The slot array as serialized by TablePage::serialize: tombstoned slots
persist as four zero bytes, live slots as offset and size in LE u16. -/
def serializeSlots (slots : List TupleInfo) : List Nat :=
  slots.flatMap
    (fun info =>
      if info.metadata.is_deleted then [0, 0, 0, 0]
      else toLE2 info.offset ++ toLE2 info.size_bytes)

/-- The header bytes TablePage::serialize writes over the start of the
page buffer: page_id (bincode fixed-LE u32), next_page_id (LE u32), the
two u16 counters, then the slot array. -/
def TablePage.headerBytes (p : TablePage) : List Nat :=
  toLE4 p.page_id ++ toLE4 p.next_page_id ++ toLE2 p.tuple_cnt ++
    toLE2 p.deleted_tuple_cnt ++ serializeSlots p.tuple_info

/-- TablePage::serialize: clone the data buffer and overwrite its start
with the header bytes (the source writes the same bytes field by field at
consecutive cursor positions starting at 0). -/
def TablePage.serialize (p : TablePage) : List Nat :=
  writeAt p.data 0 p.headerBytes

/-- TablePage::deserialize: rebuild the header fields and slot array from
the buffer; a slot whose persisted offset and size are both zero becomes
a tombstone; data keeps the first RUSTY_DB_PAGE_SIZE_BYTES buffer bytes;
is_dirty starts false (the builder default). -/
def TablePage.deserialize (buffer : List Nat) : TablePage :=
  let tuple_cnt := readLE2At buffer 8
  let deleted_tuple_cnt := readLE2At buffer 10
  { page_id := readLE4At buffer 0
    next_page_id := readLE4At buffer 4
    data := buffer.take RUSTY_DB_PAGE_SIZE_BYTES
    tuple_cnt := tuple_cnt
    deleted_tuple_cnt := deleted_tuple_cnt
    tuple_info :=
      (List.range (tuple_cnt + deleted_tuple_cnt)).map
        (fun i =>
          let offset := readLE2At buffer (12 + 4 * i)
          let size := readLE2At buffer (12 + 4 * i + 2)
          TupleInfo.mk offset size (TupleMetadata.mk (size == 0 && offset == 0)))
    is_dirty := false }

/-- The TablePageIterator of table_page.rs restricted to one page: the
(rid, tuple) pairs of the non-tombstoned slots in slot order. -/
def TablePage.scan (p : TablePage) : List (RecordId × List Nat) :=
  (List.range p.total_tuple_count).filterMap
    (fun slot =>
      if (p.tuple_info.getD slot defaultTI).metadata.is_deleted then none
      else
        match p.get_tuple (RecordId.mk p.page_id slot) with
        | .ok t => some (RecordId.mk p.page_id slot, t)
        | .error _ => none)

/-- TableHeap::update_tuple (storage/heap/heap.rs), whose work all happens
on the page fetched for rid.page_id: equal sizes update in place;
otherwise the old slot is tombstoned and the new payload inserted on the
SAME page — the Option returned by insert_tuple is discarded in the
source, so when the payload does not fit the new tuple is silently lost
and the call still returns Ok. -/
def TableHeap.update_tuple_on_page (page : TablePage) (rid : RecordId)
    (payload : List Nat) : Result TablePage := do
  let metadata ← page.get_tuple_metadata rid
  let existing ← page.get_tuple rid
  if existing.length = payload.length then
    match page.update_tuple_in_place_unchecked metadata payload rid with
    | some p2 => .ok p2
    | none => .error (.invalidInput "Invalid slot ID")
  else do
    let p2 ← page.update_tuple_metadata
      TupleMetadata.deleted_payload_metadata rid
    match p2.insert_tuple (TupleMetadata.mk false) payload with
    | some z => .ok z.2
    | none => .ok p2

/-- A fresh page with id 1 (the C2 counterexample starts here). -/
def pageC2a : TablePage := TablePage.new 1 INVALID_PID

/-- pageC2a after inserting the one-byte tuple [7] (at offset 63). -/
def pageC2b : TablePage :=
  ((pageC2a.insert_tuple (TupleMetadata.mk false) [7]).map Prod.snd).getD
    pageC2a

/-- pageC2b after tombstoning its only tuple: a legal page whose slot 0
keeps offset 63 and size 1 in memory. -/
def pageC2 : TablePage :=
  (pageC2b.update_tuple_metadata TupleMetadata.deleted_payload_metadata
    (RecordId.mk 1 0)).getD pageC2b

/-- C2 counterexample: pageC2 is produced from a fresh page by a legal
insert followed by a tombstoning update_tuple_metadata, yet
deserialize(serialize(pageC2)) differs from pageC2: the tombstoned slot
is persisted as offset 0 and size 0, losing the in-memory offset 63 and
size 1. -/
theorem table_page_roundtrip_fails_on_tombstone :
    pageC2a.insert_tuple (TupleMetadata.mk false) [7] = some (0, pageC2b) ∧
    pageC2b.update_tuple_metadata TupleMetadata.deleted_payload_metadata
      (RecordId.mk 1 0) = .ok pageC2 ∧
    pageC2.tuple_info = [TupleInfo.mk 63 1 (TupleMetadata.mk true)] ∧
    (TablePage.deserialize (TablePage.serialize pageC2)).tuple_info =
      [TupleInfo.mk 0 0 (TupleMetadata.mk true)] ∧
    TablePage.deserialize (TablePage.serialize pageC2) ≠ pageC2 := by
  refine ⟨by decide, by decide, by decide, by decide, fun h => ?_⟩
  exact absurd (congrArg TablePage.tuple_info h) (by decide)

/-! The amended C2 development: a state invariant of legal pages and the
round-trip behaviour serialize/deserialize actually have on them. -/

theorem getD_append_lt {a : Type} (l r : List a) (d : a) (i : Nat)
    (h : i < l.length) : (l ++ r).getD i d = l.getD i d := by
  induction l generalizing i with
  | nil => cases h
  | cons x tl ih =>
      cases i with
      | zero => rfl
      | succ n => exact ih n (Nat.lt_of_succ_lt_succ h)

theorem getD_append_ge {a : Type} (l r : List a) (d : a) (i : Nat)
    (h : l.length <= i) : (l ++ r).getD i d = r.getD (i - l.length) d := by
  induction l generalizing i with
  | nil => simp
  | cons x tl ih =>
      cases i with
      | zero => simp at h
      | succ n =>
          have := ih n (Nat.le_of_succ_le_succ h)
          simpa [Nat.succ_sub_succ] using this

theorem getD_drop_nat (l : List Nat) (n i : Nat) :
    (l.drop n).getD i 0 = l.getD (n + i) 0 := by
  induction l generalizing n with
  | nil => simp
  | cons x tl ih =>
      cases n with
      | zero => simp
      | succ m =>
          have h : m + 1 + i = m + i + 1 := by omega
          rw [h]
          exact ih m

theorem getD_set_eq (l : List TupleInfo) (n : Nat) (x d : TupleInfo)
    (h : n < l.length) : (l.set n x).getD n d = x := by
  induction l generalizing n with
  | nil => cases h
  | cons y tl ih =>
      cases n with
      | zero => rfl
      | succ m => exact ih m (Nat.lt_of_succ_lt_succ h)

theorem getD_set_ne (l : List TupleInfo) (n m : Nat) (x d : TupleInfo)
    (h : n ≠ m) : (l.set n x).getD m d = l.getD m d := by
  induction l generalizing n m with
  | nil => rfl
  | cons y tl ih =>
      cases n with
      | zero =>
          cases m with
          | zero => exact absurd rfl h
          | succ j => rfl
      | succ i =>
          cases m with
          | zero => rfl
          | succ j => exact ih i j (fun hh => h (by rw [hh]))

theorem countP_set_add (q : TupleInfo → Bool) (l : List TupleInfo) (n : Nat)
    (x d : TupleInfo) (h : n < l.length) :
    (l.set n x).countP q + (if q (l.getD n d) then 1 else 0) =
      l.countP q + (if q x then 1 else 0) := by
  induction l generalizing n with
  | nil => cases h
  | cons a tl ih =>
      cases n with
      | zero =>
          simp only [List.set, List.getD_cons_zero, List.countP_cons]
          omega
      | succ m =>
          have := ih m (Nat.lt_of_succ_lt_succ h)
          simp only [List.set, List.getD_cons_succ, List.countP_cons]
          omega

theorem countP_not_add_countP (l : List TupleInfo) (q : TupleInfo → Bool) :
    l.countP (fun a => ! q a) + l.countP q = l.length := by
  induction l with
  | nil => rfl
  | cons a tl ih =>
      cases hq : q a <;> simp [List.countP_cons, hq] <;> omega

/-- The state invariant of pages produced by legal operation sequences,
used by the amended C2 theorem: a full-size buffer, in-range ids, clean
flag, counters matching the slot array, and the slot chain of
get_next_tuple_offset — slot i ends exactly where slot i-1 begins (slot 0
ends at the page end) and starts strictly above the header that existed
when it was inserted. -/
structure PageInv (p : TablePage) : Prop where
  data_len : p.data.length = RUSTY_DB_PAGE_SIZE_BYTES
  pid_lt : p.page_id < 2 ^ 32
  next_lt : p.next_page_id < 2 ^ 32
  not_dirty : p.is_dirty = false
  cnt_eq : p.tuple_cnt =
    p.tuple_info.countP (fun info => ! info.metadata.is_deleted)
  del_eq : p.deleted_tuple_cnt =
    p.tuple_info.countP (fun info => info.metadata.is_deleted)
  chain : ∀ i, i < p.tuple_info.length →
    (p.tuple_info.getD i defaultTI).offset +
      (p.tuple_info.getD i defaultTI).size_bytes =
      (if i = 0 then RUSTY_DB_PAGE_SIZE_BYTES
       else (p.tuple_info.getD (i - 1) defaultTI).offset)
  hdr : ∀ i, i < p.tuple_info.length →
    8 + 4 * (i + 1) < (p.tuple_info.getD i defaultTI).offset

theorem pageInv_total {p : TablePage} (h : PageInv p) :
    p.total_tuple_count = p.tuple_info.length := by
  show p.tuple_cnt + p.deleted_tuple_cnt = p.tuple_info.length
  rw [h.cnt_eq, h.del_eq]
  exact countP_not_add_countP p.tuple_info (fun info => info.metadata.is_deleted)

theorem pageInv_off_le {p : TablePage} (h : PageInv p) :
    ∀ i, i < p.tuple_info.length →
      (p.tuple_info.getD i defaultTI).offset +
        (p.tuple_info.getD i defaultTI).size_bytes ≤
        RUSTY_DB_PAGE_SIZE_BYTES := by
  intro i
  induction i with
  | zero =>
      intro hi
      rw [h.chain 0 hi, if_pos rfl]
  | succ n ih =>
      intro hi
      have hn : n < p.tuple_info.length := Nat.lt_of_succ_lt hi
      have hc := h.chain (n + 1) hi
      rw [if_neg (Nat.succ_ne_zero n), Nat.add_sub_cancel] at hc
      have hle := ih hn
      omega

theorem get_next_tuple_offset_spec {p : TablePage} (hv : PageInv p)
    {tuple : List Nat} {offset : Nat}
    (h : p.get_next_tuple_offset tuple = some offset) :
    offset + tuple.length =
      (if p.tuple_info.length = 0 then RUSTY_DB_PAGE_SIZE_BYTES
       else (p.tuple_info.getD (p.tuple_info.length - 1) defaultTI).offset) ∧
    8 + 4 * (p.tuple_info.length + 1) < offset := by
  have htot := pageInv_total hv
  unfold TablePage.get_next_tuple_offset at h
  rw [htot] at h
  cases hL : p.tuple_info.length with
  | zero =>
      rw [hL] at h
      have h' : (if RUSTY_DB_PAGE_SIZE_BYTES < tuple.length then
                   (none : Option Nat)
                 else if 8 + (0 + 1) * 4 <
                     RUSTY_DB_PAGE_SIZE_BYTES - tuple.length then
                   some (RUSTY_DB_PAGE_SIZE_BYTES - tuple.length)
                 else none) = some offset := h
      split at h'
      · exact absurd h' (by simp)
      · split at h'
        · simp only [Option.some.injEq] at h'
          refine ⟨?_, ?_⟩
          · rw [if_pos rfl]
            omega
          · omega
        · exact absurd h' (by simp)
  | succ m =>
      rw [hL] at h
      have h' : (if (p.tuple_info.getD (m + 1 - 1) defaultTI).offset <
                   tuple.length then (none : Option Nat)
                 else if 8 + (m + 1 + 1) * 4 <
                     (p.tuple_info.getD (m + 1 - 1) defaultTI).offset -
                       tuple.length then
                   some ((p.tuple_info.getD (m + 1 - 1) defaultTI).offset -
                     tuple.length)
                 else none) = some offset := h
      split at h'
      · exact absurd h' (by simp)
      · split at h'
        · simp only [Option.some.injEq] at h'
          refine ⟨?_, ?_⟩
          · rw [if_neg (by omega)]
            omega
          · omega
        · exact absurd h' (by simp)

theorem pageInv_new (page_id next_page_id : Nat) (h1 : page_id < 2 ^ 32)
    (h2 : next_page_id < 2 ^ 32) :
    PageInv (TablePage.new page_id next_page_id) := by
  refine ⟨?_, h1, h2, rfl, rfl, rfl, ?_, ?_⟩
  · simp [TablePage.new]
  · intro i hi
    exact absurd hi (by simp [TablePage.new])
  · intro i hi
    exact absurd hi (by simp [TablePage.new])

theorem pageInv_insert {p : TablePage} (hv : PageInv p) (meta : TupleMetadata)
    (tuple : List Nat) {slot : Nat} {p' : TablePage}
    (hins : p.insert_tuple meta tuple = some (slot, p')) : PageInv p' := by
  unfold TablePage.insert_tuple at hins
  cases hoff : p.get_next_tuple_offset tuple with
  | none => rw [hoff] at hins; exact absurd hins (by simp)
  | some offset =>
      rw [hoff] at hins
      simp only [Option.some.injEq, Prod.mk.injEq] at hins
      obtain ⟨hslot, hp'⟩ := hins
      obtain ⟨hend, hhd⟩ := get_next_tuple_offset_spec hv hoff
      have hoffle : offset + tuple.length ≤ RUSTY_DB_PAGE_SIZE_BYTES := by
        rcases Nat.eq_zero_or_pos p.tuple_info.length with h0 | hpos
        · rw [hend, if_pos h0]
        · rw [hend, if_neg (by omega)]
          have := pageInv_off_le hv (p.tuple_info.length - 1) (by omega)
          omega
      subst hp'
      refine ⟨?_, hv.pid_lt, hv.next_lt, hv.not_dirty, ?_, ?_, ?_, ?_⟩
      · show (writeAt p.data offset tuple).length = _
        rw [length_writeAt p.data tuple offset
          (by rw [hv.data_len]; exact hoffle)]
        exact hv.data_len
      · show (if meta.is_deleted then p.tuple_cnt else p.tuple_cnt + 1) = _
        cases hm : meta.is_deleted <;>
          simp [hm, List.countP_append, List.countP_cons, hv.cnt_eq]
      · show (if meta.is_deleted then p.deleted_tuple_cnt + 1
              else p.deleted_tuple_cnt) = _
        cases hm : meta.is_deleted <;>
          simp [hm, List.countP_append, List.countP_cons, hv.del_eq]
      · intro i hi
        rw [List.length_append, List.length_cons, List.length_nil] at hi
        by_cases hi' : i < p.tuple_info.length
        · rcases Nat.eq_zero_or_pos i with rfl | hip
          · rw [getD_append_lt _ _ _ _ hi', if_pos rfl]
            have := hv.chain 0 hi'
            rw [if_pos rfl] at this
            exact this
          · rw [getD_append_lt _ _ _ _ hi', if_neg (by omega),
              getD_append_lt _ _ _ _ (by omega)]
            have := hv.chain i hi'
            rw [if_neg (by omega)] at this
            exact this
        · have hieq : i = p.tuple_info.length := by omega
          subst hieq
          rw [getD_append_ge _ _ _ _ (Nat.le_refl _), Nat.sub_self]
          rcases Nat.eq_zero_or_pos p.tuple_info.length with h0 | hpos
          · rw [if_pos h0]
            rw [if_pos h0] at hend
            exact hend
          · rw [if_neg (by omega), getD_append_lt _ _ _ _ (by omega)]
            rw [if_neg (by omega)] at hend
            exact hend
      · intro i hi
        rw [List.length_append, List.length_cons, List.length_nil] at hi
        by_cases hi' : i < p.tuple_info.length
        · rw [getD_append_lt _ _ _ _ hi']
          exact hv.hdr i hi'
        · have hieq : i = p.tuple_info.length := by omega
          subst hieq
          rw [getD_append_ge _ _ _ _ (Nat.le_refl _), Nat.sub_self]
          exact hhd

theorem chain_hdr_set_meta {p : TablePage} (hv : PageInv p) (slot : Nat)
    (meta : TupleMetadata) (hs : slot < p.tuple_info.length) :
    (∀ i, i < (p.tuple_info.set slot
        { p.tuple_info.getD slot defaultTI with metadata := meta }).length →
      ((p.tuple_info.set slot
          { p.tuple_info.getD slot defaultTI with
              metadata := meta }).getD i defaultTI).offset +
        ((p.tuple_info.set slot
          { p.tuple_info.getD slot defaultTI with
              metadata := meta }).getD i defaultTI).size_bytes =
        (if i = 0 then RUSTY_DB_PAGE_SIZE_BYTES
         else ((p.tuple_info.set slot
            { p.tuple_info.getD slot defaultTI with
                metadata := meta }).getD (i - 1) defaultTI).offset)) ∧
    (∀ i, i < (p.tuple_info.set slot
        { p.tuple_info.getD slot defaultTI with metadata := meta }).length →
      8 + 4 * (i + 1) <
        ((p.tuple_info.set slot
          { p.tuple_info.getD slot defaultTI with
              metadata := meta }).getD i defaultTI).offset) := by
  have hoff : ∀ i,
      ((p.tuple_info.set slot
          { p.tuple_info.getD slot defaultTI with
              metadata := meta }).getD i defaultTI).offset =
        (p.tuple_info.getD i defaultTI).offset ∧
      ((p.tuple_info.set slot
          { p.tuple_info.getD slot defaultTI with
              metadata := meta }).getD i defaultTI).size_bytes =
        (p.tuple_info.getD i defaultTI).size_bytes := by
    intro i
    by_cases hi : slot = i
    · subst hi
      rw [getD_set_eq _ _ _ _ hs]
      exact ⟨rfl, rfl⟩
    · rw [getD_set_ne _ _ _ _ _ hi]
      exact ⟨rfl, rfl⟩
  constructor
  · intro i hi
    rw [List.length_set] at hi
    rw [(hoff i).1, (hoff i).2, (hoff (i - 1)).1]
    exact hv.chain i hi
  · intro i hi
    rw [List.length_set] at hi
    rw [(hoff i).1]
    exact hv.hdr i hi

theorem update_tuple_cnt_ff (p : TablePage) :
    p.update_tuple_cnt false false = p := rfl

theorem update_tuple_cnt_tt (p : TablePage) :
    p.update_tuple_cnt true true = p := rfl

theorem update_tuple_cnt_ft (p : TablePage) :
    p.update_tuple_cnt false true =
      { p with tuple_cnt := p.tuple_cnt - 1,
               deleted_tuple_cnt := p.deleted_tuple_cnt + 1 } := rfl

theorem update_tuple_cnt_tf (p : TablePage) :
    p.update_tuple_cnt true false =
      { p with tuple_cnt := p.tuple_cnt + 1,
               deleted_tuple_cnt := p.deleted_tuple_cnt - 1 } := rfl

theorem countP_set_add_vals (q : TupleInfo → Bool) (l : List TupleInfo)
    (n : Nat) (x d : TupleInfo) (h : n < l.length) (a b : Nat)
    (ha : (if q (l.getD n d) then 1 else 0) = a)
    (hb : (if q x then 1 else 0) = b) :
    (l.set n x).countP q + a = l.countP q + b := by
  rw [← ha, ← hb]
  exact countP_set_add q l n x d h

theorem pageInv_upd_meta {p p' : TablePage} (hv : PageInv p)
    (meta : TupleMetadata) (rid : RecordId)
    (hupd : p.update_tuple_metadata meta rid = .ok p') : PageInv p' := by
  simp only [TablePage.update_tuple_metadata] at hupd
  split at hupd
  · exact Result.noConfusion hupd
  · rename_i hc
    push_neg at hc
    have hlt : rid.slot_id < p.tuple_info.length := by
      have h2 := hc.2
      rw [pageInv_total hv] at h2
      exact h2
    have hcnt := hv.cnt_eq
    have hdel := hv.del_eq
    cases ho : (p.tuple_info.getD rid.slot_id defaultTI).metadata.is_deleted with
    | false =>
        cases hm : meta.is_deleted with
        | false =>
            simp only [ho, hm, update_tuple_cnt_ff, Result.ok.injEq] at hupd
            subst hupd
            have hq := countP_set_add_vals
              (fun info => ! info.metadata.is_deleted) p.tuple_info
              rid.slot_id
              (TupleInfo.mk (p.tuple_info.getD rid.slot_id defaultTI).offset
                (p.tuple_info.getD rid.slot_id defaultTI).size_bytes meta)
              defaultTI hlt 1 1 (by simp only [ho]; simp) (by simp only [hm]; simp)
            have hq2 := countP_set_add_vals
              (fun info => info.metadata.is_deleted) p.tuple_info
              rid.slot_id
              (TupleInfo.mk (p.tuple_info.getD rid.slot_id defaultTI).offset
                (p.tuple_info.getD rid.slot_id defaultTI).size_bytes meta)
              defaultTI hlt 0 0 (by simp only [ho]; simp) (by simp only [hm]; simp)
            refine ⟨hv.data_len, hv.pid_lt, hv.next_lt, hv.not_dirty,
              ?_, ?_, (chain_hdr_set_meta hv rid.slot_id meta hlt).1,
              (chain_hdr_set_meta hv rid.slot_id meta hlt).2⟩
            · show p.tuple_cnt =
                (p.tuple_info.set rid.slot_id
                  (TupleInfo.mk
                    (p.tuple_info.getD rid.slot_id defaultTI).offset
                    (p.tuple_info.getD rid.slot_id defaultTI).size_bytes
                    meta)).countP (fun info => ! info.metadata.is_deleted)
              omega
            · show p.deleted_tuple_cnt =
                (p.tuple_info.set rid.slot_id
                  (TupleInfo.mk
                    (p.tuple_info.getD rid.slot_id defaultTI).offset
                    (p.tuple_info.getD rid.slot_id defaultTI).size_bytes
                    meta)).countP (fun info => info.metadata.is_deleted)
              omega
        | true =>
            simp only [ho, hm, update_tuple_cnt_ft, Result.ok.injEq] at hupd
            subst hupd
            have hq := countP_set_add_vals
              (fun info => ! info.metadata.is_deleted) p.tuple_info
              rid.slot_id
              (TupleInfo.mk (p.tuple_info.getD rid.slot_id defaultTI).offset
                (p.tuple_info.getD rid.slot_id defaultTI).size_bytes meta)
              defaultTI hlt 1 0 (by simp only [ho]; simp) (by simp only [hm]; simp)
            have hq2 := countP_set_add_vals
              (fun info => info.metadata.is_deleted) p.tuple_info
              rid.slot_id
              (TupleInfo.mk (p.tuple_info.getD rid.slot_id defaultTI).offset
                (p.tuple_info.getD rid.slot_id defaultTI).size_bytes meta)
              defaultTI hlt 0 1 (by simp only [ho]; simp) (by simp only [hm]; simp)
            refine ⟨hv.data_len, hv.pid_lt, hv.next_lt, hv.not_dirty,
              ?_, ?_, (chain_hdr_set_meta hv rid.slot_id meta hlt).1,
              (chain_hdr_set_meta hv rid.slot_id meta hlt).2⟩
            · show p.tuple_cnt - 1 =
                (p.tuple_info.set rid.slot_id
                  (TupleInfo.mk
                    (p.tuple_info.getD rid.slot_id defaultTI).offset
                    (p.tuple_info.getD rid.slot_id defaultTI).size_bytes
                    meta)).countP (fun info => ! info.metadata.is_deleted)
              omega
            · show p.deleted_tuple_cnt + 1 =
                (p.tuple_info.set rid.slot_id
                  (TupleInfo.mk
                    (p.tuple_info.getD rid.slot_id defaultTI).offset
                    (p.tuple_info.getD rid.slot_id defaultTI).size_bytes
                    meta)).countP (fun info => info.metadata.is_deleted)
              omega
    | true =>
        cases hm : meta.is_deleted with
        | false =>
            simp only [ho, hm, update_tuple_cnt_tf, Result.ok.injEq] at hupd
            subst hupd
            have hq := countP_set_add_vals
              (fun info => ! info.metadata.is_deleted) p.tuple_info
              rid.slot_id
              (TupleInfo.mk (p.tuple_info.getD rid.slot_id defaultTI).offset
                (p.tuple_info.getD rid.slot_id defaultTI).size_bytes meta)
              defaultTI hlt 0 1 (by simp only [ho]; simp) (by simp only [hm]; simp)
            have hq2 := countP_set_add_vals
              (fun info => info.metadata.is_deleted) p.tuple_info
              rid.slot_id
              (TupleInfo.mk (p.tuple_info.getD rid.slot_id defaultTI).offset
                (p.tuple_info.getD rid.slot_id defaultTI).size_bytes meta)
              defaultTI hlt 1 0 (by simp only [ho]; simp) (by simp only [hm]; simp)
            refine ⟨hv.data_len, hv.pid_lt, hv.next_lt, hv.not_dirty,
              ?_, ?_, (chain_hdr_set_meta hv rid.slot_id meta hlt).1,
              (chain_hdr_set_meta hv rid.slot_id meta hlt).2⟩
            · show p.tuple_cnt + 1 =
                (p.tuple_info.set rid.slot_id
                  (TupleInfo.mk
                    (p.tuple_info.getD rid.slot_id defaultTI).offset
                    (p.tuple_info.getD rid.slot_id defaultTI).size_bytes
                    meta)).countP (fun info => ! info.metadata.is_deleted)
              omega
            · show p.deleted_tuple_cnt - 1 =
                (p.tuple_info.set rid.slot_id
                  (TupleInfo.mk
                    (p.tuple_info.getD rid.slot_id defaultTI).offset
                    (p.tuple_info.getD rid.slot_id defaultTI).size_bytes
                    meta)).countP (fun info => info.metadata.is_deleted)
              omega
        | true =>
            simp only [ho, hm, update_tuple_cnt_tt, Result.ok.injEq] at hupd
            subst hupd
            have hq := countP_set_add_vals
              (fun info => ! info.metadata.is_deleted) p.tuple_info
              rid.slot_id
              (TupleInfo.mk (p.tuple_info.getD rid.slot_id defaultTI).offset
                (p.tuple_info.getD rid.slot_id defaultTI).size_bytes meta)
              defaultTI hlt 0 0 (by simp only [ho]; simp) (by simp only [hm]; simp)
            have hq2 := countP_set_add_vals
              (fun info => info.metadata.is_deleted) p.tuple_info
              rid.slot_id
              (TupleInfo.mk (p.tuple_info.getD rid.slot_id defaultTI).offset
                (p.tuple_info.getD rid.slot_id defaultTI).size_bytes meta)
              defaultTI hlt 1 1 (by simp only [ho]; simp) (by simp only [hm]; simp)
            refine ⟨hv.data_len, hv.pid_lt, hv.next_lt, hv.not_dirty,
              ?_, ?_, (chain_hdr_set_meta hv rid.slot_id meta hlt).1,
              (chain_hdr_set_meta hv rid.slot_id meta hlt).2⟩
            · show p.tuple_cnt =
                (p.tuple_info.set rid.slot_id
                  (TupleInfo.mk
                    (p.tuple_info.getD rid.slot_id defaultTI).offset
                    (p.tuple_info.getD rid.slot_id defaultTI).size_bytes
                    meta)).countP (fun info => ! info.metadata.is_deleted)
              omega
            · show p.deleted_tuple_cnt =
                (p.tuple_info.set rid.slot_id
                  (TupleInfo.mk
                    (p.tuple_info.getD rid.slot_id defaultTI).offset
                    (p.tuple_info.getD rid.slot_id defaultTI).size_bytes
                    meta)).countP (fun info => info.metadata.is_deleted)
              omega

theorem pageInv_upd_in_place {p p' : TablePage} (hv : PageInv p)
    (meta : TupleMetadata) (tuple : List Nat) (rid : RecordId)
    (hupd : p.update_tuple_in_place_unchecked meta tuple rid = some p') :
    PageInv p' := by
  simp only [TablePage.update_tuple_in_place_unchecked] at hupd
  split at hupd
  · exact Option.noConfusion hupd
  · rename_i hc1
    split at hupd
    · exact Option.noConfusion hupd
    · rename_i hc2
      push_neg at hc2
      have hlt : rid.slot_id < p.tuple_info.length := by
        rw [← pageInv_total hv]
        omega
      have hbound : (p.tuple_info.getD rid.slot_id defaultTI).offset +
          tuple.length ≤ p.data.length := by
        rw [hv.data_len]
        have := pageInv_off_le hv rid.slot_id hlt
        omega
      have hcnt := hv.cnt_eq
      have hdel := hv.del_eq
      cases ho : (p.tuple_info.getD rid.slot_id defaultTI).metadata.is_deleted with
      | false =>
          cases hm : meta.is_deleted with
        | false =>
            simp only [ho, hm, update_tuple_cnt_ff, Option.some.injEq] at hupd
            subst hupd
            have hq := countP_set_add_vals
              (fun info => ! info.metadata.is_deleted) p.tuple_info
              rid.slot_id
              (TupleInfo.mk (p.tuple_info.getD rid.slot_id defaultTI).offset
                (p.tuple_info.getD rid.slot_id defaultTI).size_bytes meta)
              defaultTI hlt 1 1 (by simp only [ho]; simp) (by simp only [hm]; simp)
            have hq2 := countP_set_add_vals
              (fun info => info.metadata.is_deleted) p.tuple_info
              rid.slot_id
              (TupleInfo.mk (p.tuple_info.getD rid.slot_id defaultTI).offset
                (p.tuple_info.getD rid.slot_id defaultTI).size_bytes meta)
              defaultTI hlt 0 0 (by simp only [ho]; simp) (by simp only [hm]; simp)
            refine ⟨?_, hv.pid_lt, hv.next_lt, hv.not_dirty,
              ?_, ?_, (chain_hdr_set_meta hv rid.slot_id meta hlt).1,
              (chain_hdr_set_meta hv rid.slot_id meta hlt).2⟩
            · show (writeAt p.data
                  (p.tuple_info.getD rid.slot_id defaultTI).offset
                  tuple).length = RUSTY_DB_PAGE_SIZE_BYTES
              rw [length_writeAt p.data tuple
                (p.tuple_info.getD rid.slot_id defaultTI).offset hbound]
              exact hv.data_len
            · show p.tuple_cnt =
                (p.tuple_info.set rid.slot_id
                  (TupleInfo.mk
                    (p.tuple_info.getD rid.slot_id defaultTI).offset
                    (p.tuple_info.getD rid.slot_id defaultTI).size_bytes
                    meta)).countP (fun info => ! info.metadata.is_deleted)
              omega
            · show p.deleted_tuple_cnt =
                (p.tuple_info.set rid.slot_id
                  (TupleInfo.mk
                    (p.tuple_info.getD rid.slot_id defaultTI).offset
                    (p.tuple_info.getD rid.slot_id defaultTI).size_bytes
                    meta)).countP (fun info => info.metadata.is_deleted)
              omega
        | true =>
            simp only [ho, hm, update_tuple_cnt_ft, Option.some.injEq] at hupd
            subst hupd
            have hq := countP_set_add_vals
              (fun info => ! info.metadata.is_deleted) p.tuple_info
              rid.slot_id
              (TupleInfo.mk (p.tuple_info.getD rid.slot_id defaultTI).offset
                (p.tuple_info.getD rid.slot_id defaultTI).size_bytes meta)
              defaultTI hlt 1 0 (by simp only [ho]; simp) (by simp only [hm]; simp)
            have hq2 := countP_set_add_vals
              (fun info => info.metadata.is_deleted) p.tuple_info
              rid.slot_id
              (TupleInfo.mk (p.tuple_info.getD rid.slot_id defaultTI).offset
                (p.tuple_info.getD rid.slot_id defaultTI).size_bytes meta)
              defaultTI hlt 0 1 (by simp only [ho]; simp) (by simp only [hm]; simp)
            refine ⟨?_, hv.pid_lt, hv.next_lt, hv.not_dirty,
              ?_, ?_, (chain_hdr_set_meta hv rid.slot_id meta hlt).1,
              (chain_hdr_set_meta hv rid.slot_id meta hlt).2⟩
            · show (writeAt p.data
                  (p.tuple_info.getD rid.slot_id defaultTI).offset
                  tuple).length = RUSTY_DB_PAGE_SIZE_BYTES
              rw [length_writeAt p.data tuple
                (p.tuple_info.getD rid.slot_id defaultTI).offset hbound]
              exact hv.data_len
            · show p.tuple_cnt - 1 =
                (p.tuple_info.set rid.slot_id
                  (TupleInfo.mk
                    (p.tuple_info.getD rid.slot_id defaultTI).offset
                    (p.tuple_info.getD rid.slot_id defaultTI).size_bytes
                    meta)).countP (fun info => ! info.metadata.is_deleted)
              omega
            · show p.deleted_tuple_cnt + 1 =
                (p.tuple_info.set rid.slot_id
                  (TupleInfo.mk
                    (p.tuple_info.getD rid.slot_id defaultTI).offset
                    (p.tuple_info.getD rid.slot_id defaultTI).size_bytes
                    meta)).countP (fun info => info.metadata.is_deleted)
              omega
      | true =>
          cases hm : meta.is_deleted with
        | false =>
            simp only [ho, hm, update_tuple_cnt_tf, Option.some.injEq] at hupd
            subst hupd
            have hq := countP_set_add_vals
              (fun info => ! info.metadata.is_deleted) p.tuple_info
              rid.slot_id
              (TupleInfo.mk (p.tuple_info.getD rid.slot_id defaultTI).offset
                (p.tuple_info.getD rid.slot_id defaultTI).size_bytes meta)
              defaultTI hlt 0 1 (by simp only [ho]; simp) (by simp only [hm]; simp)
            have hq2 := countP_set_add_vals
              (fun info => info.metadata.is_deleted) p.tuple_info
              rid.slot_id
              (TupleInfo.mk (p.tuple_info.getD rid.slot_id defaultTI).offset
                (p.tuple_info.getD rid.slot_id defaultTI).size_bytes meta)
              defaultTI hlt 1 0 (by simp only [ho]; simp) (by simp only [hm]; simp)
            refine ⟨?_, hv.pid_lt, hv.next_lt, hv.not_dirty,
              ?_, ?_, (chain_hdr_set_meta hv rid.slot_id meta hlt).1,
              (chain_hdr_set_meta hv rid.slot_id meta hlt).2⟩
            · show (writeAt p.data
                  (p.tuple_info.getD rid.slot_id defaultTI).offset
                  tuple).length = RUSTY_DB_PAGE_SIZE_BYTES
              rw [length_writeAt p.data tuple
                (p.tuple_info.getD rid.slot_id defaultTI).offset hbound]
              exact hv.data_len
            · show p.tuple_cnt + 1 =
                (p.tuple_info.set rid.slot_id
                  (TupleInfo.mk
                    (p.tuple_info.getD rid.slot_id defaultTI).offset
                    (p.tuple_info.getD rid.slot_id defaultTI).size_bytes
                    meta)).countP (fun info => ! info.metadata.is_deleted)
              omega
            · show p.deleted_tuple_cnt - 1 =
                (p.tuple_info.set rid.slot_id
                  (TupleInfo.mk
                    (p.tuple_info.getD rid.slot_id defaultTI).offset
                    (p.tuple_info.getD rid.slot_id defaultTI).size_bytes
                    meta)).countP (fun info => info.metadata.is_deleted)
              omega
        | true =>
            simp only [ho, hm, update_tuple_cnt_tt, Option.some.injEq] at hupd
            subst hupd
            have hq := countP_set_add_vals
              (fun info => ! info.metadata.is_deleted) p.tuple_info
              rid.slot_id
              (TupleInfo.mk (p.tuple_info.getD rid.slot_id defaultTI).offset
                (p.tuple_info.getD rid.slot_id defaultTI).size_bytes meta)
              defaultTI hlt 0 0 (by simp only [ho]; simp) (by simp only [hm]; simp)
            have hq2 := countP_set_add_vals
              (fun info => info.metadata.is_deleted) p.tuple_info
              rid.slot_id
              (TupleInfo.mk (p.tuple_info.getD rid.slot_id defaultTI).offset
                (p.tuple_info.getD rid.slot_id defaultTI).size_bytes meta)
              defaultTI hlt 1 1 (by simp only [ho]; simp) (by simp only [hm]; simp)
            refine ⟨?_, hv.pid_lt, hv.next_lt, hv.not_dirty,
              ?_, ?_, (chain_hdr_set_meta hv rid.slot_id meta hlt).1,
              (chain_hdr_set_meta hv rid.slot_id meta hlt).2⟩
            · show (writeAt p.data
                  (p.tuple_info.getD rid.slot_id defaultTI).offset
                  tuple).length = RUSTY_DB_PAGE_SIZE_BYTES
              rw [length_writeAt p.data tuple
                (p.tuple_info.getD rid.slot_id defaultTI).offset hbound]
              exact hv.data_len
            · show p.tuple_cnt =
                (p.tuple_info.set rid.slot_id
                  (TupleInfo.mk
                    (p.tuple_info.getD rid.slot_id defaultTI).offset
                    (p.tuple_info.getD rid.slot_id defaultTI).size_bytes
                    meta)).countP (fun info => ! info.metadata.is_deleted)
              omega
            · show p.deleted_tuple_cnt =
                (p.tuple_info.set rid.slot_id
                  (TupleInfo.mk
                    (p.tuple_info.getD rid.slot_id defaultTI).offset
                    (p.tuple_info.getD rid.slot_id defaultTI).size_bytes
                    meta)).countP (fun info => info.metadata.is_deleted)
              omega

/-- Pages reachable from a fresh page by legal, non-panicking insert_tuple,
update_tuple_metadata and update_tuple_in_place_unchecked calls — the legal
operation sequences of the round-trip claim. -/
inductive LegalPage : TablePage → Prop where
  | fresh (page_id next_page_id : Nat) (h1 : page_id < 2 ^ 32)
      (h2 : next_page_id < 2 ^ 32) :
      LegalPage (TablePage.new page_id next_page_id)
  | insert {p : TablePage} (meta : TupleMetadata) (tuple : List Nat)
      {slot : Nat} {p' : TablePage} (hp : LegalPage p)
      (h : p.insert_tuple meta tuple = some (slot, p')) : LegalPage p'
  | upd_meta {p : TablePage} (meta : TupleMetadata) (rid : RecordId)
      {p' : TablePage} (hp : LegalPage p)
      (h : p.update_tuple_metadata meta rid = .ok p') : LegalPage p'
  | upd_in_place {p : TablePage} (meta : TupleMetadata) (tuple : List Nat)
      (rid : RecordId) {p' : TablePage} (hp : LegalPage p)
      (h : p.update_tuple_in_place_unchecked meta tuple rid = some p') :
      LegalPage p'

theorem legal_pageInv {p : TablePage} (h : LegalPage p) : PageInv p := by
  induction h with
  | fresh pid nxt h1 h2 => exact pageInv_new pid nxt h1 h2
  | insert meta tuple hp hins ih => exact pageInv_insert ih meta tuple hins
  | upd_meta meta rid hp hupd ih => exact pageInv_upd_meta ih meta rid hupd
  | upd_in_place meta tuple rid hp hupd ih =>
      exact pageInv_upd_in_place ih meta tuple rid hupd

theorem read_hdr_pid (a b c d : Nat) (s r : List Nat) :
    readLE4At (toLE4 a ++ toLE4 b ++ toLE2 c ++ toLE2 d ++ s ++ r) 0 =
      a % 2 ^ 32 :=
  readLE4At_toLE4 a

theorem read_hdr_next (a b c d : Nat) (s r : List Nat) :
    readLE4At (toLE4 a ++ toLE4 b ++ toLE2 c ++ toLE2 d ++ s ++ r) 4 =
      b % 2 ^ 32 :=
  readLE4At_toLE4 b

theorem read_hdr_cnt (a b c d : Nat) (s r : List Nat) :
    readLE2At (toLE4 a ++ toLE4 b ++ toLE2 c ++ toLE2 d ++ s ++ r) 8 =
      c % 2 ^ 16 :=
  readLE2At_toLE2 c

theorem read_hdr_del (a b c d : Nat) (s r : List Nat) :
    readLE2At (toLE4 a ++ toLE4 b ++ toLE2 c ++ toLE2 d ++ s ++ r) 10 =
      d % 2 ^ 16 :=
  readLE2At_toLE2 d

theorem readLE2At_shift (l r : List Nat) (k q : Nat) (h : q = l.length + k) :
    readLE2At (l ++ r) q = readLE2At r k := by
  subst h
  unfold readLE2At
  rw [getD_append_ge l r 0 (l.length + k) (Nat.le_add_right _ _),
    getD_append_ge l r 0 (l.length + k + 1) (by omega)]
  have h1 : l.length + k - l.length = k := by omega
  have h2 : l.length + k + 1 - l.length = k + 1 := by omega
  rw [h1, h2]

theorem read_slot_shift (a b c d : Nat) (s r : List Nat) (i : Nat) :
    readLE2At (toLE4 a ++ toLE4 b ++ toLE2 c ++ toLE2 d ++ s ++ r)
        (12 + 4 * i) = readLE2At (s ++ r) (4 * i) ∧
    readLE2At (toLE4 a ++ toLE4 b ++ toLE2 c ++ toLE2 d ++ s ++ r)
        (12 + 4 * i + 2) = readLE2At (s ++ r) (4 * i + 2) := by
  have hA : toLE4 a ++ toLE4 b ++ toLE2 c ++ toLE2 d ++ s ++ r =
      (toLE4 a ++ toLE4 b ++ toLE2 c ++ toLE2 d) ++ (s ++ r) := by
    simp [List.append_assoc]
  have hAl : (toLE4 a ++ toLE4 b ++ toLE2 c ++ toLE2 d).length = 12 := by
    simp [toLE4, toLE2]
  constructor
  · rw [hA]
    exact readLE2At_shift _ _ (4 * i) _ (by rw [hAl])
  · rw [hA]
    exact readLE2At_shift _ _ (4 * i + 2) _ (by rw [hAl]; omega)

theorem serializeSlots_cons (info : TupleInfo) (tl : List TupleInfo) :
    serializeSlots (info :: tl) =
      (if info.metadata.is_deleted then [0, 0, 0, 0]
       else toLE2 info.offset ++ toLE2 info.size_bytes) ++
        serializeSlots tl := rfl

theorem serializeSlots_length (slots : List TupleInfo) :
    (serializeSlots slots).length = 4 * slots.length := by
  induction slots with
  | nil => rfl
  | cons info tl ih =>
      rw [serializeSlots_cons, List.length_append, ih]
      cases hd : info.metadata.is_deleted <;> simp [hd, toLE2] <;> omega

theorem serializeSlots_read (slots : List TupleInfo) (r : List Nat) :
    ∀ i, i < slots.length →
      readLE2At (serializeSlots slots ++ r) (4 * i) =
        (if (slots.getD i defaultTI).metadata.is_deleted then 0
         else (slots.getD i defaultTI).offset % 2 ^ 16) ∧
      readLE2At (serializeSlots slots ++ r) (4 * i + 2) =
        (if (slots.getD i defaultTI).metadata.is_deleted then 0
         else (slots.getD i defaultTI).size_bytes % 2 ^ 16) := by
  induction slots generalizing r with
  | nil => intro i hi; cases hi
  | cons info tl ih =>
      intro i hi
      cases hd : info.metadata.is_deleted with
      | true =>
          have he : serializeSlots (info :: tl) ++ r =
              ([0, 0, 0, 0] : List Nat) ++ (serializeSlots tl ++ r) := by
            rw [serializeSlots_cons, hd]
            simp
          cases i with
          | zero =>
              rw [he]
              refine ⟨?_, ?_⟩
              · rw [List.getD_cons_zero, hd, if_pos rfl]
                rfl
              · rw [List.getD_cons_zero, hd, if_pos rfl]
                rfl
          | succ n =>
              have hi2 : n < tl.length := Nat.lt_of_succ_lt_succ hi
              have hmain := ih r n hi2
              rw [he]
              refine ⟨?_, ?_⟩
              · rw [readLE2At_shift ([0, 0, 0, 0] : List Nat)
                    (serializeSlots tl ++ r) (4 * n) (4 * (n + 1))
                    (by simp only [List.length_cons, List.length_nil]; omega),
                  List.getD_cons_succ]
                exact hmain.1
              · rw [readLE2At_shift ([0, 0, 0, 0] : List Nat)
                    (serializeSlots tl ++ r) (4 * n + 2) (4 * (n + 1) + 2)
                    (by simp only [List.length_cons, List.length_nil]; omega),
                  List.getD_cons_succ]
                exact hmain.2
      | false =>
          have he : serializeSlots (info :: tl) ++ r =
              (toLE2 info.offset ++ toLE2 info.size_bytes) ++
                (serializeSlots tl ++ r) := by
            rw [serializeSlots_cons, hd]
            simp
          cases i with
          | zero =>
              rw [he]
              refine ⟨?_, ?_⟩
              · rw [List.getD_cons_zero, hd, if_neg Bool.false_ne_true]
                exact readLE2At_toLE2 info.offset
              · rw [List.getD_cons_zero, hd, if_neg Bool.false_ne_true]
                exact readLE2At_toLE2 info.size_bytes
          | succ n =>
              have hi2 : n < tl.length := Nat.lt_of_succ_lt_succ hi
              have hmain := ih r n hi2
              rw [he]
              refine ⟨?_, ?_⟩
              · rw [readLE2At_shift (toLE2 info.offset ++ toLE2 info.size_bytes)
                    (serializeSlots tl ++ r) (4 * n) (4 * (n + 1))
                    (by simp only [toLE2, List.length_append, List.length_cons,
                      List.length_nil]; omega),
                  List.getD_cons_succ]
                exact hmain.1
              · rw [readLE2At_shift (toLE2 info.offset ++ toLE2 info.size_bytes)
                    (serializeSlots tl ++ r) (4 * n + 2) (4 * (n + 1) + 2)
                    (by simp only [toLE2, List.length_append, List.length_cons,
                      List.length_nil]; omega),
                  List.getD_cons_succ]
                exact hmain.2

theorem beq_zero_and_false (s o : Nat) (ho : o ≠ 0) :
    ((s == 0) && (o == 0)) = false := by
  have h : (o == 0) = false := by
    cases h0 : (o == 0)
    · rfl
    · exact absurd (eq_of_beq h0) ho
  rw [h, Bool.and_false]

/-- The persisted image of a slot: serialize collapses a tombstoned
slot's offset and size to zero; live slots persist unchanged. -/
def persistedSlot (info : TupleInfo) : TupleInfo :=
  if info.metadata.is_deleted then TupleInfo.mk 0 0 (TupleMetadata.mk true)
  else info

/-- What deserialize ∘ serialize actually preserves on a legal page: the
ids, the counters and the clean flag survive; each slot survives up to
persistedSlot (tombstones collapse to offset 0, size 0); the data buffer
keeps its length and every byte beyond the serialized header (the first
12 + 4·n bytes of data are overwritten with the header on serialize). -/
def roundTripOk (p : TablePage) : Prop :=
  (TablePage.deserialize (TablePage.serialize p)).page_id = p.page_id ∧
  (TablePage.deserialize (TablePage.serialize p)).next_page_id =
    p.next_page_id ∧
  (TablePage.deserialize (TablePage.serialize p)).tuple_cnt = p.tuple_cnt ∧
  (TablePage.deserialize (TablePage.serialize p)).deleted_tuple_cnt =
    p.deleted_tuple_cnt ∧
  (TablePage.deserialize (TablePage.serialize p)).is_dirty = p.is_dirty ∧
  (TablePage.deserialize (TablePage.serialize p)).tuple_info =
    p.tuple_info.map persistedSlot ∧
  (TablePage.deserialize (TablePage.serialize p)).data.length =
    RUSTY_DB_PAGE_SIZE_BYTES ∧
  ∀ i, 12 + 4 * p.tuple_info.length ≤ i →
    (TablePage.deserialize (TablePage.serialize p)).data.getD i 0 =
      p.data.getD i 0

/-- C2 (amended): on every page produced from a fresh page by a legal
sequence of insert_tuple, update_tuple_metadata and
update_tuple_in_place_unchecked calls, deserialize(serialize(p))
preserves page_id, next_page_id, both counters and the dirty flag, and
maps the slot array pointwise by persistedSlot: live slots return
exactly, while each tombstoned slot comes back with offset 0 and size 0
(its in-memory offset and size are lost, as the counterexample above
shows).  The buffer keeps its length and all bytes beyond the serialized
header; the header bytes (the first 12 + 4·n) overwrite the start of
data, so full data equality also fails in general. -/
theorem table_page_roundtrip_amended (p : TablePage) (h : LegalPage p) :
    roundTripOk p := by
  have hv := legal_pageInv h
  have hp64 : RUSTY_DB_PAGE_SIZE_BYTES = 64 := rfl
  have hlen13 : p.tuple_info.length ≤ 13 := by
    rcases Nat.eq_zero_or_pos p.tuple_info.length with h0 | hpos
    · omega
    · have h1 := hv.hdr (p.tuple_info.length - 1) (by omega)
      have h2 := pageInv_off_le hv (p.tuple_info.length - 1) (by omega)
      rw [hp64] at h2
      omega
  have hhb : p.headerBytes.length = 12 + 4 * p.tuple_info.length := by
    unfold TablePage.headerBytes
    simp only [List.length_append, toLE4, toLE2, List.length_cons,
      List.length_nil, serializeSlots_length]
  have hble : p.headerBytes.length ≤ RUSTY_DB_PAGE_SIZE_BYTES := by
    rw [hhb, hp64]
    omega
  have hser : TablePage.serialize p =
      p.headerBytes ++ p.data.drop p.headerBytes.length := by
    unfold TablePage.serialize writeAt
    simp
  have hserlen : (TablePage.serialize p).length = RUSTY_DB_PAGE_SIZE_BYTES := by
    rw [hser, List.length_append, List.length_drop, hv.data_len]
    omega
  have hqdata : (TablePage.deserialize (TablePage.serialize p)).data =
      TablePage.serialize p := by
    show (TablePage.serialize p).take RUSTY_DB_PAGE_SIZE_BYTES = _
    rw [← hserlen]
    exact List.take_length _
  have hbuf : TablePage.serialize p =
      toLE4 p.page_id ++ toLE4 p.next_page_id ++ toLE2 p.tuple_cnt ++
        toLE2 p.deleted_tuple_cnt ++ serializeSlots p.tuple_info ++
        p.data.drop p.headerBytes.length := by
    rw [hser]
    rfl
  have hcntle : p.tuple_cnt ≤ p.tuple_info.length := by
    rw [hv.cnt_eq]
    exact List.countP_le_length _
  have hdelle : p.deleted_tuple_cnt ≤ p.tuple_info.length := by
    rw [hv.del_eq]
    exact List.countP_le_length _
  have hcd : readLE2At (TablePage.serialize p) 8 = p.tuple_cnt := by
    rw [hbuf, read_hdr_cnt]
    exact Nat.mod_eq_of_lt (by omega)
  have hdd : readLE2At (TablePage.serialize p) 10 = p.deleted_tuple_cnt := by
    rw [hbuf, read_hdr_del]
    exact Nat.mod_eq_of_lt (by omega)
  have htot2 : p.tuple_cnt + p.deleted_tuple_cnt = p.tuple_info.length :=
    pageInv_total hv
  refine ⟨?_, ?_, ?_, ?_, ?_, ?_, ?_, ?_⟩
  · show readLE4At (TablePage.serialize p) 0 = p.page_id
    rw [hbuf, read_hdr_pid]
    exact Nat.mod_eq_of_lt hv.pid_lt
  · show readLE4At (TablePage.serialize p) 4 = p.next_page_id
    rw [hbuf, read_hdr_next]
    exact Nat.mod_eq_of_lt hv.next_lt
  · exact hcd
  · exact hdd
  · exact hv.not_dirty.symm
  · show (List.range (readLE2At (TablePage.serialize p) 8 +
        readLE2At (TablePage.serialize p) 10)).map
        (fun i => TupleInfo.mk (readLE2At (TablePage.serialize p) (12 + 4 * i))
          (readLE2At (TablePage.serialize p) (12 + 4 * i + 2))
          (TupleMetadata.mk
            ((readLE2At (TablePage.serialize p) (12 + 4 * i + 2) == 0) &&
             (readLE2At (TablePage.serialize p) (12 + 4 * i) == 0)))) =
      p.tuple_info.map persistedSlot
    rw [hcd, hdd, htot2]
    apply List.ext_getElem
    · simp
    · intro n h1 h2
      rw [List.getElem_map, List.getElem_range, List.getElem_map]
      have hn : n < p.tuple_info.length := by
        simpa using h1
      have hsh := read_slot_shift p.page_id p.next_page_id p.tuple_cnt
        p.deleted_tuple_cnt (serializeSlots p.tuple_info)
        (p.data.drop p.headerBytes.length) n
      have hsr := serializeSlots_read p.tuple_info
        (p.data.drop p.headerBytes.length) n hn
      have hoff : readLE2At (TablePage.serialize p) (12 + 4 * n) =
          (if (p.tuple_info.getD n defaultTI).metadata.is_deleted then 0
           else (p.tuple_info.getD n defaultTI).offset % 2 ^ 16) := by
        rw [hbuf, hsh.1]
        exact hsr.1
      have hsz : readLE2At (TablePage.serialize p) (12 + 4 * n + 2) =
          (if (p.tuple_info.getD n defaultTI).metadata.is_deleted then 0
           else (p.tuple_info.getD n defaultTI).size_bytes % 2 ^ 16) := by
        rw [hbuf, hsh.2]
        exact hsr.2
      have hgd : p.tuple_info.getD n defaultTI = p.tuple_info[n] :=
        List.getD_eq_getElem p.tuple_info defaultTI hn
      rw [← hgd]
      simp only [persistedSlot]
      cases hnd : (p.tuple_info.getD n defaultTI).metadata.is_deleted with
      | true =>
          rw [hoff, hsz, hnd, if_pos rfl, if_pos rfl, if_pos rfl]
          rfl
      | false =>
          have hob : (p.tuple_info.getD n defaultTI).offset % 2 ^ 16 =
              (p.tuple_info.getD n defaultTI).offset := by
            have hx := pageInv_off_le hv n hn
            rw [hp64] at hx
            exact Nat.mod_eq_of_lt (by omega)
          have hzb : (p.tuple_info.getD n defaultTI).size_bytes % 2 ^ 16 =
              (p.tuple_info.getD n defaultTI).size_bytes := by
            have hx := pageInv_off_le hv n hn
            rw [hp64] at hx
            exact Nat.mod_eq_of_lt (by omega)
          have hne0 : (p.tuple_info.getD n defaultTI).offset ≠ 0 := by
            have hx := hv.hdr n hn
            omega
          rw [hoff, hsz, hnd, if_neg Bool.false_ne_true,
            if_neg Bool.false_ne_true, if_neg Bool.false_ne_true, hob, hzb,
            beq_zero_and_false _ _ hne0]
          rw [← hnd]
  · rw [hqdata]
    exact hserlen
  · intro i hi12
    rw [hqdata, hser]
    rw [getD_append_ge _ _ _ _ (by rw [hhb]; omega)]
    rw [getD_drop_nat]
    have hidx : p.headerBytes.length + (i - p.headerBytes.length) = i := by
      rw [hhb]
      omega
    rw [hidx]

/-- Witness for the amended C2 theorem: the tombstoned page pageC2 is
legal (fresh page, one insert, one tombstoning metadata update) and the
round-trip behaves as roundTripOk describes. -/
theorem table_page_roundtrip_amended_witness : roundTripOk pageC2 :=
  table_page_roundtrip_amended pageC2
    (LegalPage.upd_meta TupleMetadata.deleted_payload_metadata
      (RecordId.mk 1 0)
      (LegalPage.insert (TupleMetadata.mk false) [7]
        (LegalPage.fresh 1 INVALID_PID (by decide) (by decide))
        (show pageC2a.insert_tuple (TupleMetadata.mk false) [7] =
          some (0, pageC2b) by decide))
      (show pageC2b.update_tuple_metadata
          TupleMetadata.deleted_payload_metadata (RecordId.mk 1 0) =
          .ok pageC2 by decide))

/-- A fresh page with id 1 (the C7 scenario starts here). -/
def pageC7a : TablePage := TablePage.new 1 INVALID_PID

/-- The 48-byte tuple filling most of the C7 page. -/
def bigTuple : List Nat := List.replicate 48 55

/-- pageC7a holding one live 48-byte tuple at offset 16 — the page is
nearly full. -/
def pageC7b : TablePage :=
  ((pageC7a.insert_tuple (TupleMetadata.mk false) bigTuple).map
    Prod.snd).getD pageC7a

/-- The result of updating pageC7b's tuple to a 7-byte payload. -/
def pageC7 : TablePage :=
  (TableHeap.update_tuple_on_page pageC7b (RecordId.mk 1 0)
    (List.replicate 7 9)).getD pageC7b

/-- C7: updating the live tuple of the nearly full page pageC7b to a
different-size payload tombstones the old slot and then silently drops
the new tuple — insert_tuple returns None (the 7 bytes no longer fit
under the grown header check) and the heap ignores it, returning Ok.  A
subsequent scan of the page yields the new tuple zero times, not exactly
once as the claim requires, and the data is lost. -/
theorem heap_update_tuple_loses_new_tuple :
    pageC7a.insert_tuple (TupleMetadata.mk false) bigTuple =
      some (0, pageC7b) ∧
    pageC7b.scan = [(RecordId.mk 1 0, bigTuple)] ∧
    TableHeap.update_tuple_on_page pageC7b (RecordId.mk 1 0)
      (List.replicate 7 9) = .ok pageC7 ∧
    pageC7.scan = [] := by
  refine ⟨by decide, by decide, by decide, by decide⟩

/-! The buffer pool manager (handin/buffer_pool_manager.rs), restricted to
the state unpin_page touches.  The disk manager takes no part in
unpin_page and is omitted. -/

/-- FrameMetadata: a frame id and its pin count. -/
structure FrameMetadata where
  frame_id : Nat
  pin_count : Nat
deriving DecidableEq, Repr

/-- The BufferPoolManager state: pool size, the frame array of pages, the
page table (HashMap modelled as an association list from page id to
FrameMetadata), the replacer, and the free list. -/
structure BufferPoolManager where
  pool_size : Nat
  pages : List TablePage
  page_table : List (Nat × FrameMetadata)
  replacer : LRUKReplacer
  free_list : List Nat
deriving DecidableEq, Repr

/-- The entry-wise page-table update (HashMap::get_mut): the entry with
the given page id is transformed by g, all others unchanged. -/
def updFM (k : Nat) (g : FrameMetadata → FrameMetadata)
    (p : Nat × FrameMetadata) : Nat × FrameMetadata :=
  if p.1 = k then (p.1, g p.2) else p

/-- BufferPoolManager::get_pin_count. -/
def BufferPoolManager.get_pin_count (b : BufferPoolManager)
    (page_id : Nat) : Option Nat :=
  match List.lookup page_id b.page_table with
  | none => none
  | some meta => some meta.pin_count

/-- BufferPoolManager::decrement_pin_count: panics (None) when the page
is absent or FrameMetadata::decrement_pin_count hits a zero pin count. -/
def BufferPoolManager.decrement_pin_count (b : BufferPoolManager)
    (page_id : Nat) : Option BufferPoolManager :=
  match List.lookup page_id b.page_table with
  | none => none
  | some meta =>
      if meta.pin_count = 0 then none
      else some { b with page_table := b.page_table.map (updFM page_id (fun m => { m with pin_count := m.pin_count - 1 })) }

/-- BufferPoolManager::set_is_dirty: looks up the frame (panicking when
the page is absent or the frame out of range) and calls
TablePage::set_is_dirty, which assigns the flag (returning early when the
page already has that value). -/
def BufferPoolManager.set_is_dirty (b : BufferPoolManager) (page_id : Nat)
    (is_dirty : Bool) : Option BufferPoolManager :=
  match List.lookup page_id b.page_table with
  | none => none
  | some meta =>
      match b.pages[meta.frame_id]? with
      | none => none
      | some page =>
          some (match page.is_dirty == is_dirty with
                | true => b
                | false => { b with pages := b.pages.set meta.frame_id { page with is_dirty := is_dirty } })

/-- BufferPoolManager::set_evictable: looks up the frame (panicking when
the page is absent) and forwards to the replacer (which panics on
untracked frames). -/
def BufferPoolManager.set_evictable (b : BufferPoolManager)
    (page_id : Nat) (flag : Bool) : Option BufferPoolManager :=
  match List.lookup page_id b.page_table with
  | none => none
  | some meta =>
      match b.replacer.set_evictable meta.frame_id flag with
      | none => none
      | some r2 => some { b with replacer := r2 }

/-- BufferPoolManager::unpin_page: a non-resident page aborts (None, the
expect on get_pin_count); pin count 0 returns false without changes; pin
count 1 decrements, assigns the dirty flag, marks the frame evictable and
returns true; larger pin counts decrement, assign the dirty flag and
return true. -/
def BufferPoolManager.unpin_page (b : BufferPoolManager) (page_id : Nat)
    (is_dirty : Bool) : Option (BufferPoolManager × Bool) :=
  match b.get_pin_count page_id with
  | none => none
  | some 0 => some (b, false)
  | some 1 =>
      match b.decrement_pin_count page_id with
      | none => none
      | some b1 =>
          match b1.set_is_dirty page_id is_dirty with
          | none => none
          | some b2 =>
              match b2.set_evictable page_id true with
              | none => none
              | some b3 => some (b3, true)
  | some (_ + 2) =>
      match b.decrement_pin_count page_id with
      | none => none
      | some b1 =>
          match b1.set_is_dirty page_id is_dirty with
          | none => none
          | some b2 => some (b2, true)

/-- A dirty page with id 5 sitting in frame 0 of the C4 buffer pool. -/
def dirtyPageC4 : TablePage :=
  { TablePage.new 5 INVALID_PID with is_dirty := true }

/-- The C4 buffer pool: page 5 resident in frame 0, pin count 2, its page
dirty. -/
def bpmC4 : BufferPoolManager where
  pool_size := 2
  pages := [dirtyPageC4]
  page_table := [(5, FrameMetadata.mk 0 2)]
  replacer := LRUKReplacer.new 2 2
  free_list := [1]

/-- The buffer pool after unpin_page(5, false). -/
def bpmC4b : BufferPoolManager :=
  ((bpmC4.unpin_page 5 false).map Prod.fst).getD bpmC4

/-- C4 counterexample: unpinning the resident dirty page 5 with
is_dirty = false succeeds and clears the dirty flag.  set_is_dirty
assigns its argument to the page instead of OR-ing it with the stored
flag, so a page made dirty by one user is marked clean when any other
user unpins it clean, and the claimed "never clears an already-dirty
page" fails. -/
theorem unpin_page_clears_dirty_flag :
    bpmC4.pages[0]?.map TablePage.is_dirty = some true ∧
    bpmC4.unpin_page 5 false = some (bpmC4b, true) ∧
    bpmC4b.pages[0]?.map TablePage.is_dirty = some false ∧
    bpmC4b.page_table = [(5, FrameMetadata.mk 0 1)] := by
  refine ⟨by decide, by decide, by decide, by decide⟩

theorem lookup_map_updFM (l : List (Nat × FrameMetadata)) (k : Nat)
    (g : FrameMetadata → FrameMetadata) :
    List.lookup k (l.map (updFM k g)) = (List.lookup k l).map g := by
  induction l with
  | nil => rfl
  | cons p tl ih =>
      obtain ⟨k1, v1⟩ := p
      by_cases h : k1 = k
      · subst h
        show List.lookup k1 (updFM k1 g (k1, v1) :: List.map (updFM k1 g) tl) = _
        rw [show updFM k1 g (k1, v1) = (k1, g v1) from by simp [updFM]]
        simp [List.lookup]
      · have hb : (k == k1) = false := by
          cases hkk : (k == k1)
          · rfl
          · exact absurd (eq_of_beq hkk) (fun hh => h hh.symm)
        show List.lookup k (updFM k g (k1, v1) :: List.map (updFM k g) tl) = _
        rw [show updFM k g (k1, v1) = (k1, v1) from by simp [updFM, h]]
        simp [List.lookup, hb, ih]

theorem getElem?_set_self_nat {a : Type} (l : List a) (i : Nat) (x : a)
    (h : i < l.length) : (l.set i x)[i]? = some x := by
  induction l generalizing i with
  | nil => exact absurd h (Nat.not_lt_zero i)
  | cons y tl ih =>
      cases i with
      | zero => simp
      | succ n =>
          show (y :: tl.set n x)[n + 1]? = some x
          rw [List.getElem?_cons_succ]
          exact ih n (Nat.lt_of_succ_lt_succ h)

theorem getElem?_some_lt {a : Type} (l : List a) (i : Nat) (x : a)
    (h : l[i]? = some x) : i < l.length := by
  induction l generalizing i with
  | nil => exact Option.noConfusion h
  | cons y tl ih =>
      cases i with
      | zero => simp
      | succ n =>
          rw [List.getElem?_cons_succ] at h
          exact Nat.succ_lt_succ (ih n h)

/-- C4 (amended): unpin_page aborts on a non-resident page; with pin
count 0 it returns false leaving the state unchanged; otherwise it
decrements the pin count, ASSIGNS the page's dirty flag to the is_dirty
argument — an unpin with is_dirty = false clears an already-dirty page,
there is no OR with the previous value — marks the frame evictable in
the replacer exactly when the pin count reaches 0, and returns true. -/
theorem unpin_page_spec (b : BufferPoolManager) (page_id : Nat) (d : Bool) :
    (List.lookup page_id b.page_table = none →
      b.unpin_page page_id d = none) ∧
    (∀ meta, List.lookup page_id b.page_table = some meta →
      (meta.pin_count = 0 → b.unpin_page page_id d = some (b, false)) ∧
      (∀ page, b.pages[meta.frame_id]? = some page →
        (2 ≤ meta.pin_count →
          ∃ b2, b.unpin_page page_id d = some (b2, true) ∧
            List.lookup page_id b2.page_table =
              some (FrameMetadata.mk meta.frame_id (meta.pin_count - 1)) ∧
            b2.pages[meta.frame_id]?.map TablePage.is_dirty = some d ∧
            b2.replacer = b.replacer) ∧
        (meta.pin_count = 1 →
          ∀ r2, b.replacer.set_evictable meta.frame_id true = some r2 →
            ∃ b2, b.unpin_page page_id d = some (b2, true) ∧
              List.lookup page_id b2.page_table =
                some (FrameMetadata.mk meta.frame_id 0) ∧
              b2.pages[meta.frame_id]?.map TablePage.is_dirty = some d ∧
              b2.replacer = r2))) := by
  refine ⟨?_, ?_⟩
  · intro hnone
    simp only [BufferPoolManager.unpin_page, BufferPoolManager.get_pin_count,
      hnone]
  · intro meta hm
    have hg : b.get_pin_count page_id = some meta.pin_count := by
      simp only [BufferPoolManager.get_pin_count, hm]
    refine ⟨?_, ?_⟩
    · intro h0
      simp only [BufferPoolManager.unpin_page, hg, h0]
    · intro page hp
      have hfl : meta.frame_id < b.pages.length := getElem?_some_lt _ _ _ hp
      have hm1 : List.lookup page_id (b.page_table.map (updFM page_id
          (fun m => { m with pin_count := m.pin_count - 1 }))) =
          some (FrameMetadata.mk meta.frame_id (meta.pin_count - 1)) := by
        rw [lookup_map_updFM, hm]
        rfl
      refine ⟨?_, ?_⟩
      · intro h2
        obtain ⟨k, hk⟩ : ∃ k, meta.pin_count = k + 2 :=
          ⟨meta.pin_count - 2, by omega⟩
        have hdec : b.decrement_pin_count page_id =
            some { b with page_table := b.page_table.map (updFM page_id (fun m => { m with pin_count := m.pin_count - 1 })) } := by
          simp only [BufferPoolManager.decrement_pin_count, hm]
          rw [if_neg (by omega)]
        cases hbd : page.is_dirty == d with
        | true =>
            have hsd : BufferPoolManager.set_is_dirty
                { b with page_table := b.page_table.map (updFM page_id (fun m => { m with pin_count := m.pin_count - 1 })) }
                page_id d =
                some { b with page_table := b.page_table.map (updFM page_id (fun m => { m with pin_count := m.pin_count - 1 })) } := by
              simp only [BufferPoolManager.set_is_dirty, hm1, hp, hbd]
            refine ⟨{ b with page_table := b.page_table.map (updFM page_id (fun m => { m with pin_count := m.pin_count - 1 })) },
              ?_, ?_, ?_, ?_⟩
            · simp only [BufferPoolManager.unpin_page, hg, hk, hdec, hsd]
            · exact hm1
            · show b.pages[meta.frame_id]?.map TablePage.is_dirty = some d
              rw [hp]
              show some page.is_dirty = some d
              rw [eq_of_beq hbd]
            · rfl
        | false =>
            have hsd : BufferPoolManager.set_is_dirty
                { b with page_table := b.page_table.map (updFM page_id (fun m => { m with pin_count := m.pin_count - 1 })) }
                page_id d =
                some { b with page_table := b.page_table.map (updFM page_id (fun m => { m with pin_count := m.pin_count - 1 })), pages := b.pages.set meta.frame_id { page with is_dirty := d } } := by
              simp only [BufferPoolManager.set_is_dirty, hm1, hp, hbd]
            refine ⟨{ b with page_table := b.page_table.map (updFM page_id (fun m => { m with pin_count := m.pin_count - 1 })), pages := b.pages.set meta.frame_id { page with is_dirty := d } },
              ?_, ?_, ?_, ?_⟩
            · simp only [BufferPoolManager.unpin_page, hg, hk, hdec, hsd]
            · exact hm1
            · show (b.pages.set meta.frame_id
                  { page with is_dirty := d })[meta.frame_id]?.map
                  TablePage.is_dirty = some d
              rw [getElem?_set_self_nat _ _ _ hfl]
              rfl
            · rfl
      · intro h1 r2 hr2
        have hdec : b.decrement_pin_count page_id =
            some { b with page_table := b.page_table.map (updFM page_id (fun m => { m with pin_count := m.pin_count - 1 })) } := by
          simp only [BufferPoolManager.decrement_pin_count, hm]
          rw [if_neg (by omega)]
        cases hbd : page.is_dirty == d with
        | true =>
            have hsd : BufferPoolManager.set_is_dirty
                { b with page_table := b.page_table.map (updFM page_id (fun m => { m with pin_count := m.pin_count - 1 })) }
                page_id d =
                some { b with page_table := b.page_table.map (updFM page_id (fun m => { m with pin_count := m.pin_count - 1 })) } := by
              simp only [BufferPoolManager.set_is_dirty, hm1, hp, hbd]
            have hse : BufferPoolManager.set_evictable
                { b with page_table := b.page_table.map (updFM page_id (fun m => { m with pin_count := m.pin_count - 1 })) }
                page_id true =
                some { b with page_table := b.page_table.map (updFM page_id (fun m => { m with pin_count := m.pin_count - 1 })), replacer := r2 } := by
              simp only [BufferPoolManager.set_evictable, hm1, hr2]
            refine ⟨{ b with page_table := b.page_table.map (updFM page_id (fun m => { m with pin_count := m.pin_count - 1 })), replacer := r2 },
              ?_, ?_, ?_, ?_⟩
            · simp only [BufferPoolManager.unpin_page, hg, h1, hdec, hsd, hse]
            · show List.lookup page_id (b.page_table.map (updFM page_id
                  (fun m => { m with pin_count := m.pin_count - 1 }))) = _
              rw [hm1, h1]
            · show b.pages[meta.frame_id]?.map TablePage.is_dirty = some d
              rw [hp]
              show some page.is_dirty = some d
              rw [eq_of_beq hbd]
            · rfl
        | false =>
            have hsd : BufferPoolManager.set_is_dirty
                { b with page_table := b.page_table.map (updFM page_id (fun m => { m with pin_count := m.pin_count - 1 })) }
                page_id d =
                some { b with page_table := b.page_table.map (updFM page_id (fun m => { m with pin_count := m.pin_count - 1 })), pages := b.pages.set meta.frame_id { page with is_dirty := d } } := by
              simp only [BufferPoolManager.set_is_dirty, hm1, hp, hbd]
            have hse : BufferPoolManager.set_evictable
                { b with page_table := b.page_table.map (updFM page_id (fun m => { m with pin_count := m.pin_count - 1 })), pages := b.pages.set meta.frame_id { page with is_dirty := d } }
                page_id true =
                some { b with page_table := b.page_table.map (updFM page_id (fun m => { m with pin_count := m.pin_count - 1 })), pages := b.pages.set meta.frame_id { page with is_dirty := d }, replacer := r2 } := by
              simp only [BufferPoolManager.set_evictable, hm1, hr2]
            refine ⟨{ b with page_table := b.page_table.map (updFM page_id (fun m => { m with pin_count := m.pin_count - 1 })), pages := b.pages.set meta.frame_id { page with is_dirty := d }, replacer := r2 },
              ?_, ?_, ?_, ?_⟩
            · simp only [BufferPoolManager.unpin_page, hg, h1, hdec, hsd, hse]
            · show List.lookup page_id (b.page_table.map (updFM page_id
                  (fun m => { m with pin_count := m.pin_count - 1 }))) = _
              rw [hm1, h1]
            · show (b.pages.set meta.frame_id
                  { page with is_dirty := d })[meta.frame_id]?.map
                  TablePage.is_dirty = some d
              rw [getElem?_set_self_nat _ _ _ hfl]
              rfl
            · rfl

/-- Witness for the amended C4 theorem at the concrete pool bpmC4:
unpinning the pin-count-2 dirty page 5 clean yields true, pin count 1,
a clean page and an untouched replacer. -/
theorem unpin_page_spec_witness :
    ∃ b2, bpmC4.unpin_page 5 false = some (b2, true) ∧
      List.lookup 5 b2.page_table = some (FrameMetadata.mk 0 1) ∧
      b2.pages[0]?.map TablePage.is_dirty = some false ∧
      b2.replacer = bpmC4.replacer :=
  ((((unpin_page_spec bpmC4 5 false).2 (FrameMetadata.mk 0 2)
    (by decide)).2 dirtyPageC4 (by decide)).1 (by decide))

/-! Row serialization (src/types/schema.rs, src/storage/tuple/row.rs,
src/types/field.rs).  Column names and defaults take no part in
serialization and are omitted.  Machine u16 arithmetic is modelled on
Nat; the amended theorem carries the explicit bound keeping every
computed offset below 2^16, and the counterexample uses small values,
so model and source agree wherever the theorems look. -/

/-- A Column of a Table schema (schema.rs). -/
structure Column where
  data_type : DataType
  nullable : Bool
  max_str_len : Nat
  stored_offset : Nat
deriving DecidableEq, Repr

/-- Column::length_bytes. -/
def Column.length_bytes (c : Column) : Nat :=
  c.data_type.length_bytes + c.max_str_len

/-- The Table schema (schema.rs): the serialized fixed-field byte size
and the columns. -/
structure Table where
  fixed_field_size_bytes : Nat
  columns : List Column
deriving DecidableEq, Repr

/-- Table::new. -/
def Table.new : Table where
  fixed_field_size_bytes := 0
  columns := []

/-- Table::variable_length_fields: the number of Text columns. -/
def Table.variable_length_fields (t : Table) : Nat :=
  (t.columns.filter (fun c => c.data_type == DataType.text)).length

/-- Table::add_column: a Text column stores its index among the
variable-length fields; a fixed column stores the running fixed offset,
which then grows by the column type's size. -/
def Table.add_column (t : Table) (c : Column) : Table :=
  match c.data_type == DataType.text with
  | true =>
      { t with columns := t.columns ++ [{ c with stored_offset := t.variable_length_fields }] }
  | false =>
      { fixed_field_size_bytes := t.fixed_field_size_bytes + c.data_type.length_bytes,
        columns := t.columns ++ [{ c with stored_offset := t.fixed_field_size_bytes }] }

/-- Table::with_columns from a fresh table (the way every schema is
built). -/
def Table.ofColumns (cols : List Column) : Table :=
  cols.foldl Table.add_column Table.new

/-- Field::serialize (field.rs).  Note Null serializes as ONE zero byte
no matter how wide its column's type is; Integer is four-byte
little-endian two's complement; String is its UTF-8 bytes. -/
def Field.serialize : Field → List Nat
  | .null => [0]
  | .boolean b => if b then [1] else [0]
  | .integer i => toLE4 (i % (2 ^ 32)).toNat
  | .float f => toLE4 f.bits
  | .string s => s

/-- Two's-complement decoding of a u32 bit pattern into an i32. -/
def i32OfLE (v : Nat) : Int :=
  if v < 2 ^ 31 then (v : Int) else (v : Int) - 2 ^ 32

/-- Field::deserialize (field.rs).  Panics are modelled as none: the
Bool arm indexes data[0] (none on an empty slice), the Int and Float
arms require the try_into to an exact four-byte array to succeed, and
reads are the little-endian decoders.  The Text arm is
String::from_utf8(data)·unwrap(): strings are byte lists in this model,
so the decode is the identity (the UTF-8 validity panic has no
counterpart; every theorem below only decodes bytes a String field
wrote).  The wildcard arm returns Null. -/
def Field.deserialize (data : List Nat) : DataType → Option Field
  | .bool =>
      match data.head? with
      | none => none
      | some b => if b == 0 then some (.boolean false)
                  else some (.boolean true)
  | .int =>
      if data.length = 4 then some (.integer (i32OfLE (readLE4At data 0)))
      else none
  | .float =>
      if data.length = 4 then some (.float (F32.mk (readLE4At data 0)))
      else none
  | .text => some (.string data)
  | .invalid => some .null

/-- The first pass of Row::serialize: the running offsets recorded for
each Text column, starting at the schema's fixed size and growing by
each text FIELD's size. -/
def varFieldOffsets : List (Column × Field) → Nat → List Nat
  | [], _ => []
  | (c, f) :: rest, off =>
      match c.data_type == DataType.text with
      | true => off :: varFieldOffsets rest (off + f.get_size)
      | false => varFieldOffsets rest off

/-- The total of the text fields' sizes (the growth of running_offset). -/
def textSizes : List (Column × Field) → Nat
  | [] => 0
  | (c, f) :: rest =>
      (match c.data_type == DataType.text with
       | true => f.get_size
       | false => 0) + textSizes rest

/-- The second pass of Row::serialize: each fixed field is copied at the
fixed cursor, each text field at the variable cursor, both advancing by
the field's serialized size. -/
def writeFields : List (Column × Field) → List Nat → Nat → Nat → List Nat
  | [], buf, _, _ => buf
  | (c, f) :: rest, buf, cursor, var_cursor =>
      match c.data_type == DataType.text with
      | true =>
          writeFields rest (writeAt buf var_cursor (Field.serialize f)) cursor
            (var_cursor + (Field.serialize f).length)
      | false =>
          writeFields rest (writeAt buf cursor (Field.serialize f))
            (cursor + (Field.serialize f).length) var_cursor

/-- Row::serialize (row.rs): the arity assert panics (none) on mismatch;
an empty row serializes to an empty buffer; otherwise a zeroed buffer of
header plus data size receives the variable-offset header (each offset
stored plus the header size, as two LE bytes) and then the field data. -/
def Row.serialize (r : Row) (schema : Table) : Option (List Nat) :=
  if r.length = schema.columns.length then
    if r.length = 0 then some []
    else
      let pairs := schema.columns.zip r
      let offsets := varFieldOffsets pairs schema.fixed_field_size_bytes
      let header_size := 2 * offsets.length
      let e2e := header_size + (schema.fixed_field_size_bytes + textSizes pairs)
      let buf1 := writeAt (List.replicate e2e 0) 0
        (offsets.flatMap (fun o => toLE2 (o + header_size)))
      some (writeFields pairs buf1 header_size
        (schema.fixed_field_size_bytes + header_size))
  else none

/-- The per-column closure of Row::deserialize (row.rs), with its panics
modelled as none.  A Text column: start is
variable_field_offsets.get(stored_offset)·unwrap() (none when absent),
end is the buffer length for the last variable field and otherwise
variable_field_offsets.get(stored_offset + 1)·unwrap(); the slice
bytes[start..end] panics (none) unless start ≤ end ≤ bytes.len().  A
fixed column: start is stored_offset plus the header size, end is start
plus column.length_bytes() - the COLUMN size data_type.length_bytes() +
max_str_len, not the type size alone - with the same slice bound
check. -/
def Row.deserializeColumn (bytes : List Nat) (vlf : Nat)
    (offsets : List Nat) (c : Column) : Option Field :=
  match c.data_type == DataType.text with
  | true =>
      match offsets[c.stored_offset]? with
      | none => none
      | some s =>
          match (if c.stored_offset = vlf - 1 then some bytes.length
                 else offsets[c.stored_offset + 1]?) with
          | none => none
          | some e =>
              if s ≤ e ∧ e ≤ bytes.length then
                Field.deserialize (sliceBytes bytes s e) DataType.text
              else none
  | false =>
      if c.stored_offset + 2 * vlf + c.length_bytes ≤ bytes.length then
        Field.deserialize
          (sliceBytes bytes (c.stored_offset + 2 * vlf)
            (c.stored_offset + 2 * vlf + c.length_bytes)) c.data_type
      else none

/-- The u16 read bytes[2i], bytes[2i+1] of Row::deserialize's header
pass: the indexing panics are none. -/
def readLE2At? (l : List Nat) (pos : Nat) : Option Nat :=
  match l[pos]?, l[pos + 1]? with
  | some a, some b => some (readLE2 a b)
  | _, _ => none

/-- Row::deserialize (row.rs): read the u16 offsets of the variable
fields (indexing panics as none), then rebuild each column with the
deserializeColumn closure; the collect of a panicking closure is the
mapM over Option. -/
def Row.deserialize (bytes : List Nat) (schema : Table) : Option Row :=
  match (List.range schema.variable_length_fields).mapM
      (fun i => readLE2At? bytes (2 * i)) with
  | none => none
  | some offsets =>
      schema.columns.mapM (Row.deserializeColumn bytes
        schema.variable_length_fields offsets)

/-- The C3 schema: a nullable Int column followed by an Int column. -/
def schemaC3 : Table :=
  Table.ofColumns [Column.mk DataType.int true 0 0,
    Column.mk DataType.int false 0 0]

/-- The C3 row: (NULL, 5), conformant with schemaC3. -/
def rowC3 : Row := [Field.null, Field.integer 5]

/-- C3 counterexample: serializing (NULL, 5) against schemaC3 writes
Null as a single zero byte while the schema's stored offsets allot four,
so the 5 lands at byte 1 instead of byte 4; deserialize reads the
fixed-size slots and returns (1280, 0) - not even null-preserving - so
the round trip fails for this schema-conformant row. -/
theorem row_roundtrip_fails_on_null :
    Row.serialize rowC3 schemaC3 = some [0, 5, 0, 0, 0, 0, 0, 0] ∧
    Row.deserialize [0, 5, 0, 0, 0, 0, 0, 0] schemaC3 =
      some [Field.integer 1280, Field.integer 0] ∧
    (Row.serialize rowC3 schemaC3).bind
      (fun bytes => Row.deserialize bytes schemaC3) ≠ some rowC3 := by
  refine ⟨by decide, by decide, by decide⟩

theorem writeAt_nil (buf : List Nat) (pos : Nat) : writeAt buf pos [] = buf := by
  simp [writeAt]

theorem take_writeAt_left (buf xs : List Nat) (pos c : Nat) (hc : c ≤ pos)
    (hp : pos ≤ buf.length) : (writeAt buf pos xs).take c = buf.take c := by
  unfold writeAt
  rw [List.append_assoc,
    List.take_append_of_le_length (by rw [List.length_take]; omega),
    List.take_take, Nat.min_eq_left hc]

theorem take_writeAt_exact (buf xs : List Nat) (pos : Nat)
    (hp : pos ≤ buf.length) :
    (writeAt buf pos xs).take (pos + xs.length) = buf.take pos ++ xs := by
  have h1 : (buf.take pos).length = pos := by
    rw [List.length_take]
    omega
  unfold writeAt
  rw [List.append_assoc, List.take_append_eq_append_take, h1,
    List.take_of_length_le (by rw [h1]; omega)]
  have h2 : pos + xs.length - pos = xs.length := by omega
  rw [h2, List.take_append_of_le_length (Nat.le_refl _), List.take_length]

theorem drop_writeAt_ge (buf xs : List Nat) (pos a : Nat)
    (h : pos + xs.length ≤ a) (hp : pos ≤ buf.length) :
    (writeAt buf pos xs).drop a = buf.drop a := by
  have h1 : (buf.take pos).length = pos := by
    rw [List.length_take]
    omega
  unfold writeAt
  rw [List.append_assoc, List.drop_append_eq_append_drop,
    List.drop_append_eq_append_drop, h1,
    List.drop_eq_nil_of_le (by rw [h1]; omega),
    List.drop_eq_nil_of_le (by omega : xs.length ≤ a - pos),
    List.drop_drop]
  have h2 : pos + xs.length + (a - pos - xs.length) = a := by omega
  rw [h2, List.nil_append, List.nil_append]

theorem writeAt_writeAt (buf xs ys : List Nat) (pos : Nat)
    (hp : pos + xs.length ≤ buf.length) :
    writeAt (writeAt buf pos xs) (pos + xs.length) ys =
      writeAt buf pos (xs ++ ys) := by
  show (writeAt buf pos xs).take (pos + xs.length) ++ ys ++
      (writeAt buf pos xs).drop (pos + xs.length + ys.length) = _
  rw [take_writeAt_exact buf xs pos (by omega),
    drop_writeAt_ge buf xs pos _ (by omega) (by omega)]
  unfold writeAt
  rw [List.length_append]
  have h3 : pos + (xs.length + ys.length) = pos + xs.length + ys.length := by
    omega
  rw [h3]
  simp [List.append_assoc]

theorem writeAt_comm (buf xs ys : List Nat) (c v : Nat)
    (h1 : c + xs.length ≤ v) (h2 : v + ys.length ≤ buf.length) :
    writeAt (writeAt buf v ys) c xs = writeAt (writeAt buf c xs) v ys := by
  have hcl : c ≤ buf.length := by omega
  have hvl : v ≤ buf.length := by omega
  have htv : (buf.take v).length = v := by
    rw [List.length_take]
    omega
  have htc : (buf.take c).length = c := by
    rw [List.length_take]
    omega
  have hL : writeAt (writeAt buf v ys) c xs =
      buf.take c ++ xs ++ ((buf.take v).drop (c + xs.length) ++ ys ++
        buf.drop (v + ys.length)) := by
    show (writeAt buf v ys).take c ++ xs ++
        (writeAt buf v ys).drop (c + xs.length) = _
    rw [take_writeAt_left buf ys v c (by omega) hvl]
    have hd : (writeAt buf v ys).drop (c + xs.length) =
        (buf.take v).drop (c + xs.length) ++ ys ++
          buf.drop (v + ys.length) := by
      unfold writeAt
      rw [List.append_assoc, List.drop_append_eq_append_drop, htv]
      have hz : c + xs.length - v = 0 := by omega
      rw [hz, List.drop_zero, ← List.append_assoc]
    rw [hd]
  have hR : writeAt (writeAt buf c xs) v ys =
      buf.take c ++ xs ++ ((buf.take v).drop (c + xs.length) ++ ys ++
        buf.drop (v + ys.length)) := by
    show (writeAt buf c xs).take v ++ ys ++
        (writeAt buf c xs).drop (v + ys.length) = _
    rw [drop_writeAt_ge buf xs c (v + ys.length) (by omega) hcl]
    have ht : (writeAt buf c xs).take v =
        buf.take c ++ (xs ++ (buf.take v).drop (c + xs.length)) := by
      unfold writeAt
      rw [List.append_assoc, List.take_append_eq_append_take, htc,
        List.take_of_length_le (by rw [htc]; omega),
        List.take_append_eq_append_take,
        List.take_of_length_le (by omega : xs.length ≤ v - c),
        List.take_drop]
      have hcz : c + xs.length + (v - c - xs.length) = v := by omega
      rw [hcz]
    rw [ht]
    simp [List.append_assoc]
  rw [hL, hR]

/-- The concatenation of the fixed fields' serializations, in column
order (the bytes the second serialize pass lays down at the fixed
cursor). -/
def fixedConcat : List (Column × Field) → List Nat
  | [] => []
  | (c, f) :: rest =>
      (match c.data_type == DataType.text with
       | true => []
       | false => Field.serialize f) ++ fixedConcat rest

/-- The concatenation of the text fields' serializations, in column
order (the bytes the second serialize pass lays down at the variable
cursor). -/
def textConcat : List (Column × Field) → List Nat
  | [] => []
  | (c, f) :: rest =>
      (match c.data_type == DataType.text with
       | true => Field.serialize f
       | false => []) ++ textConcat rest

/-- The number of Text columns among the pairs. -/
def textCount : List (Column × Field) → Nat
  | [] => 0
  | (c, _) :: rest =>
      (match c.data_type == DataType.text with
       | true => 1
       | false => 0) + textCount rest

/-- The total fixed size (by column TYPE) of the pairs. -/
def sumFixedP : List (Column × Field) → Nat
  | [] => 0
  | (c, _) :: rest =>
      (match c.data_type == DataType.text with
       | true => 0
       | false => c.data_type.length_bytes) + sumFixedP rest

/-- The stored offsets are the ones Table::add_column computes: each Text
column carries its index among the text columns, each fixed column the
running fixed byte offset. -/
def wellOffset : List (Column × Field) → Nat → Nat → Prop
  | [], _, _ => True
  | (c, _) :: rest, fa, va =>
      match c.data_type == DataType.text with
      | true => c.stored_offset = va ∧ wellOffset rest fa (va + 1)
      | false =>
          c.stored_offset = fa ∧
            wellOffset rest (fa + c.data_type.length_bytes) va

/-- Schema conformance of a field to its column, as the amended C3 claim
requires it: the exact type (no Null anywhere), integers in i32 range
and float patterns in u32 range. -/
def fieldMatches (c : Column) (f : Field) : Bool :=
  match c.data_type, f with
  | DataType.bool, Field.boolean _ => true
  | DataType.int, Field.integer i => decide (i32Min ≤ i ∧ i ≤ i32Max)
  | DataType.float, Field.float x => decide (x.bits < 2 ^ 32)
  | DataType.text, Field.string _ => true
  | _, _ => false

theorem writeFields_eq (pairs : List (Column × Field)) :
    ∀ (buf : List Nat) (c v : Nat),
      c + (fixedConcat pairs).length ≤ v →
      v + (textConcat pairs).length ≤ buf.length →
      writeFields pairs buf c v =
        writeAt (writeAt buf c (fixedConcat pairs)) v (textConcat pairs) := by
  induction pairs with
  | nil =>
      intro buf c v h1 h2
      show buf = _
      rw [show fixedConcat [] = [] from rfl, show textConcat [] = [] from rfl,
        writeAt_nil, writeAt_nil]
  | cons p rest ih =>
      obtain ⟨c0, f0⟩ := p
      intro buf c v h1 h2
      cases hd : (c0.data_type == DataType.text) with
      | false =>
          simp only [writeFields, fixedConcat, textConcat, hd] at h1 h2 ⊢
          rw [List.length_append] at h1
          rw [List.nil_append] at h2 ⊢
          rw [ih (writeAt buf c (Field.serialize f0))
            (c + (Field.serialize f0).length) v (by omega)
            (by rw [length_writeAt buf (Field.serialize f0) c (by omega)]
                exact h2)]
          rw [writeAt_writeAt buf (Field.serialize f0) (fixedConcat rest) c
            (by omega)]
      | true =>
          simp only [writeFields, fixedConcat, textConcat, hd] at h1 h2 ⊢
          rw [List.nil_append] at h1 ⊢
          rw [List.length_append] at h2
          rw [ih (writeAt buf v (Field.serialize f0)) c
            (v + (Field.serialize f0).length)
            (by omega)
            (by rw [length_writeAt buf (Field.serialize f0) v (by omega)]
                omega)]
          rw [writeAt_comm buf (fixedConcat rest) (Field.serialize f0) c v
            (by omega) (by omega)]
          rw [writeAt_writeAt (writeAt buf c (fixedConcat rest))
            (Field.serialize f0) (textConcat rest) v
            (by rw [length_writeAt buf (fixedConcat rest) c (by omega)]
                omega)]

theorem writeAt_writeAt2 (buf xs ys : List Nat) (pos q : Nat)
    (hq : q = pos + xs.length) (hp : pos + xs.length ≤ buf.length) :
    writeAt (writeAt buf pos xs) q ys = writeAt buf pos (xs ++ ys) := by
  subst hq
  exact writeAt_writeAt buf xs ys pos hp

theorem writeAt_zero_full (n : Nat) (xs : List Nat) (h : xs.length = n) :
    writeAt (List.replicate n 0) 0 xs = xs := by
  simp [writeAt, List.drop_replicate, h]

theorem flatMap_toLE2_length (l : List Nat) (hs : Nat) :
    (l.flatMap (fun o => toLE2 (o + hs))).length = 2 * l.length := by
  induction l with
  | nil => rfl
  | cons a tl ih =>
      have hc : (a :: tl).flatMap (fun o => toLE2 (o + hs)) =
          toLE2 (a + hs) ++ tl.flatMap (fun o => toLE2 (o + hs)) := rfl
      rw [hc, List.length_append, ih]
      simp [toLE2]
      omega

/-- The buffer Row::serialize produces, when every field's bytes exactly
fill its slot: the variable-offset header, the fixed fields and the text
fields, concatenated. -/
theorem serialize_shape (schema : Table) (r : Row)
    (hlen : r.length = schema.columns.length) (hne : r.length ≠ 0)
    (hfix : (fixedConcat (schema.columns.zip r)).length =
      schema.fixed_field_size_bytes)
    (htext : (textConcat (schema.columns.zip r)).length =
      textSizes (schema.columns.zip r)) :
    Row.serialize r schema = some
      ((varFieldOffsets (schema.columns.zip r)
          schema.fixed_field_size_bytes).flatMap
        (fun o => toLE2 (o + 2 * (varFieldOffsets (schema.columns.zip r)
          schema.fixed_field_size_bytes).length)) ++
        fixedConcat (schema.columns.zip r) ++
        textConcat (schema.columns.zip r)) := by
  have hhl := flatMap_toLE2_length
    (varFieldOffsets (schema.columns.zip r) schema.fixed_field_size_bytes)
    (2 * (varFieldOffsets (schema.columns.zip r)
      schema.fixed_field_size_bytes).length)
  simp only [Row.serialize]
  rw [if_pos hlen, if_neg hne]
  rw [writeFields_eq (schema.columns.zip r) _ _ _
    (by omega)
    (by rw [length_writeAt _ _ _
          (by rw [List.length_replicate]; omega), List.length_replicate]
        omega)]
  rw [writeAt_writeAt2 _ _ _ 0 _ (by omega)
    (by rw [List.length_replicate]; omega)]
  rw [writeAt_writeAt2 _ _ _ 0 _
    (by rw [List.length_append]; omega)
    (by rw [List.length_replicate, List.length_append]; omega)]
  rw [writeAt_zero_full _ _
    (by rw [List.length_append, List.length_append]; omega)]

/-- The buffer serialize_shape exhibits, as a function of the zipped
column/field pairs with the fixed-size base made explicit. -/
def rowBuffer (pairs : List (Column × Field)) : List Nat :=
  (varFieldOffsets pairs (sumFixedP pairs)).flatMap
    (fun o => toLE2 (o + 2 * (varFieldOffsets pairs (sumFixedP pairs)).length)) ++
    fixedConcat pairs ++ textConcat pairs

theorem textCount_cons_t (c : Column) (f : Field)
    (rest : List (Column × Field))
    (hd : (c.data_type == DataType.text) = true) :
    textCount ((c, f) :: rest) = 1 + textCount rest := by
  show (match c.data_type == DataType.text with
        | true => 1
        | false => 0) + textCount rest = _
  rw [hd]

theorem textCount_cons_f (c : Column) (f : Field)
    (rest : List (Column × Field))
    (hd : (c.data_type == DataType.text) = false) :
    textCount ((c, f) :: rest) = textCount rest := by
  show (match c.data_type == DataType.text with
        | true => 1
        | false => 0) + textCount rest = _
  rw [hd]
  exact Nat.zero_add _

theorem sumFixedP_cons_t (c : Column) (f : Field)
    (rest : List (Column × Field))
    (hd : (c.data_type == DataType.text) = true) :
    sumFixedP ((c, f) :: rest) = sumFixedP rest := by
  show (match c.data_type == DataType.text with
        | true => 0
        | false => c.data_type.length_bytes) + sumFixedP rest = _
  rw [hd]
  exact Nat.zero_add _

theorem sumFixedP_cons_f (c : Column) (f : Field)
    (rest : List (Column × Field))
    (hd : (c.data_type == DataType.text) = false) :
    sumFixedP ((c, f) :: rest) = c.data_type.length_bytes + sumFixedP rest := by
  show (match c.data_type == DataType.text with
        | true => 0
        | false => c.data_type.length_bytes) + sumFixedP rest = _
  rw [hd]

theorem textSizes_cons_t (c : Column) (f : Field)
    (rest : List (Column × Field))
    (hd : (c.data_type == DataType.text) = true) :
    textSizes ((c, f) :: rest) = f.get_size + textSizes rest := by
  show (match c.data_type == DataType.text with
        | true => f.get_size
        | false => 0) + textSizes rest = _
  rw [hd]

theorem textSizes_cons_f (c : Column) (f : Field)
    (rest : List (Column × Field))
    (hd : (c.data_type == DataType.text) = false) :
    textSizes ((c, f) :: rest) = textSizes rest := by
  show (match c.data_type == DataType.text with
        | true => f.get_size
        | false => 0) + textSizes rest = _
  rw [hd]
  exact Nat.zero_add _

theorem fixedConcat_cons_t (c : Column) (f : Field)
    (rest : List (Column × Field))
    (hd : (c.data_type == DataType.text) = true) :
    fixedConcat ((c, f) :: rest) = fixedConcat rest := by
  show (match c.data_type == DataType.text with
        | true => []
        | false => Field.serialize f) ++ fixedConcat rest = _
  rw [hd]
  rw [List.nil_append]

theorem fixedConcat_cons_f (c : Column) (f : Field)
    (rest : List (Column × Field))
    (hd : (c.data_type == DataType.text) = false) :
    fixedConcat ((c, f) :: rest) = Field.serialize f ++ fixedConcat rest := by
  show (match c.data_type == DataType.text with
        | true => []
        | false => Field.serialize f) ++ fixedConcat rest = _
  rw [hd]

theorem textConcat_cons_t (c : Column) (f : Field)
    (rest : List (Column × Field))
    (hd : (c.data_type == DataType.text) = true) :
    textConcat ((c, f) :: rest) = Field.serialize f ++ textConcat rest := by
  show (match c.data_type == DataType.text with
        | true => Field.serialize f
        | false => []) ++ textConcat rest = _
  rw [hd]

theorem textConcat_cons_f (c : Column) (f : Field)
    (rest : List (Column × Field))
    (hd : (c.data_type == DataType.text) = false) :
    textConcat ((c, f) :: rest) = textConcat rest := by
  show (match c.data_type == DataType.text with
        | true => Field.serialize f
        | false => []) ++ textConcat rest = _
  rw [hd]
  rw [List.nil_append]

theorem varFieldOffsets_cons_t (c : Column) (f : Field)
    (rest : List (Column × Field)) (off : Nat)
    (hd : (c.data_type == DataType.text) = true) :
    varFieldOffsets ((c, f) :: rest) off =
      off :: varFieldOffsets rest (off + f.get_size) := by
  show (match c.data_type == DataType.text with
        | true => off :: varFieldOffsets rest (off + f.get_size)
        | false => varFieldOffsets rest off) = _
  rw [hd]

theorem varFieldOffsets_cons_f (c : Column) (f : Field)
    (rest : List (Column × Field)) (off : Nat)
    (hd : (c.data_type == DataType.text) = false) :
    varFieldOffsets ((c, f) :: rest) off = varFieldOffsets rest off := by
  show (match c.data_type == DataType.text with
        | true => off :: varFieldOffsets rest (off + f.get_size)
        | false => varFieldOffsets rest off) = _
  rw [hd]

theorem textCount_append (a b : List (Column × Field)) :
    textCount (a ++ b) = textCount a + textCount b := by
  induction a with
  | nil => simp [textCount]
  | cons p tl ih =>
      obtain ⟨c, f⟩ := p
      rw [List.cons_append]
      cases hd : (c.data_type == DataType.text) with
      | true => rw [textCount_cons_t c f _ hd, textCount_cons_t c f _ hd, ih]; omega
      | false => rw [textCount_cons_f c f _ hd, textCount_cons_f c f _ hd, ih]

theorem sumFixedP_append (a b : List (Column × Field)) :
    sumFixedP (a ++ b) = sumFixedP a + sumFixedP b := by
  induction a with
  | nil => simp [sumFixedP]
  | cons p tl ih =>
      obtain ⟨c, f⟩ := p
      rw [List.cons_append]
      cases hd : (c.data_type == DataType.text) with
      | true => rw [sumFixedP_cons_t c f _ hd, sumFixedP_cons_t c f _ hd, ih]
      | false =>
          rw [sumFixedP_cons_f c f _ hd, sumFixedP_cons_f c f _ hd, ih]
          omega

theorem textSizes_append (a b : List (Column × Field)) :
    textSizes (a ++ b) = textSizes a + textSizes b := by
  induction a with
  | nil => simp [textSizes]
  | cons p tl ih =>
      obtain ⟨c, f⟩ := p
      rw [List.cons_append]
      cases hd : (c.data_type == DataType.text) with
      | true =>
          rw [textSizes_cons_t c f _ hd, textSizes_cons_t c f _ hd, ih]
          omega
      | false => rw [textSizes_cons_f c f _ hd, textSizes_cons_f c f _ hd, ih]

theorem fixedConcat_append (a b : List (Column × Field)) :
    fixedConcat (a ++ b) = fixedConcat a ++ fixedConcat b := by
  induction a with
  | nil => simp [fixedConcat]
  | cons p tl ih =>
      obtain ⟨c, f⟩ := p
      rw [List.cons_append]
      cases hd : (c.data_type == DataType.text) with
      | true => rw [fixedConcat_cons_t c f _ hd, fixedConcat_cons_t c f _ hd, ih]
      | false =>
          rw [fixedConcat_cons_f c f _ hd, fixedConcat_cons_f c f _ hd, ih,
            List.append_assoc]

theorem textConcat_append (a b : List (Column × Field)) :
    textConcat (a ++ b) = textConcat a ++ textConcat b := by
  induction a with
  | nil => simp [textConcat]
  | cons p tl ih =>
      obtain ⟨c, f⟩ := p
      rw [List.cons_append]
      cases hd : (c.data_type == DataType.text) with
      | true =>
          rw [textConcat_cons_t c f _ hd, textConcat_cons_t c f _ hd, ih,
            List.append_assoc]
      | false => rw [textConcat_cons_f c f _ hd, textConcat_cons_f c f _ hd, ih]

theorem varFieldOffsets_append (a b : List (Column × Field)) :
    ∀ base, varFieldOffsets (a ++ b) base =
      varFieldOffsets a base ++ varFieldOffsets b (base + textSizes a) := by
  induction a with
  | nil => intro base; simp [varFieldOffsets, textSizes]
  | cons p tl ih =>
      obtain ⟨c, f⟩ := p
      intro base
      rw [List.cons_append]
      cases hd : (c.data_type == DataType.text) with
      | true =>
          rw [varFieldOffsets_cons_t c f _ base hd,
            varFieldOffsets_cons_t c f _ base hd, ih (base + f.get_size),
            textSizes_cons_t c f _ hd, List.cons_append, Nat.add_assoc]
      | false =>
          rw [varFieldOffsets_cons_f c f _ base hd,
            varFieldOffsets_cons_f c f _ base hd, ih base,
            textSizes_cons_f c f _ hd]

theorem varFieldOffsets_length (l : List (Column × Field)) :
    ∀ base, (varFieldOffsets l base).length = textCount l := by
  induction l with
  | nil => intro base; rfl
  | cons p tl ih =>
      obtain ⟨c, f⟩ := p
      intro base
      cases hd : (c.data_type == DataType.text) with
      | true =>
          rw [varFieldOffsets_cons_t c f _ base hd, List.length_cons,
            textCount_cons_t c f _ hd, ih (base + f.get_size)]
          omega
      | false =>
          rw [varFieldOffsets_cons_f c f _ base hd,
            textCount_cons_f c f _ hd, ih base]

theorem varFieldOffsets_head (l : List (Column × Field)) :
    ∀ base, textCount l ≠ 0 →
      (varFieldOffsets l base).getD 0 0 = base := by
  induction l with
  | nil => intro base h; exact absurd rfl h
  | cons p tl ih =>
      obtain ⟨c, f⟩ := p
      intro base h
      cases hd : (c.data_type == DataType.text) with
      | true => rw [varFieldOffsets_cons_t c f _ base hd, List.getD_cons_zero]
      | false =>
          rw [varFieldOffsets_cons_f c f _ base hd]
          rw [textCount_cons_f c f _ hd] at h
          exact ih base h

theorem varFieldOffsets_getD_le (l : List (Column × Field)) :
    ∀ base i, (varFieldOffsets l base).getD i 0 ≤ base + textSizes l := by
  induction l with
  | nil =>
      intro base i
      show (0 : Nat) ≤ _
      omega
  | cons p tl ih =>
      obtain ⟨c, f⟩ := p
      intro base i
      cases hd : (c.data_type == DataType.text) with
      | false =>
          rw [varFieldOffsets_cons_f c f _ base hd, textSizes_cons_f c f _ hd]
          exact ih base i
      | true =>
          rw [varFieldOffsets_cons_t c f _ base hd, textSizes_cons_t c f _ hd]
          cases i with
          | zero =>
              rw [List.getD_cons_zero]
              omega
          | succ n =>
              rw [List.getD_cons_succ]
              have := ih (base + f.get_size) n
              omega

theorem textConcat_nil_of_count (l : List (Column × Field))
    (h : textCount l = 0) : textConcat l = [] := by
  induction l with
  | nil => rfl
  | cons p tl ih =>
      obtain ⟨c, f⟩ := p
      cases hd : (c.data_type == DataType.text) with
      | true => rw [textCount_cons_t c f _ hd] at h; omega
      | false =>
          rw [textCount_cons_f c f _ hd] at h
          rw [textConcat_cons_f c f _ hd]
          exact ih h

theorem textSizes_zero_of_count (l : List (Column × Field))
    (h : textCount l = 0) : textSizes l = 0 := by
  induction l with
  | nil => rfl
  | cons p tl ih =>
      obtain ⟨c, f⟩ := p
      cases hd : (c.data_type == DataType.text) with
      | true => rw [textCount_cons_t c f _ hd] at h; omega
      | false =>
          rw [textCount_cons_f c f _ hd] at h
          rw [textSizes_cons_f c f _ hd]
          exact ih h

theorem serialize_length_fixed (c : Column) (f : Field)
    (hd : (c.data_type == DataType.text) = false)
    (hm : fieldMatches c f = true) :
    (Field.serialize f).length = c.data_type.length_bytes := by
  cases hdt : c.data_type <;> cases f <;>
    simp [fieldMatches, hdt, Field.serialize, DataType.length_bytes, toLE4,
      hd] at hm hd ⊢
  · rename_i b
    cases b <;> simp

theorem serialize_length_text (c : Column) (f : Field)
    (hd : (c.data_type == DataType.text) = true)
    (hm : fieldMatches c f = true) :
    (Field.serialize f).length = f.get_size := by
  cases hdt : c.data_type <;> cases f <;>
    simp [fieldMatches, hdt, Field.serialize, Field.get_size, hd] at hm hd ⊢

theorem fixedConcat_length (l : List (Column × Field))
    (hm : ∀ p ∈ l, fieldMatches p.1 p.2 = true) :
    (fixedConcat l).length = sumFixedP l := by
  induction l with
  | nil => rfl
  | cons p tl ih =>
      obtain ⟨c, f⟩ := p
      have hmh : fieldMatches c f = true := hm (c, f) (List.mem_cons_self _ _)
      have hmt : ∀ p ∈ tl, fieldMatches p.1 p.2 = true :=
        fun q hq => hm q (List.mem_cons_of_mem _ hq)
      cases hd : (c.data_type == DataType.text) with
      | true => rw [fixedConcat_cons_t c f _ hd, sumFixedP_cons_t c f _ hd, ih hmt]
      | false =>
          rw [fixedConcat_cons_f c f _ hd, sumFixedP_cons_f c f _ hd,
            List.length_append, ih hmt, serialize_length_fixed c f hd hmh]

theorem textConcat_length (l : List (Column × Field))
    (hm : ∀ p ∈ l, fieldMatches p.1 p.2 = true) :
    (textConcat l).length = textSizes l := by
  induction l with
  | nil => rfl
  | cons p tl ih =>
      obtain ⟨c, f⟩ := p
      have hmh : fieldMatches c f = true := hm (c, f) (List.mem_cons_self _ _)
      have hmt : ∀ p ∈ tl, fieldMatches p.1 p.2 = true :=
        fun q hq => hm q (List.mem_cons_of_mem _ hq)
      cases hd : (c.data_type == DataType.text) with
      | false => rw [textConcat_cons_f c f _ hd, textSizes_cons_f c f _ hd, ih hmt]
      | true =>
          rw [textConcat_cons_t c f _ hd, textSizes_cons_t c f _ hd,
            List.length_append, ih hmt, serialize_length_text c f hd hmh]

theorem field_roundtrip (c : Column) (f : Field)
    (hm : fieldMatches c f = true) :
    Field.deserialize (Field.serialize f) c.data_type = some f := by
  cases hdt : c.data_type <;> cases f <;>
    simp [fieldMatches, hdt] at hm ⊢ <;> clear hdt
  · rename_i b
    cases b <;> rfl
  · rename_i i
    have hser : Field.serialize (Field.integer i) =
        toLE4 (i % (2 ^ 32)).toNat := rfl
    have hdes : Field.deserialize (toLE4 ((i % (2 ^ 32)).toNat))
        DataType.int =
        some (Field.integer (i32OfLE
          (readLE4At (toLE4 ((i % (2 ^ 32)).toNat)) 0))) := rfl
    rw [hser, hdes]
    have hnn : 0 ≤ i % (2 ^ 32) := Int.emod_nonneg i (by norm_num)
    have hlt : i % (2 ^ 32) < 2 ^ 32 := Int.emod_lt_of_pos i (by norm_num)
    have hx : ((i % (2 ^ 32)).toNat : Int) = i % (2 ^ 32) :=
      Int.toNat_of_nonneg hnn
    have hxlt : (i % (2 ^ 32)).toNat < 2 ^ 32 := by omega
    have hrange : -(2 ^ 31) ≤ i ∧ i ≤ 2 ^ 31 - 1 := hm
    have hch : i % (2 ^ 32) = i ∨ i % (2 ^ 32) = i + 2 ^ 32 := by
      rcases Int.le_or_lt 0 i with hpos | hneg
      · exact Or.inl (Int.emod_eq_of_lt hpos (by omega))
      · have h3 := Int.add_mul_emod_self_left i (2 ^ 32) 1
        rw [mul_one] at h3
        exact Or.inr (h3.symm.trans
          (Int.emod_eq_of_lt (by omega) (by omega)))
    rw [readLE4At_toLE4, Nat.mod_eq_of_lt hxlt]
    unfold i32OfLE
    rcases hch with hch | hch <;> split <;>
      exact congrArg (fun z => some (Field.integer z)) (by omega)
  · rename_i x
    show some (Field.float (F32.mk (readLE4At (toLE4 x.bits) 0))) =
      some (Field.float x)
    have hb : x.bits < 2 ^ 32 := by omega
    rw [readLE4At_toLE4, Nat.mod_eq_of_lt hb]
  · rfl

theorem sliceBytes_shift (A B : List Nat) (x y a b : Nat)
    (ha : a = A.length + x) (hb : b = A.length + y) :
    sliceBytes (A ++ B) a b = sliceBytes B x y := by
  subst ha hb
  unfold sliceBytes
  rw [List.take_append_eq_append_take, List.take_of_length_le (by omega)]
  have h1 : A.length + y - A.length = y := by omega
  rw [h1, List.drop_append_eq_append_drop,
    List.drop_eq_nil_of_le (by omega : A.length ≤ A.length + x)]
  have h2 : A.length + x - A.length = x := by omega
  rw [h2, List.nil_append]

theorem sliceBytes_prefix (xs rest : List Nat) (k : Nat)
    (hk : k = xs.length) : sliceBytes (xs ++ rest) 0 k = xs := by
  subst hk
  unfold sliceBytes
  rw [List.take_append_of_le_length (Nat.le_refl _), List.take_length,
    List.drop_zero]

theorem slice_middle (P t rest : List Nat) (a b : Nat)
    (ha : a = P.length) (hb : b = P.length + t.length) :
    sliceBytes (P ++ (t ++ rest)) a b = t := by
  rw [sliceBytes_shift P (t ++ rest) 0 t.length a b (by omega) (by omega)]
  exact sliceBytes_prefix t rest t.length rfl

theorem getD_map_range {a : Type} [Inhabited a] (n i : Nat) (g : Nat → a)
    (d : a) (h : i < n) : ((List.range n).map g).getD i d = g i := by
  rw [List.getD_eq_getElem ((List.range n).map g) d
    (by rw [List.length_map, List.length_range]; exact h)]
  rw [List.getElem_map, List.getElem_range]

theorem hdr_read (l : List Nat) (hs : Nat) (rest : List Nat) :
    ∀ i, i < l.length →
      readLE2At ((l.flatMap (fun o => toLE2 (o + hs))) ++ rest) (2 * i) =
        (l.getD i 0 + hs) % 2 ^ 16 := by
  induction l generalizing rest with
  | nil => intro i hi; cases hi
  | cons a tl ih =>
      intro i hi
      have hc : ((a :: tl).flatMap (fun o => toLE2 (o + hs))) ++ rest =
          toLE2 (a + hs) ++
            ((tl.flatMap (fun o => toLE2 (o + hs))) ++ rest) := by
        rw [show (a :: tl).flatMap (fun o => toLE2 (o + hs)) =
          toLE2 (a + hs) ++ tl.flatMap (fun o => toLE2 (o + hs)) from rfl,
          List.append_assoc]
      cases i with
      | zero =>
          rw [hc, List.getD_cons_zero]
          exact readLE2At_toLE2 (a + hs)
      | succ n =>
          rw [hc, readLE2At_shift (toLE2 (a + hs)) _ (2 * n) (2 * (n + 1))
            (by simp only [toLE2, List.length_cons, List.length_nil]; omega),
            List.getD_cons_succ]
          exact ih rest n (Nat.lt_of_succ_lt_succ hi)

theorem rowBuffer_length (l : List (Column × Field))
    (hm : ∀ p ∈ l, fieldMatches p.1 p.2 = true) :
    (rowBuffer l).length = 2 * textCount l + sumFixedP l + textSizes l := by
  unfold rowBuffer
  rw [List.length_append, List.length_append, flatMap_toLE2_length,
    varFieldOffsets_length, fixedConcat_length l hm, textConcat_length l hm]

theorem rowBuffer_offset_read (l : List (Column × Field))
    (hm : ∀ p ∈ l, fieldMatches p.1 p.2 = true)
    (hbound : 2 * textCount l + sumFixedP l + textSizes l < 2 ^ 16)
    (i : Nat) (hi : i < textCount l) :
    readLE2At (rowBuffer l) (2 * i) =
      (varFieldOffsets l (sumFixedP l)).getD i 0 + 2 * textCount l := by
  unfold rowBuffer
  rw [List.append_assoc]
  rw [hdr_read (varFieldOffsets l (sumFixedP l))
    (2 * (varFieldOffsets l (sumFixedP l)).length)
    (fixedConcat l ++ textConcat l) i
    (by rw [varFieldOffsets_length]; exact hi)]
  rw [varFieldOffsets_length]
  have hle := varFieldOffsets_getD_le l (sumFixedP l) i
  exact Nat.mod_eq_of_lt (by omega)

theorem getElem?_map_range {a : Type} (n i : Nat) (g : Nat → a)
    (h : i < n) : ((List.range n).map g)[i]? = some (g i) := by
  rw [List.getElem?_eq_getElem
    (by rw [List.length_map, List.length_range]; exact h)]
  rw [List.getElem_map, List.getElem_range]

theorem deserializeColumn_fixed (bytes : List Nat) (vlf : Nat)
    (offsets : List Nat) (c : Column)
    (hd : (c.data_type == DataType.text) = false) :
    Row.deserializeColumn bytes vlf offsets c =
      (if c.stored_offset + 2 * vlf + c.length_bytes ≤ bytes.length then
        Field.deserialize (sliceBytes bytes (c.stored_offset + 2 * vlf)
          (c.stored_offset + 2 * vlf + c.length_bytes)) c.data_type
      else none) := by
  show (match c.data_type == DataType.text with
        | true => _
        | false => _) = _
  rw [hd]

theorem deserializeColumn_text (bytes : List Nat) (vlf : Nat)
    (offsets : List Nat) (c : Column)
    (hd : (c.data_type == DataType.text) = true) (s e : Nat)
    (hs : offsets[c.stored_offset]? = some s)
    (he : (if c.stored_offset = vlf - 1 then some bytes.length
           else offsets[c.stored_offset + 1]?) = some e) :
    Row.deserializeColumn bytes vlf offsets c =
      (if s ≤ e ∧ e ≤ bytes.length then
        Field.deserialize (sliceBytes bytes s e) DataType.text
      else none) := by
  have hu : Row.deserializeColumn bytes vlf offsets c =
      (match offsets[c.stored_offset]? with
       | none => none
       | some s2 =>
           match (if c.stored_offset = vlf - 1 then some bytes.length
                  else offsets[c.stored_offset + 1]?) with
           | none => none
           | some e2 =>
               if s2 ≤ e2 ∧ e2 ≤ bytes.length then
                 Field.deserialize (sliceBytes bytes s2 e2) DataType.text
               else none) := by
    show (match c.data_type == DataType.text with
          | true => _
          | false => _) = _
    rw [hd]
  rw [hu, hs, he]

theorem readCols_correct (pairs0 : List (Column × Field))
    (hm0 : ∀ p ∈ pairs0, fieldMatches p.1 p.2 = true)
    (hms : ∀ p ∈ pairs0,
      (p.1.data_type == DataType.text) = true ∨ p.1.max_str_len = 0)
    (hbound : 2 * textCount pairs0 + sumFixedP pairs0 + textSizes pairs0 <
      2 ^ 16) :
    ∀ (suf pre : List (Column × Field)),
      pairs0 = pre ++ suf →
      wellOffset suf (sumFixedP pre) (textCount pre) →
      suf.map (fun p => Row.deserializeColumn (rowBuffer pairs0)
        (textCount pairs0)
        ((List.range (textCount pairs0)).map
          (fun i => readLE2At (rowBuffer pairs0) (2 * i))) p.1) =
      suf.map (fun p => some p.2) := by
  intro suf
  induction suf with
  | nil => intro pre hsplit hwo; rfl
  | cons p suf2 ih =>
      obtain ⟨c0, f0⟩ := p
      intro pre hsplit hwo
      have hmpre : ∀ q ∈ pre, fieldMatches q.1 q.2 = true := by
        intro q hq
        exact hm0 q (by rw [hsplit]; exact List.mem_append_left _ hq)
      have hm00 : fieldMatches c0 f0 = true := by
        apply hm0 (c0, f0)
        rw [hsplit]
        exact List.mem_append_right _ (List.mem_cons_self _ _)
      rw [List.map_cons, List.map_cons]
      cases hd : (c0.data_type == DataType.text) with
      | false =>
          have hwo2 : c0.stored_offset = sumFixedP pre ∧
              wellOffset suf2 (sumFixedP pre + c0.data_type.length_bytes)
                (textCount pre) := by
            have he : wellOffset ((c0, f0) :: suf2) (sumFixedP pre)
                (textCount pre) =
                (c0.stored_offset = sumFixedP pre ∧
                  wellOffset suf2
                    (sumFixedP pre + c0.data_type.length_bytes)
                    (textCount pre)) := by
              show (match c0.data_type == DataType.text with
                    | true => _
                    | false => _) = _
              rw [hd]
            rw [he] at hwo
            exact hwo
          obtain ⟨hso, hwot⟩ := hwo2
          have ha1 : sumFixedP (pre ++ [(c0, f0)]) =
              sumFixedP pre + c0.data_type.length_bytes := by
            rw [sumFixedP_append, sumFixedP_cons_f c0 f0 [] hd]
            rfl
          have ha2 : textCount (pre ++ [(c0, f0)]) = textCount pre := by
            rw [textCount_append, textCount_cons_f c0 f0 [] hd]
            rfl
          have htail := ih (pre ++ [(c0, f0)])
            (by rw [hsplit]; simp)
            (by rw [ha1, ha2]; exact hwot)
          rw [htail]
          have hms0 : c0.max_str_len = 0 := by
            rcases hms (c0, f0) (by
              rw [hsplit]
              exact List.mem_append_right _ (List.mem_cons_self _ _))
              with hx | hx
            · exact absurd (hx.symm.trans hd) (by decide)
            · exact hx
          have hlb : c0.length_bytes = c0.data_type.length_bytes := by
            show c0.data_type.length_bytes + c0.max_str_len = _
            rw [hms0]
            rfl
          have hhead : Row.deserializeColumn (rowBuffer pairs0)
              (textCount pairs0)
              ((List.range (textCount pairs0)).map
                (fun i => readLE2At (rowBuffer pairs0) (2 * i))) c0 =
              some f0 := by
            rw [deserializeColumn_fixed (rowBuffer pairs0) (textCount pairs0)
              ((List.range (textCount pairs0)).map
                (fun i => readLE2At (rowBuffer pairs0) (2 * i))) c0 hd,
              hso, hlb]
            have hF : fixedConcat pairs0 =
                fixedConcat pre ++
                  (Field.serialize f0 ++ fixedConcat suf2) := by
              rw [hsplit, fixedConcat_append, fixedConcat_cons_f c0 f0 suf2 hd]
            have hbufd : rowBuffer pairs0 =
                ((varFieldOffsets pairs0 (sumFixedP pairs0)).flatMap
                    (fun o => toLE2 (o + 2 * (varFieldOffsets pairs0
                      (sumFixedP pairs0)).length)) ++
                  fixedConcat pre) ++
                (Field.serialize f0 ++
                  (fixedConcat suf2 ++ textConcat pairs0)) := by
              unfold rowBuffer
              rw [hF]
              simp [List.append_assoc]
            rw [hbufd]
            rw [if_pos (by
              simp only [List.length_append]
              rw [flatMap_toLE2_length, varFieldOffsets_length,
                fixedConcat_length pre hmpre,
                serialize_length_fixed c0 f0 hd hm00]
              omega)]
            rw [slice_middle _ _ _ _ _
              (by rw [List.length_append, flatMap_toLE2_length,
                    varFieldOffsets_length, fixedConcat_length pre hmpre]
                  omega)
              (by rw [List.length_append, flatMap_toLE2_length,
                    varFieldOffsets_length, fixedConcat_length pre hmpre,
                    serialize_length_fixed c0 f0 hd hm00]
                  omega)]
            exact field_roundtrip c0 f0 hm00
          exact congrArg
            (fun x => x :: List.map (fun p => some p.2) suf2) hhead
      | true =>
          have hwo2 : c0.stored_offset = textCount pre ∧
              wellOffset suf2 (sumFixedP pre) (textCount pre + 1) := by
            have he : wellOffset ((c0, f0) :: suf2) (sumFixedP pre)
                (textCount pre) =
                (c0.stored_offset = textCount pre ∧
                  wellOffset suf2 (sumFixedP pre) (textCount pre + 1)) := by
              show (match c0.data_type == DataType.text with
                    | true => _
                    | false => _) = _
              rw [hd]
            rw [he] at hwo
            exact hwo
          obtain ⟨hso, hwot⟩ := hwo2
          have ha1 : sumFixedP (pre ++ [(c0, f0)]) = sumFixedP pre := by
            rw [sumFixedP_append, sumFixedP_cons_t c0 f0 [] hd]
            rfl
          have ha2 : textCount (pre ++ [(c0, f0)]) = textCount pre + 1 := by
            rw [textCount_append, textCount_cons_t c0 f0 [] hd]
            rfl
          have htail := ih (pre ++ [(c0, f0)])
            (by rw [hsplit]; simp)
            (by rw [ha1, ha2]; exact hwot)
          rw [htail]
          have hcount : textCount pairs0 =
              textCount pre + 1 + textCount suf2 := by
            rw [hsplit, textCount_append, textCount_cons_t c0 f0 suf2 hd]
            omega
          have hT : textConcat pairs0 =
              textConcat pre ++ (Field.serialize f0 ++ textConcat suf2) := by
            rw [hsplit, textConcat_append, textConcat_cons_t c0 f0 suf2 hd]
          have hbufd : rowBuffer pairs0 =
              ((varFieldOffsets pairs0 (sumFixedP pairs0)).flatMap
                  (fun o => toLE2 (o + 2 * (varFieldOffsets pairs0
                    (sumFixedP pairs0)).length)) ++
                fixedConcat pairs0 ++ textConcat pre) ++
              (Field.serialize f0 ++ textConcat suf2) := by
            unfold rowBuffer
            rw [hT]
            simp [List.append_assoc]
          have hoval : (varFieldOffsets pairs0 (sumFixedP pairs0)).getD
              (textCount pre) 0 = sumFixedP pairs0 + textSizes pre := by
            conv =>
              lhs
              rw [hsplit, varFieldOffsets_append]
            rw [getD_append_ge _ _ _ _
              (by rw [varFieldOffsets_length])]
            rw [varFieldOffsets_length, Nat.sub_self,
              varFieldOffsets_cons_t c0 f0 suf2 _ hd, List.getD_cons_zero,
              hsplit]
          have hsq : ((List.range (textCount pairs0)).map
              (fun i => readLE2At (rowBuffer pairs0)
                (2 * i)))[textCount pre]? =
              some (sumFixedP pairs0 + textSizes pre +
                2 * textCount pairs0) := by
            rw [getElem?_map_range _ _ _ (by omega)]
            rw [rowBuffer_offset_read pairs0 hm0 hbound _ (by omega), hoval]
          have hdt : c0.data_type = DataType.text := eq_of_beq hd
          have hhead : Row.deserializeColumn (rowBuffer pairs0)
              (textCount pairs0)
              ((List.range (textCount pairs0)).map
                (fun i => readLE2At (rowBuffer pairs0) (2 * i))) c0 =
              some f0 := by
            by_cases hlast : textCount pre = textCount pairs0 - 1
            · have hsufz : textCount suf2 = 0 := by omega
              have htsz : textSizes pairs0 =
                  textSizes pre + f0.get_size := by
                rw [hsplit, textSizes_append, textSizes_cons_t c0 f0 suf2 hd,
                  textSizes_zero_of_count suf2 hsufz]
                rfl
              rw [deserializeColumn_text (rowBuffer pairs0)
                (textCount pairs0)
                ((List.range (textCount pairs0)).map
                  (fun i => readLE2At (rowBuffer pairs0) (2 * i))) c0 hd
                (sumFixedP pairs0 + textSizes pre + 2 * textCount pairs0)
                (rowBuffer pairs0).length
                (by rw [hso]; exact hsq)
                (by rw [hso, if_pos hlast])]
              rw [rowBuffer_length pairs0 hm0]
              rw [if_pos ⟨by omega, Nat.le_refl _⟩]
              rw [hbufd]
              rw [slice_middle _ _ _ _ _
                (by rw [List.length_append, List.length_append,
                      flatMap_toLE2_length, varFieldOffsets_length,
                      fixedConcat_length pairs0 hm0,
                      textConcat_length pre hmpre]
                    omega)
                (by rw [List.length_append, List.length_append,
                      flatMap_toLE2_length, varFieldOffsets_length,
                      fixedConcat_length pairs0 hm0,
                      textConcat_length pre hmpre,
                      serialize_length_text c0 f0 hd hm00, htsz]
                    omega)]
              rw [← hdt]
              exact field_roundtrip c0 f0 hm00
            · have hsufnz : textCount suf2 ≠ 0 := by omega
              have hoval2 : (varFieldOffsets pairs0
                  (sumFixedP pairs0)).getD (textCount pre + 1) 0 =
                  sumFixedP pairs0 + textSizes pre + f0.get_size := by
                conv =>
                  lhs
                  rw [hsplit, varFieldOffsets_append]
                rw [getD_append_ge _ _ _ _
                  (by rw [varFieldOffsets_length]; omega)]
                rw [varFieldOffsets_length]
                have hone : textCount pre + 1 - textCount pre = 1 := by omega
                rw [hone, varFieldOffsets_cons_t c0 f0 suf2 _ hd,
                  List.getD_cons_succ,
                  varFieldOffsets_head suf2 _ hsufnz, hsplit]
              have he2 : ((List.range (textCount pairs0)).map
                  (fun i => readLE2At (rowBuffer pairs0)
                    (2 * i)))[textCount pre + 1]? =
                  some (sumFixedP pairs0 + textSizes pre + f0.get_size +
                    2 * textCount pairs0) := by
                rw [getElem?_map_range _ _ _ (by omega)]
                rw [rowBuffer_offset_read pairs0 hm0 hbound _ (by omega),
                  hoval2]
              have htsz2 : textSizes pairs0 =
                  textSizes pre + (f0.get_size + textSizes suf2) := by
                rw [hsplit, textSizes_append, textSizes_cons_t c0 f0 suf2 hd]
              rw [deserializeColumn_text (rowBuffer pairs0)
                (textCount pairs0)
                ((List.range (textCount pairs0)).map
                  (fun i => readLE2At (rowBuffer pairs0) (2 * i))) c0 hd
                (sumFixedP pairs0 + textSizes pre + 2 * textCount pairs0)
                (sumFixedP pairs0 + textSizes pre + f0.get_size +
                  2 * textCount pairs0)
                (by rw [hso]; exact hsq)
                (by rw [hso, if_neg hlast]; exact he2)]
              rw [rowBuffer_length pairs0 hm0]
              rw [if_pos ⟨by omega, by omega⟩]
              rw [hbufd]
              rw [slice_middle _ _ _ _ _
                (by rw [List.length_append, List.length_append,
                      flatMap_toLE2_length, varFieldOffsets_length,
                      fixedConcat_length pairs0 hm0,
                      textConcat_length pre hmpre]
                    omega)
                (by rw [List.length_append, List.length_append,
                      flatMap_toLE2_length, varFieldOffsets_length,
                      fixedConcat_length pairs0 hm0,
                      textConcat_length pre hmpre,
                      serialize_length_text c0 f0 hd hm00]
                    omega)]
              rw [← hdt]
              exact field_roundtrip c0 f0 hm00
          exact congrArg
            (fun x => x :: List.map (fun p => some p.2) suf2) hhead

/-- The number of Text columns in a raw column list. -/
def textCountCols : List Column → Nat
  | [] => 0
  | c :: rest =>
      (match c.data_type == DataType.text with
       | true => 1
       | false => 0) + textCountCols rest

/-- The total fixed byte size of a raw column list. -/
def sumFixedCols : List Column → Nat
  | [] => 0
  | c :: rest =>
      (match c.data_type == DataType.text with
       | true => 0
       | false => c.data_type.length_bytes) + sumFixedCols rest

/-- The column list Table::add_column builds: each Text column is stamped
with the running text index, each fixed column with the running fixed
offset. -/
def buildCols : List Column → Nat → Nat → List Column
  | [], _, _ => []
  | c :: rest, fa, va =>
      match c.data_type == DataType.text with
      | true => { c with stored_offset := va } :: buildCols rest fa (va + 1)
      | false => { c with stored_offset := fa } ::
          buildCols rest (fa + c.data_type.length_bytes) va

theorem textCountCols_cons_t (c : Column) (rest : List Column)
    (hd : (c.data_type == DataType.text) = true) :
    textCountCols (c :: rest) = 1 + textCountCols rest := by
  show (match c.data_type == DataType.text with
        | true => 1
        | false => 0) + textCountCols rest = _
  rw [hd]

theorem textCountCols_cons_f (c : Column) (rest : List Column)
    (hd : (c.data_type == DataType.text) = false) :
    textCountCols (c :: rest) = textCountCols rest := by
  show (match c.data_type == DataType.text with
        | true => 1
        | false => 0) + textCountCols rest = _
  rw [hd]
  exact Nat.zero_add _

theorem sumFixedCols_cons_t (c : Column) (rest : List Column)
    (hd : (c.data_type == DataType.text) = true) :
    sumFixedCols (c :: rest) = sumFixedCols rest := by
  show (match c.data_type == DataType.text with
        | true => 0
        | false => c.data_type.length_bytes) + sumFixedCols rest = _
  rw [hd]
  exact Nat.zero_add _

theorem sumFixedCols_cons_f (c : Column) (rest : List Column)
    (hd : (c.data_type == DataType.text) = false) :
    sumFixedCols (c :: rest) =
      c.data_type.length_bytes + sumFixedCols rest := by
  show (match c.data_type == DataType.text with
        | true => 0
        | false => c.data_type.length_bytes) + sumFixedCols rest = _
  rw [hd]

theorem buildCols_cons_t (c : Column) (rest : List Column) (fa va : Nat)
    (hd : (c.data_type == DataType.text) = true) :
    buildCols (c :: rest) fa va =
      { c with stored_offset := va } :: buildCols rest fa (va + 1) := by
  show (match c.data_type == DataType.text with
        | true => _
        | false => _) = _
  rw [hd]

theorem buildCols_cons_f (c : Column) (rest : List Column) (fa va : Nat)
    (hd : (c.data_type == DataType.text) = false) :
    buildCols (c :: rest) fa va =
      { c with stored_offset := fa } ::
        buildCols rest (fa + c.data_type.length_bytes) va := by
  show (match c.data_type == DataType.text with
        | true => _
        | false => _) = _
  rw [hd]

theorem wellOffset_cons_t (c : Column) (f : Field)
    (rest : List (Column × Field)) (fa va : Nat)
    (hd : (c.data_type == DataType.text) = true) :
    wellOffset ((c, f) :: rest) fa va =
      (c.stored_offset = va ∧ wellOffset rest fa (va + 1)) := by
  show (match c.data_type == DataType.text with
        | true => _
        | false => _) = _
  rw [hd]

theorem wellOffset_cons_f (c : Column) (f : Field)
    (rest : List (Column × Field)) (fa va : Nat)
    (hd : (c.data_type == DataType.text) = false) :
    wellOffset ((c, f) :: rest) fa va =
      (c.stored_offset = fa ∧
        wellOffset rest (fa + c.data_type.length_bytes) va) := by
  show (match c.data_type == DataType.text with
        | true => _
        | false => _) = _
  rw [hd]

theorem buildCols_length (cols : List Column) :
    ∀ fa va, (buildCols cols fa va).length = cols.length := by
  induction cols with
  | nil => intro fa va; rfl
  | cons c rest ih =>
      intro fa va
      cases hd : (c.data_type == DataType.text) with
      | true =>
          rw [buildCols_cons_t c rest fa va hd, List.length_cons, ih,
            List.length_cons]
      | false =>
          rw [buildCols_cons_f c rest fa va hd, List.length_cons, ih,
            List.length_cons]

theorem filterText_buildCols (cols : List Column) :
    ∀ fa va, ((buildCols cols fa va).filter
      (fun c => c.data_type == DataType.text)).length = textCountCols cols := by
  induction cols with
  | nil => intro fa va; rfl
  | cons c rest ih =>
      intro fa va
      cases hd : (c.data_type == DataType.text) with
      | true =>
          rw [buildCols_cons_t c rest fa va hd]
          have hf : List.filter (fun x => x.data_type == DataType.text)
              ({ c with stored_offset := va } :: buildCols rest fa (va + 1)) =
              { c with stored_offset := va } ::
                List.filter (fun x => x.data_type == DataType.text)
                  (buildCols rest fa (va + 1)) := by
            simp [List.filter, hd]
          rw [hf, List.length_cons, ih fa (va + 1),
            textCountCols_cons_t c rest hd]
          omega
      | false =>
          rw [buildCols_cons_f c rest fa va hd]
          have hf : List.filter (fun x => x.data_type == DataType.text)
              ({ c with stored_offset := fa } ::
                buildCols rest (fa + c.data_type.length_bytes) va) =
              List.filter (fun x => x.data_type == DataType.text)
                (buildCols rest (fa + c.data_type.length_bytes) va) := by
            simp [List.filter, hd]
          rw [hf, ih _ va, textCountCols_cons_f c rest hd]

theorem foldl_add_column_spec (cols : List Column) :
    ∀ t : Table,
      (cols.foldl Table.add_column t).fixed_field_size_bytes =
        t.fixed_field_size_bytes + sumFixedCols cols ∧
      (cols.foldl Table.add_column t).columns =
        t.columns ++ buildCols cols t.fixed_field_size_bytes
          t.variable_length_fields := by
  induction cols with
  | nil =>
      intro t
      exact ⟨rfl, (List.append_nil _).symm⟩
  | cons c rest ih =>
      intro t
      cases hd : (c.data_type == DataType.text) with
      | true =>
          have hstep : Table.add_column t c =
              Table.mk t.fixed_field_size_bytes (t.columns ++
                [{ c with stored_offset := t.variable_length_fields }]) := by
            show (match c.data_type == DataType.text with
                  | true => _
                  | false => _) = _
            rw [hd]
          have hfix2 : (Table.add_column t c).fixed_field_size_bytes =
              t.fixed_field_size_bytes := by rw [hstep]
          have hcols2 : (Table.add_column t c).columns =
              t.columns ++
                [{ c with stored_offset := t.variable_length_fields }] := by
            rw [hstep]
          have hvlf : (Table.add_column t c).variable_length_fields =
              t.variable_length_fields + 1 := by
            show ((Table.add_column t c).columns.filter
              (fun x => x.data_type == DataType.text)).length = _
            rw [hcols2, List.filter_append, List.length_append]
            have hone : List.filter (fun x => x.data_type == DataType.text)
                [{ c with stored_offset := t.variable_length_fields }] =
                [{ c with stored_offset := t.variable_length_fields }] := by
              simp [List.filter, hd]
            rw [hone]
            rfl
          obtain ⟨ihf, ihc⟩ := ih (Table.add_column t c)
          constructor
          · rw [List.foldl_cons, ihf, hfix2, sumFixedCols_cons_t c rest hd]
          · rw [List.foldl_cons, ihc, hcols2, hfix2, hvlf,
              buildCols_cons_t c rest _ _ hd]
            simp [List.append_assoc]
      | false =>
          have hstep : Table.add_column t c =
              Table.mk (t.fixed_field_size_bytes + c.data_type.length_bytes)
                (t.columns ++
                  [{ c with stored_offset := t.fixed_field_size_bytes }]) := by
            show (match c.data_type == DataType.text with
                  | true => _
                  | false => _) = _
            rw [hd]
          have hfix2 : (Table.add_column t c).fixed_field_size_bytes =
              t.fixed_field_size_bytes + c.data_type.length_bytes := by
            rw [hstep]
          have hcols2 : (Table.add_column t c).columns =
              t.columns ++
                [{ c with stored_offset := t.fixed_field_size_bytes }] := by
            rw [hstep]
          have hvlf : (Table.add_column t c).variable_length_fields =
              t.variable_length_fields := by
            show ((Table.add_column t c).columns.filter
              (fun x => x.data_type == DataType.text)).length = _
            rw [hcols2, List.filter_append, List.length_append]
            have hzero : List.filter (fun x => x.data_type == DataType.text)
                [{ c with stored_offset := t.fixed_field_size_bytes }] =
                [] := by
              simp [List.filter, hd]
            rw [hzero]
            rfl
          obtain ⟨ihf, ihc⟩ := ih (Table.add_column t c)
          constructor
          · rw [List.foldl_cons, ihf, hfix2, sumFixedCols_cons_f c rest hd]
            omega
          · rw [List.foldl_cons, ihc, hcols2, hfix2, hvlf,
              buildCols_cons_f c rest _ _ hd]
            simp [List.append_assoc]

theorem ofColumns_columns (cols : List Column) :
    (Table.ofColumns cols).columns = buildCols cols 0 0 :=
  (foldl_add_column_spec cols Table.new).2.trans rfl

theorem ofColumns_fixed (cols : List Column) :
    (Table.ofColumns cols).fixed_field_size_bytes = sumFixedCols cols :=
  (foldl_add_column_spec cols Table.new).1.trans (Nat.zero_add _)

theorem textCount_zip_build (cols : List Column) :
    ∀ (r : Row) (fa va : Nat), r.length = cols.length →
      textCount ((buildCols cols fa va).zip r) = textCountCols cols := by
  induction cols with
  | nil => intro r fa va h; rfl
  | cons c rest ih =>
      intro r fa va h
      cases r with
      | nil => exact (Nat.succ_ne_zero _ h.symm).elim
      | cons f r2 =>
          have h2 : r2.length = rest.length := by simpa using h
          cases hd : (c.data_type == DataType.text) with
          | true =>
              rw [buildCols_cons_t c rest fa va hd, List.zip_cons_cons,
                textCount_cons_t { c with stored_offset := va } f _ hd,
                ih r2 fa (va + 1) h2,
                textCountCols_cons_t c rest hd]
          | false =>
              rw [buildCols_cons_f c rest fa va hd, List.zip_cons_cons,
                textCount_cons_f { c with stored_offset := fa } f _ hd,
                ih r2 _ va h2,
                textCountCols_cons_f c rest hd]

theorem sumFixedP_zip_build (cols : List Column) :
    ∀ (r : Row) (fa va : Nat), r.length = cols.length →
      sumFixedP ((buildCols cols fa va).zip r) = sumFixedCols cols := by
  induction cols with
  | nil => intro r fa va h; rfl
  | cons c rest ih =>
      intro r fa va h
      cases r with
      | nil => exact (Nat.succ_ne_zero _ h.symm).elim
      | cons f r2 =>
          have h2 : r2.length = rest.length := by simpa using h
          cases hd : (c.data_type == DataType.text) with
          | true =>
              rw [buildCols_cons_t c rest fa va hd, List.zip_cons_cons,
                sumFixedP_cons_t { c with stored_offset := va } f _ hd,
                ih r2 fa (va + 1) h2,
                sumFixedCols_cons_t c rest hd]
          | false =>
              rw [buildCols_cons_f c rest fa va hd, List.zip_cons_cons,
                sumFixedP_cons_f { c with stored_offset := fa } f _ hd,
                ih r2 _ va h2,
                sumFixedCols_cons_f c rest hd]

theorem textSizes_zip_eq (cols : List Column) :
    ∀ (r : Row) (fa va fa2 va2 : Nat), r.length = cols.length →
      textSizes ((buildCols cols fa va).zip r) =
        textSizes ((buildCols cols fa2 va2).zip r) := by
  induction cols with
  | nil => intro r fa va fa2 va2 h; rfl
  | cons c rest ih =>
      intro r fa va fa2 va2 h
      cases r with
      | nil => exact (Nat.succ_ne_zero _ h.symm).elim
      | cons f r2 =>
          have h2 : r2.length = rest.length := by simpa using h
          cases hd : (c.data_type == DataType.text) with
          | true =>
              rw [buildCols_cons_t c rest fa va hd,
                buildCols_cons_t c rest fa2 va2 hd, List.zip_cons_cons,
                List.zip_cons_cons,
                textSizes_cons_t { c with stored_offset := va } f _ hd,
                textSizes_cons_t { c with stored_offset := va2 } f _ hd,
                ih r2 fa (va + 1) fa2 (va2 + 1) h2]
          | false =>
              rw [buildCols_cons_f c rest fa va hd,
                buildCols_cons_f c rest fa2 va2 hd, List.zip_cons_cons,
                List.zip_cons_cons,
                textSizes_cons_f { c with stored_offset := fa } f _ hd,
                textSizes_cons_f { c with stored_offset := fa2 } f _ hd,
                ih r2 _ va _ va2 h2]

theorem wellOffset_zip_build (cols : List Column) :
    ∀ (r : Row) (fa va : Nat), r.length = cols.length →
      wellOffset ((buildCols cols fa va).zip r) fa va := by
  induction cols with
  | nil => intro r fa va h; trivial
  | cons c rest ih =>
      intro r fa va h
      cases r with
      | nil => exact (Nat.succ_ne_zero _ h.symm).elim
      | cons f r2 =>
          have h2 : r2.length = rest.length := by simpa using h
          cases hd : (c.data_type == DataType.text) with
          | true =>
              rw [buildCols_cons_t c rest fa va hd, List.zip_cons_cons,
                wellOffset_cons_t { c with stored_offset := va } f _ fa va hd]
              exact ⟨rfl, ih r2 fa (va + 1) h2⟩
          | false =>
              rw [buildCols_cons_f c rest fa va hd, List.zip_cons_cons,
                wellOffset_cons_f { c with stored_offset := fa } f _ fa va hd]
              exact ⟨rfl, ih r2 (fa + c.data_type.length_bytes) va h2⟩

theorem map_comp_fst {a b g1 : Type} (g : a → g1) (l : List (a × b)) :
    (l.map Prod.fst).map g = l.map (fun p => g p.1) := by
  rw [List.map_map]
  rfl

theorem readLE2At?_eq (l : List Nat) (pos : Nat) (h : pos + 1 < l.length) :
    readLE2At? l pos = some (readLE2At l pos) := by
  unfold readLE2At? readLE2At
  rw [List.getElem?_eq_getElem (by omega : pos < l.length),
    List.getElem?_eq_getElem h]
  rw [List.getD_eq_getElem l 0 (by omega : pos < l.length),
    List.getD_eq_getElem l 0 h]

theorem mapM_readLE2At (l : List Nat) :
    ∀ xs : List Nat, (∀ i ∈ xs, 2 * i + 1 < l.length) →
      xs.mapM (fun i => readLE2At? l (2 * i)) =
        some (xs.map (fun i => readLE2At l (2 * i))) := by
  intro xs
  induction xs with
  | nil => intro hx; rfl
  | cons x tl ih =>
      intro hx
      have h1 : 2 * x + 1 < l.length := hx x (List.mem_cons_self x tl)
      have h2 := ih (fun i hi => hx i (List.mem_cons_of_mem x hi))
      simp only [List.mapM_cons, List.map_cons]
      rw [readLE2At?_eq l (2 * x) h1, h2]
      rfl

theorem deserialize_eq (bytes : List Nat) (schema : Table)
    (h : 2 * schema.variable_length_fields ≤ bytes.length) :
    Row.deserialize bytes schema =
      schema.columns.mapM (Row.deserializeColumn bytes
        schema.variable_length_fields
        ((List.range schema.variable_length_fields).map
          (fun i => readLE2At bytes (2 * i)))) := by
  show (match (List.range schema.variable_length_fields).mapM
      (fun i => readLE2At? bytes (2 * i)) with
    | none => none
    | some offsets =>
        schema.columns.mapM (Row.deserializeColumn bytes
          schema.variable_length_fields offsets)) = _
  rw [mapM_readLE2At bytes (List.range schema.variable_length_fields)
    (fun i hi => by
      have h2 := List.mem_range.mp hi
      omega)]

theorem mapM_eq_some_of_map {a b : Type} (l : List (a × b))
    (f : a → Option b)
    (h : l.map (fun p => f p.1) = l.map (fun p => some p.2)) :
    (l.map Prod.fst).mapM f = some (l.map Prod.snd) := by
  induction l with
  | nil => rfl
  | cons p tl ih =>
      simp only [List.map_cons] at h
      injection h with h1 h2
      simp only [List.map_cons, List.mapM_cons, h1, ih h2]
      rfl

/-- C3 (amended): for every column list whose non-text columns declare
max_str_len = 0, and every row whose fields all match their columns'
exact declared types (fieldMatches: no Nulls, integers in i32 range,
float patterns in u32 range) and whose serialized size stays below 2^16
so every u16 header offset fits, deserializing the serialized bytes
against the same schema returns the original row - in particular none of
deserialization's slice, unwrap or try_into panics fires. -/
theorem row_roundtrip_amended (cols : List Column) (r : Row)
    (hlen : r.length = cols.length)
    (hm : ∀ p ∈ (Table.ofColumns cols).columns.zip r,
      fieldMatches p.1 p.2 = true)
    (hms : ∀ p ∈ (Table.ofColumns cols).columns.zip r,
      (p.1.data_type == DataType.text) = true ∨ p.1.max_str_len = 0)
    (hbound : 2 * textCount ((Table.ofColumns cols).columns.zip r) +
      sumFixedP ((Table.ofColumns cols).columns.zip r) +
      textSizes ((Table.ofColumns cols).columns.zip r) < 2 ^ 16) :
    (Row.serialize r (Table.ofColumns cols)).bind
      (fun bytes => Row.deserialize bytes (Table.ofColumns cols)) =
      some r := by
  by_cases hne : r.length = 0
  · have hr : r = [] := List.eq_nil_of_length_eq_zero hne
    have hc : cols = [] := List.eq_nil_of_length_eq_zero (by omega)
    subst hr
    subst hc
    rfl
  · have hcolumns := ofColumns_columns cols
    have hfsz := ofColumns_fixed cols
    have hlen2 : r.length = (Table.ofColumns cols).columns.length := by
      rw [hcolumns, buildCols_length]
      exact hlen
    have hsf : sumFixedP ((Table.ofColumns cols).columns.zip r) =
        (Table.ofColumns cols).fixed_field_size_bytes := by
      rw [hcolumns, hfsz, sumFixedP_zip_build cols r 0 0 hlen]
    have htc : textCount ((Table.ofColumns cols).columns.zip r) =
        (Table.ofColumns cols).variable_length_fields := by
      show _ = ((Table.ofColumns cols).columns.filter
        (fun c => c.data_type == DataType.text)).length
      rw [hcolumns, filterText_buildCols, textCount_zip_build cols r 0 0 hlen]
    have hser : Row.serialize r (Table.ofColumns cols) =
        some (rowBuffer ((Table.ofColumns cols).columns.zip r)) := by
      rw [serialize_shape (Table.ofColumns cols) r hlen2 hne
        (by rw [fixedConcat_length _ hm]; exact hsf)
        (textConcat_length _ hm)]
      rw [← hsf]
      rfl
    rw [hser]
    show Row.deserialize
      (rowBuffer ((Table.ofColumns cols).columns.zip r))
      (Table.ofColumns cols) = some r
    rw [deserialize_eq _ _ (by
      rw [← htc, rowBuffer_length _ hm]
      omega)]
    rw [← htc]
    have hfst : List.map Prod.fst ((Table.ofColumns cols).columns.zip r) =
        (Table.ofColumns cols).columns :=
      List.map_fst_zip _ _ (le_of_eq hlen2.symm)
    have hwo0 : wellOffset ((Table.ofColumns cols).columns.zip r)
        (sumFixedP ([] : List (Column × Field))) (textCount []) := by
      rw [hcolumns]
      exact wellOffset_zip_build cols r 0 0 hlen
    have h1 := readCols_correct ((Table.ofColumns cols).columns.zip r)
      hm hms hbound ((Table.ofColumns cols).columns.zip r) [] rfl hwo0
    have h2 : List.map Prod.snd ((Table.ofColumns cols).columns.zip r) = r :=
      List.map_snd_zip _ _ (le_of_eq hlen2)
    have h4 := mapM_eq_some_of_map ((Table.ofColumns cols).columns.zip r)
      (Row.deserializeColumn
        (rowBuffer ((Table.ofColumns cols).columns.zip r))
        (textCount ((Table.ofColumns cols).columns.zip r))
        ((List.range
          (textCount ((Table.ofColumns cols).columns.zip r))).map
          (fun i => readLE2At
            (rowBuffer ((Table.ofColumns cols).columns.zip r)) (2 * i)))) h1
    have h5 : (Table.ofColumns cols).columns.mapM
        (Row.deserializeColumn
          (rowBuffer ((Table.ofColumns cols).columns.zip r))
          (textCount ((Table.ofColumns cols).columns.zip r))
          ((List.range
            (textCount ((Table.ofColumns cols).columns.zip r))).map
            (fun i => readLE2At
              (rowBuffer ((Table.ofColumns cols).columns.zip r))
              (2 * i)))) =
        (((Table.ofColumns cols).columns.zip r).map Prod.fst).mapM
          (Row.deserializeColumn
            (rowBuffer ((Table.ofColumns cols).columns.zip r))
            (textCount ((Table.ofColumns cols).columns.zip r))
            ((List.range
              (textCount ((Table.ofColumns cols).columns.zip r))).map
              (fun i => readLE2At
                (rowBuffer ((Table.ofColumns cols).columns.zip r))
                (2 * i)))) := by
      rw [hfst]
    exact h5.trans (h4.trans (congrArg some h2))

/-- The amended C3 theorem at a concrete schema and row: an INT column
and a TEXT column, row (7, "hi"). -/
theorem row_roundtrip_amended_witness :
    (Row.serialize [Field.integer 7, Field.string [104, 105]]
      (Table.ofColumns [Column.mk DataType.int false 0 0,
        Column.mk DataType.text false 5 0])).bind
      (fun bytes => Row.deserialize bytes
        (Table.ofColumns [Column.mk DataType.int false 0 0,
          Column.mk DataType.text false 5 0])) =
      some [Field.integer 7, Field.string [104, 105]] :=
  row_roundtrip_amended
    [Column.mk DataType.int false 0 0, Column.mk DataType.text false 5 0]
    [Field.integer 7, Field.string [104, 105]]
    (by decide) (by decide) (by decide) (by decide)

end RustyDb
